import Mathlib

/-!
# Manx1 / Manx2 short-message AEAD: embedding of the C sources

Sources embedded: `manx-common.h` (bit-buffer primitives), `manx1.c`, `manx2.c`,
`manx.h`, `manx-config.h`, `block_cipher.h`.

Conventions of the embedding.

* An octet (`uint8_t`) is a `Fin 256`; every store truncates with `% 256`.
* A C byte array is a total map from index to octet (`Buf`).  A pointer into an
  array is the array together with a base index; a read-only pointer `p + k` is the
  shifted view `offs p k`.  Accesses past the declared size of an array are accesses
  of the same map at that index.
* For a local array of 16 octets the indices from 16 on stand for the memory that
  follows the array, and that memory belongs to the array alone: a store past the end
  of the array shows at its index and disturbs nothing else, whereas in C it is out
  of bounds.  The lemmas are statements about these maps; a result of the C function
  follows from them on the inputs for which no access leaves the local arrays.  The
  theorems of the section Claims that give what a function returns on success are
  stated on such inputs, and the stores past the end of an array are shown there on
  the octet they change.
* Local arrays start with indeterminate contents; the functions that declare such
  arrays take these contents as the argument `junk`.
* `size_t` is 64 bits wide.  Where the source subtracts `size_t` values that can go
  below zero, the subtraction is `ssub` (modulo `2 ^ 64`).  Bit cursors and lengths
  handed to the bit-buffer primitives are natural numbers.
* The block cipher is a pair of functions on 16-octet blocks that take the round
  keys; a missing key schedule (`kexpand == NULL`) is `none`.
-/

namespace Manx

/-! ## Machine words and arrays -/

/-- One octet, the C type `uint8_t`. -/
abbrev Byte := Fin 256

/-- A C byte array: index to octet. -/
abbrev Buf := Nat → Byte

/-- One cipher block of `BLOCKBYTES` octets. -/
abbrev Block := Fin 16 → Byte

/-- Truncating conversion to `uint8_t`. -/
def u8 (v : Nat) : Byte := ⟨v % 256, Nat.mod_lt _ (by decide)⟩

/-- The store `buf[i] = v` with `buf` of type `uint8_t[]`. -/
def wr (buf : Buf) (i v : Nat) : Buf := fun j => if j = i then u8 v else buf j

/-- The read-only pointer `buf + k`. -/
def offs (buf : Buf) (k : Nat) : Buf := fun i => buf (k + i)

/-- An array of `size` octets all set to `0x00`, the rest of memory indeterminate. -/
def zeroed (size : Nat) (junk : Buf) : Buf := fun i => if i < size then 0 else junk i

/-- The 16 octets at `buf + o`, as a block. -/
def rdBlock (buf : Buf) (o : Nat) : Block := fun i => buf (o + i.val)

/-- Store a block at `buf + o`. -/
def wrBlock (buf : Buf) (o : Nat) (blk : Block) : Buf :=
  fun j => if h : o ≤ j ∧ j < o + 16 then blk ⟨j - o, by omega⟩ else buf j

/-- Modulus of `size_t`. -/
def SZ : Nat := 18446744073709551616

/-- Subtraction of `size_t` values. -/
def ssub (x y : Nat) : Nat := (x + (SZ - y % SZ)) % SZ

/-- Addition of `size_t` values. -/
def sadd (x y : Nat) : Nat := (x + y) % SZ

/-- Conversion of a `size_t` value to `int` (32 bits, two's complement). -/
def to_int (x : Nat) : Int :=
  if x % 4294967296 < 2147483648 then ((x % 4294967296 : Nat) : Int)
  else ((x % 4294967296 : Nat) : Int) - 4294967296

/-! ## Constants (`block_cipher.h`, `manx.h`, `manx-config.h`) -/

def BLOCKBYTES : Nat := 16
def BLOCKBITS : Nat := BLOCKBYTES * 8
def MANX_TAU : Nat := BLOCKBITS / 2
def MANX1_ALPHAMAX : Nat := 64
def MANX2_ALPHAMAX : Nat := 16

/-- The macro `MANX2_ALPHASTAR`, for a value of `MANX2_VARIABLE_ADLEN`. -/
def MANX2_ALPHASTAR (vadlen : Nat) : Nat := MANX2_ALPHAMAX + vadlen

/-- Shipped value of `MANX1_VARIABLE_ADLEN` in `manx-config.h`. -/
def MANX1_VARIABLE_ADLEN : Nat := 1

/-- Shipped value of `MANX2_VARIABLE_ADLEN` in `manx-config.h`. -/
def MANX2_VARIABLE_ADLEN : Nat := 0

/-! ## Macros of `manx-common.h` -/

def MAX (x y : Nat) : Nat := if x < y then y else x

/-- The macro `GETBIT(x, i)`. -/
def GETBIT (x i : Nat) : Nat := (x >>> i) &&& 1

/-- The macro `SETBIT(x, i)`: the value assigned to `x`. -/
def SETBIT (x i : Nat) : Nat := x ||| (1 <<< i)

/-- The macro `CLRBIT(x, i)`: the value assigned to `x` (`~` over `unsigned long`). -/
def CLRBIT (x i : Nat) : Nat := x &&& (SZ - 1 - (1 <<< i))

/-- The macro `CHGBIT(x, i, b)`: the value assigned to `x`; `-(b)` is taken in
two's complement over 64 bits. -/
def CHGBIT (x i b : Nat) : Nat := x ^^^ ((((SZ - b % SZ) % SZ) ^^^ x) &&& (1 <<< i))

/-- The statement `SETBIT(buf[oct], 7-bit)`. -/
def setbit_at (buf : Buf) (oct bit : Nat) : Buf :=
  wr buf oct (SETBIT (buf oct).val (7 - bit))

/-! ## Bit-buffer primitives of `manx-common.h` -/

/-- The loop of `inc_bitpos`. -/
def inc_bitpos_loop : Nat → Nat → Nat → Nat × Nat
  | 0, oct, bit => (oct, bit)
  | fuel + 1, oct, bit =>
    if bit ≥ 8 then inc_bitpos_loop fuel (oct + 1) (bit - 8) else (oct, bit)

/-- The function `inc_bitpos(&oct, &bit, val)`; returns the new `(oct, bit)`. -/
def inc_bitpos (oct bit : Nat) (val : Int) : Nat × Nat :=
  let bit1 := (((bit : Int) + val) % (SZ : Int)).toNat
  inc_bitpos_loop bit1 oct bit1

/-- The `while (inlen >= 8)` loop of `rshift`; `out` is the array with base `o`. -/
def rshift_loop (o : Nat) (inp : Buf) (b mask : Nat) : Nat → Buf → Nat → Nat → Buf × Nat × Nat
  | 0, out, i, inlen => (out, i, inlen)
  | fuel + 1, out, i, inlen =>
    if inlen ≥ 8 then
      let tmp := (inp i).val
      let out1 := wr out (o + i) ((out (o + i)).val ||| (tmp >>> b))
      let out2 := wr out1 (o + (i + 1)) ((tmp &&& mask) <<< (8 - b))
      rshift_loop o inp b mask fuel out2 (i + 1) (inlen - 8)
    else (out, i, inlen)

/-- The function `rshift(out + o, in, inlen, b)`. -/
def rshift (out : Buf) (o : Nat) (inp : Buf) (inlen b : Nat) : Buf :=
  let mask := (u8 ((1 <<< b) - 1)).val
  let out0 := wr out o 0
  let st := rshift_loop o inp b mask inlen out0 0 inlen
  let out1 := st.1
  let i := st.2.1
  let rem := st.2.2
  if rem ≠ 0 then
    let tmp := (u8 ((inp i).val &&& (0xff <<< (8 - rem)))).val
    let out2 := wr out1 (o + i) ((out1 (o + i)).val ||| (tmp >>> b))
    if rem > 8 - b then wr out2 (o + (i + 1)) (tmp <<< (8 - b)) else out2
  else out1

/-- The `while (inlen >= 8)` loop of `lshift`. -/
def lshift_loop (inp : Buf) (b mask : Nat) : Nat → Buf → Nat → Nat → Buf × Nat × Nat
  | 0, out, i, inlen => (out, i, inlen)
  | fuel + 1, out, i, inlen =>
    if inlen ≥ 8 then
      let out1 := wr out i ((inp i).val <<< b)
      let out2 := wr out1 i ((out1 i).val ||| (((inp (i + 1)).val &&& mask) >>> (8 - b)))
      lshift_loop inp b mask fuel out2 (i + 1) (inlen - 8)
    else (out, i, inlen)

/-- The function `lshift(out, in, inlen, b)`.  Every octet of `in` is read before the
octet of `out` with the same or a smaller index is written, so a call whose `in`
points into `out` reads the contents `out` had at entry: `inp` is that snapshot. -/
def lshift (out : Buf) (inp : Buf) (inlen b : Nat) : Buf :=
  let mask := (u8 (0xff <<< (8 - b))).val
  let st := lshift_loop inp b mask inlen out 0 inlen
  let out1 := st.1
  let i := st.2.1
  let rem := st.2.2
  if rem ≠ 0 then
    let mask1 := (u8 (0xff <<< (8 - rem))).val
    let out2 := wr out1 i (((inp i).val <<< b) &&& mask1)
    if rem > 8 - b then
      wr out2 i ((out2 i).val ||| (((inp (i + 1)).val &&& (mask1 <<< (8 - b))) >>> (8 - b)))
    else out2
  else out1

/-- The copy loop `for (i = 0; i < octlen; i++) out[o + i] = in[i]`. -/
def copy_loop (o : Nat) (inp : Buf) : Nat → Buf → Buf
  | 0, out => out
  | k + 1, out => wr (copy_loop o inp k out) (o + k) (inp k).val

/-- The function `concat_bits(out, &oct, &bit, in, inlen)`; returns the array and the
new `(oct, bit)`. -/
def concat_bits (out : Buf) (oct bit : Nat) (inp : Buf) (inlen : Nat) : Buf × Nat × Nat :=
  let bitmod := (inlen + bit) % 8
  if bit ≠ 0 then
    let octlen := (inlen + bit + 7) / 8
    let tmp := (out oct).val
    let out1 := rshift out oct inp inlen bit
    let out2 := wr out1 oct ((out1 oct).val ||| tmp)
    (out2, oct + (octlen - (if bitmod ≠ 0 then 1 else 0)), bitmod)
  else
    let octlen := inlen / 8
    let out1 := copy_loop oct inp octlen out
    let out2 :=
      if bitmod ≠ 0 then wr out1 (oct + octlen) ((inp octlen).val &&& (0xff <<< (8 - bitmod)))
      else out1
    (out2, oct + octlen, bitmod)

/-- The `for (bit = 0; bit < 8; bit++, outlen--)` loop of `depad_10`; returns
`(bit, outlen, broke)`. -/
def depad_for (tmp : Nat) : Nat → Nat → Nat → Nat × Nat × Bool
  | 0, bit, outlen => (bit, outlen, false)
  | fuel + 1, bit, outlen =>
    if bit < 8 then
      if tmp &&& (1 <<< bit) ≠ 0 then (bit, outlen, true)
      else depad_for tmp fuel (bit + 1) (outlen - 1)
    else (bit, outlen, false)

/-- The `while (bytes)` loop of `depad_10`; returns `(tmp, bit, outlen)`. -/
def depad_while (inp : Buf) : Nat → Nat → Nat → Nat → Nat → Nat × Nat × Nat
  | 0, _, tmp, bit, outlen => (tmp, bit, outlen)
  | fuel + 1, bytes, tmp, bit, outlen =>
    if bytes ≠ 0 then
      let tmp1 := (inp bytes).val
      let r := depad_for tmp1 8 0 outlen
      if r.2.2 then (tmp1, r.1, r.2.1)
      else depad_while inp fuel (bytes - 1) tmp1 r.1 r.2.1
    else (tmp, bit, outlen)

/-- The function `depad_10(out, in)`; returns the array `out` and the bit length.
The input is read before any octet of `out` is written at a larger index, so the
in-place call `depad_10(x, x)` is `depad_10 x x`. -/
def depad_10 (out : Buf) (inp : Buf) : Buf × Nat :=
  let st := depad_while inp (BLOCKBYTES - 1) (BLOCKBYTES - 1) 0 0 (BLOCKBITS - 1)
  let tmp := st.1
  let bit := st.2.1
  let outlen := st.2.2
  let out1 := copy_loop 0 inp (outlen / 8) out
  (wr out1 ((outlen + 7) / 8) (tmp &&& (0xff <<< (8 - bit))), outlen)

/-- The `while (bitlen >= 8)` loop of `sec_memcmp_bits`; returns `(ret, i, bitlen)`. -/
def sec_memcmp_loop (arr1 arr2 : Buf) : Nat → Nat → Nat → Nat → Nat × Nat × Nat
  | 0, ret, i, bitlen => (ret, i, bitlen)
  | fuel + 1, ret, i, bitlen =>
    if bitlen ≥ 8 then
      sec_memcmp_loop arr1 arr2 fuel (u8 (ret ||| ((arr1 i).val ^^^ (arr2 i).val))).val
        (i + 1) (bitlen - 8)
    else (ret, i, bitlen)

/-- The function `sec_memcmp_bits(arr1, arr2, bitlen)`. -/
def sec_memcmp_bits (arr1 arr2 : Buf) (bitlen : Nat) : Nat :=
  let st := sec_memcmp_loop arr1 arr2 bitlen 0 0 bitlen
  let ret := st.1
  let i := st.2.1
  let rem := st.2.2
  if rem ≠ 0 then
    (u8 (ret ||| (((arr1 i).val ^^^ (arr2 i).val) &&& (0xff <<< (8 - rem))))).val
  else ret

/-! ## `manx1.c` -/

/-- The function `GET_LE32(a + o)`. -/
def GET_LE32 (a : Buf) (o : Nat) : Nat :=
  ((a (o + 3)).val <<< 24) ||| ((a (o + 2)).val <<< 16) ||| ((a (o + 1)).val <<< 8) ||| (a o).val

/-- The function `PUT_LE32(a + o, val)`. -/
def PUT_LE32 (a : Buf) (o val : Nat) : Buf :=
  let a3 := wr a (o + 3) ((val >>> 24) &&& 0xff)
  let a2 := wr a3 (o + 2) ((val >>> 16) &&& 0xff)
  let a1 := wr a2 (o + 1) ((val >>> 8) &&& 0xff)
  wr a1 o ((val >>> 0) &&& 0xff)

/-- Truncating conversion to `uint32_t`. -/
def u32 (v : Nat) : Nat := v % 4294967296

/-- The function `doubling(poly)`. -/
def doubling (poly : Buf) : Buf :=
  let cond := (u8 (256 - (((poly 15).val &&& 0x80) >>> 7))).val
  -- 1st 32-bit word to shift
  let val := GET_LE32 poly 12
  let val := u32 (val <<< 1)
  let val := val ||| (((poly 11).val &&& 0x80) >>> 7)
  let poly := PUT_LE32 poly 12 val
  -- 2nd 32-bit word to shift
  let val := GET_LE32 poly 8
  let val := u32 (val <<< 1)
  let val := val ||| (((poly 7).val &&& 0x80) >>> 7)
  let poly := PUT_LE32 poly 8 val
  -- 3rd 32-bit word to shift
  let val := GET_LE32 poly 4
  let val := u32 (val <<< 1)
  let val := val ||| (((poly 3).val &&& 0x80) >>> 7)
  let poly := PUT_LE32 poly 4 val
  -- 4th 32-bit word to shift
  let val := GET_LE32 poly 0
  let val := u32 (val <<< 1)
  let val := val ||| (((poly 3).val &&& 0x80) >>> 7)
  let poly := PUT_LE32 poly 0 val
  wr poly 0 ((poly 0).val ^^^ (0x87 &&& cond))

/-- The function `xor_block(dst + o, src1, src2)`: four 32-bit words, in the byte
order of the host (little-endian).  Word `w` of the sources is read before word `w`
of `dst` is written, so sources that point into `dst` are the contents at entry. -/
def xor_block (dst : Buf) (o : Nat) (src1 src2 : Buf) : Buf :=
  let d0 := PUT_LE32 dst o (GET_LE32 src1 0 ^^^ GET_LE32 src2 0)
  let d1 := PUT_LE32 d0 (o + 4) (GET_LE32 src1 4 ^^^ GET_LE32 src2 4)
  let d2 := PUT_LE32 d1 (o + 8) (GET_LE32 src1 8 ^^^ GET_LE32 src2 8)
  PUT_LE32 d2 (o + 12) (GET_LE32 src1 12 ^^^ GET_LE32 src2 12)

/-- The type `enc_func`: input block and round keys to output block. -/
abbrev enc_func := Block → Buf → Block

/-- The type `dec_func`: input block and round keys to output block. -/
abbrev dec_func := Block → Buf → Block

/-- The type `kexp_func`: key to round keys. -/
abbrev kexp_func := Buf → Buf

/-- What an AEAD call leaves behind: the return code, the value stored through the
length pointer and the output array. -/
structure Res where
  ret : Nat
  len : Nat
  out : Buf

/-- The call `f(dst + o, src + i, roundkeys)` of a block-cipher function. -/
def apply_cipher (f : Block → Buf → Block) (dst : Buf) (o : Nat) (src : Buf) (i : Nat)
    (roundkeys : Buf) : Buf :=
  wrBlock dst o (f (rdBlock src i) roundkeys)

/-- The round keys used by Manx1: `&roundkeys` after `kexpand`, or the key itself when
`kexpand == NULL`. -/
def manx1_roundkeys (kexpand : Option kexp_func) (k : Buf) : Buf :=
  match kexpand with
  | some ke => ke k
  | none => k

/-- The block `build (V[1],V[2]) <- vencode(N,A)`, which `manx1_enc` and `manx1_dec`
both contain; returns `v` and the cursor. -/
def manx1_vencode (vadlen : Nat) (junk : Buf) (s : Nat) (n : Buf) (nlen : Nat) (a : Buf)
    (alen : Nat) : Buf × Nat × Nat :=
  let v := zeroed (2 * BLOCKBYTES) junk
  let st1 := concat_bits v 0 0 n nlen
  let st2 := concat_bits st1.1 st1.2.1 st1.2.2 a alen
  if vadlen ≠ 0 then
    let v1 := setbit_at st2.1 st2.2.1 st2.2.2
    let cur := inc_bitpos st2.2.1 st2.2.2 (to_int (ssub s alen))
    (v1, cur.1, cur.2)
  else st2

/-- The function `manx1_enc`.  `junk` is the initial content of the local `v`. -/
def manx1_enc (vadlen : Nat) (junk : Buf) (c : Buf) (k : Buf) (n : Buf) (nlen : Nat)
    (m : Buf) (mlen : Nat) (a : Buf) (alen : Nat) (enc : enc_func)
    (kexpand : Option kexp_func) : Res :=
  let s := MAX (sadd (ssub BLOCKBITS nlen) MANX_TAU) MANX1_ALPHAMAX
  let roundkeys := manx1_roundkeys kexpand k
  if mlen ≥ BLOCKBITS - MANX_TAU then ⟨1, 0, c⟩
  else if alen > MANX1_ALPHAMAX then ⟨2, 0, c⟩
  else if mlen ≥ ssub BLOCKBITS (ssub s (ssub BLOCKBITS nlen)) then ⟨3, 0, c⟩
  else
    let st := manx1_vencode vadlen junk s n nlen a alen
    let st1 := concat_bits st.1 st.2.1 st.2.2 m mlen
    let v := setbit_at st1.1 st1.2.1 st1.2.2
    -- V[1] <- E_K(V[1])
    let v := apply_cipher enc v 0 v 0 roundkeys
    -- V[1] <- 2V[1]
    let v := doubling v
    -- V[2] <- V[1] ^ (V[2] || pad(M))
    let v := xor_block v BLOCKBYTES (offs v BLOCKBYTES) v
    -- C <- E_K(V[2])
    let c := apply_cipher enc c 0 v BLOCKBYTES roundkeys
    -- C <- C ^ V[1]
    let c := xor_block c 0 c v
    ⟨0, BLOCKBITS, c⟩

/-- The function `manx1_dec`.  `junk 0` is the initial content of the local `v`,
`junk 1` what lies past the 16 zero octets of `v2_tilde`.  The store of `depad_10` at
index 16 of `v2_tilde` (padding marker at bit 121 or later, `mlen ≥ 57`) lands in that
memory, and `lshift` with a length that wrapped around returns: the value is that of the
C function on the inputs that reach neither, where every access stays inside the
arrays. -/
def manx1_dec (vadlen : Nat) (junk : Nat → Buf) (p : Buf) (k : Buf) (n : Buf) (nlen : Nat)
    (c : Buf) (clen : Nat) (a : Buf) (alen : Nat) (enc : enc_func) (dec : dec_func)
    (kexpand : Option kexp_func) : Res :=
  let v2_tilde := zeroed BLOCKBYTES (junk 1)
  let roundkeys := manx1_roundkeys kexpand k
  let s := MAX (sadd (ssub BLOCKBITS nlen) MANX_TAU) MANX1_ALPHAMAX
  let v2len := ssub s (ssub BLOCKBITS nlen)
  if clen ≠ BLOCKBITS then ⟨1, 0, p⟩
  else if alen > MANX1_ALPHAMAX then ⟨2, 0, p⟩
  else
    let st := manx1_vencode vadlen (junk 0) s n nlen a alen
    -- S <- E_K(V[1])
    let v := apply_cipher enc st.1 0 st.1 0 roundkeys
    -- S <- 2S
    let v := doubling v
    -- v2_tilde <- S ^ C
    let v2_tilde := xor_block v2_tilde 0 v c
    -- v2_tilde <- E_K^{-1}(S ^ C)
    let v2_tilde := apply_cipher dec v2_tilde 0 v2_tilde 0 roundkeys
    -- v2_tilde <- E_K^{-1}(S ^ C) ^ S
    let v2_tilde := xor_block v2_tilde 0 v2_tilde v
    if sec_memcmp_bits (offs v BLOCKBYTES) v2_tilde v2len ≠ 0 then ⟨3, 0, p⟩
    else
      let dp := depad_10 v2_tilde v2_tilde
      let plen := ssub dp.2 v2len
      ⟨0, plen, lshift p (offs dp.1 (v2len / 8)) plen (v2len % 8)⟩

/-! ## `manx2.c` -/

/-- The function `set_separation_domain(out, &oct, &bit, mlen, r)`. -/
def set_separation_domain (out : Buf) (oct bit mlen r : Nat) : Buf × Nat × Nat :=
  if mlen < r then
    let out1 := setbit_at out oct bit
    let cur := inc_bitpos oct bit 2
    (out1, cur.1, cur.2)
  else if mlen = r then
    let out1 := setbit_at out oct bit
    let cur1 := inc_bitpos oct bit 1
    let out2 := setbit_at out1 cur1.1 cur1.2
    let cur2 := inc_bitpos cur1.1 cur1.2 1
    (out2, cur2.1, cur2.2)
  else
    let cur := inc_bitpos oct bit 2
    (out, cur.1, cur.2)

/-- The `#if MANX2_VARIABLE_ADLEN` block of `init_tiny_msg` and `init_short_msg`. -/
def manx2_pad_ad (vadlen : Nat) (b : Buf) (oct bit alen : Nat) : Buf × Nat × Nat :=
  if vadlen ≠ 0 then
    let b1 := setbit_at b oct bit
    let cur := inc_bitpos oct bit (to_int (ssub (MANX2_ALPHASTAR vadlen) alen))
    (b1, cur.1, cur.2)
  else (b, oct, bit)

/-- The function `init_tiny_msg(b, n, nlen, a, alen, m, mlen)`. -/
def init_tiny_msg (vadlen : Nat) (b : Buf) (n : Buf) (nlen : Nat) (a : Buf) (alen : Nat)
    (m : Buf) (mlen : Nat) : Buf :=
  let r := ssub BLOCKBITS (nlen + MANX2_ALPHASTAR vadlen + 2)
  let b0 := zeroed BLOCKBYTES b
  let st1 := concat_bits b0 0 0 n nlen
  let st2 := set_separation_domain st1.1 st1.2.1 st1.2.2 mlen r
  let st3 := concat_bits st2.1 st2.2.1 st2.2.2 a alen
  let st4 := manx2_pad_ad vadlen st3.1 st3.2.1 st3.2.2 alen
  let st5 := concat_bits st4.1 st4.2.1 st4.2.2 m mlen
  setbit_at st5.1 st5.2.1 st5.2.2

/-- The function `init_short_msg(b, n, nlen, a, alen, m, mlen)`.  `xjunk` is the
initial content of the local `x`.  After `b += BLOCKBYTES` the first block is not
accessed any more: the second block is built in the view `offs b BLOCKBYTES` and the
two are put back together at the end. -/
def init_short_msg (vadlen : Nat) (xjunk : Buf) (b : Buf) (n : Buf) (nlen : Nat) (a : Buf)
    (alen : Nat) (m : Buf) (mlen : Nat) : Buf :=
  -- build input block N || 00 || A || M[1]
  let b0 := zeroed BLOCKBYTES b
  let st1 := concat_bits b0 0 0 n nlen
  let cur1 := inc_bitpos st1.2.1 st1.2.2 2
  let st2 := concat_bits st1.1 cur1.1 cur1.2 a alen
  let st3 := manx2_pad_ad vadlen st2.1 st2.2.1 st2.2.2 alen
  let st4 := concat_bits st3.1 st3.2.1 st3.2.2 m mlen
  let b1 := st4.1
  -- save M[2] into x
  let x := copy_loop 0 (offs b1 BLOCKBYTES) ((mlen + 7) / 8) xjunk
  let mlen2 := ssub mlen (ssub (ssub (ssub BLOCKBITS nlen) (MANX2_ALPHASTAR vadlen)) 2)
  -- build input block N || 01 || pad(M[2])
  let c0 := zeroed BLOCKBYTES (offs b1 BLOCKBYTES)
  let su1 := concat_bits c0 0 0 n nlen
  let cur2 := inc_bitpos su1.2.1 su1.2.2 1
  let c1 := setbit_at su1.1 cur2.1 cur2.2
  let cur3 := inc_bitpos cur2.1 cur2.2 1
  let su2 := concat_bits c1 cur3.1 cur3.2 x mlen2
  let c2 := setbit_at su2.1 su2.2.1 su2.2.2
  fun i => if i < BLOCKBYTES then b1 i else c2 (i - BLOCKBYTES)

/-- The function `manx2_enc`.  `junk 0` is the initial content of the local `t`,
`junk 1` that of the local `x` of `init_short_msg`.  On the one-block path `t` has 16
octets and `junk 0` from index 16 on is the memory that follows it: the store of
`init_tiny_msg` at index 16 (when `nlen + 2 + alen + mlen`, with the padding of the AD,
is 128) lands there; the octets of `c` are those of the C function on the inputs without
that store. -/
def manx2_enc (vadlen : Nat) (junk : Nat → Buf) (c : Buf) (k : Buf) (n : Buf) (nlen : Nat)
    (m : Buf) (mlen : Nat) (a : Buf) (alen : Nat) (encrypt : enc_func)
    (kexpand : kexp_func) : Res :=
  let r := ssub BLOCKBITS (nlen + MANX2_ALPHASTAR vadlen + 2)
  if nlen < MANX_TAU then ⟨1, 0, c⟩
  else if mlen ≥ sadd (ssub (ssub BLOCKBITS nlen) 2) r then ⟨2, 0, c⟩
  else if alen > MANX2_ALPHAMAX then ⟨3, 0, c⟩
  else
    let roundkeys := kexpand k
    if mlen ≤ r then
      let t := init_tiny_msg vadlen (junk 0) n nlen a alen m mlen
      ⟨0, 128, apply_cipher encrypt c 0 t 0 roundkeys⟩
    else
      let t := init_short_msg vadlen (junk 1) (junk 0) n nlen a alen m mlen
      let c1 := apply_cipher encrypt c 0 t 0 roundkeys
      ⟨0, 256, apply_cipher encrypt c1 BLOCKBYTES t BLOCKBYTES roundkeys⟩

/-- The function `manx2_dec`.  `junk 0`, `junk 1`, `junk 2` are the initial contents
of the locals `t`, `s1`, `s2`, each with the memory that follows its 16 octets.  The
store of `init_tiny_msg` at index 16 of `t` (header of 128 bits), the store of `depad_10`
at index 16 of `s1` or `s2` (padding marker at bit 121 or later) and `lshift` with a
length that wrapped around are harmless here: the value is that of the C function on the
inputs that reach none of them, where every access stays inside the arrays. -/
def manx2_dec (vadlen : Nat) (junk : Nat → Buf) (p : Buf) (k : Buf) (n : Buf) (nlen : Nat)
    (c : Buf) (clen : Nat) (a : Buf) (alen : Nat) (decrypt : dec_func)
    (kexpand : kexp_func) : Res :=
  let r := ssub BLOCKBITS (nlen + MANX2_ALPHASTAR vadlen + 2)
  let hl := nlen + 2 + MANX2_ALPHASTAR vadlen
  if clen ≠ BLOCKBITS ∧ clen ≠ 2 * BLOCKBITS then ⟨1, 0, p⟩
  else
    let roundkeys := kexpand k
    if clen = BLOCKBITS then
      let s1 := apply_cipher decrypt (junk 1) 0 c 0 roundkeys
      let t := init_tiny_msg vadlen (junk 0) n nlen a alen c 0
      let ds := GETBIT (s1 ((nlen + 1) / 8)).val (7 - (nlen + 1) % 8)
      let t := wr t ((nlen + 1) / 8) (CHGBIT (t ((nlen + 1) / 8)).val (7 - (nlen + 1) % 8) ds)
      if sec_memcmp_bits s1 t hl ≠ 0 then ⟨2, 0, p⟩
      else
        let dp := if ds ≠ 0 then (s1, clen) else depad_10 s1 s1
        let plen := ssub dp.2 hl
        ⟨0, plen, lshift p (offs dp.1 (hl / 8)) plen (hl % 8)⟩
    else
      let s1 := apply_cipher decrypt (junk 1) 0 c 0 roundkeys
      let s2 := apply_cipher decrypt (junk 2) 0 c BLOCKBYTES roundkeys
      let t := init_tiny_msg vadlen (junk 0) s2 nlen a alen c 0
      let t := wr t ((nlen + 1) / 8) (CLRBIT (t ((nlen + 1) / 8)).val (7 - (nlen + 1) % 8))
      let t := wr t (nlen / 8) (CLRBIT (t (nlen / 8)).val (7 - nlen % 8))
      if sec_memcmp_bits s1 t hl ≠ 0 then ⟨3, 0, p⟩
      else if GETBIT (s2 (nlen / 8)).val (7 - nlen % 8) ≠ 0
          ∨ GETBIT (s2 ((nlen + 1) / 8)).val (7 - (nlen + 1) % 8) ≠ 1 then ⟨4, 0, p⟩
      else
        let p1 := lshift p (offs s1 (hl / 8)) (ssub BLOCKBITS (nlen + MANX2_ALPHASTAR vadlen + 2))
          (hl % 8)
        let oct := r / 8
        let bit := r % 8
        let dp := depad_10 s2 s2
        let r2 := ssub dp.2 (nlen + 2)
        let s2a := lshift dp.1 (offs dp.1 ((nlen + 2) / 8)) r2 ((nlen + 2) % 8)
        let st := concat_bits p1 oct bit s2a r2
        ⟨0, sadd r r2, st.1⟩

/-! ## Local arrays of the decryptions at their checks -/

/-- The arrays `v` and `v2_tilde` of `manx1_dec` when `sec_memcmp_bits` is called, once
the two shape checks have passed (`manx1.c`, from `build (V[1],V[2])` to the second
`xor_block`).  `junk 0` is the initial content of `v`, `junk 1` the memory that follows
the 16 octets of `v2_tilde`: index 16 of the second array is the octet after the array. -/
def manx1_dec_blocks (vadlen : Nat) (junk : Nat → Buf) (k : Buf) (n : Buf) (nlen : Nat)
    (c : Buf) (a : Buf) (alen : Nat) (enc : enc_func) (dec : dec_func)
    (kexpand : Option kexp_func) : Buf × Buf :=
  let v2_tilde := zeroed BLOCKBYTES (junk 1)
  let roundkeys := manx1_roundkeys kexpand k
  let s := MAX (sadd (ssub BLOCKBITS nlen) MANX_TAU) MANX1_ALPHAMAX
  let st := manx1_vencode vadlen (junk 0) s n nlen a alen
  let v := apply_cipher enc st.1 0 st.1 0 roundkeys
  let v := doubling v
  let v2_tilde := xor_block v2_tilde 0 v c
  let v2_tilde := apply_cipher dec v2_tilde 0 v2_tilde 0 roundkeys
  let v2_tilde := xor_block v2_tilde 0 v2_tilde v
  (v, v2_tilde)

/-- The arrays `s1` and `t` and the bit `ds` of `manx2_dec` on a one-block ciphertext when
`sec_memcmp_bits` is called (`manx2.c`, branch `clen == BLOCKBITS` of `manx2_dec`).
`junk 0` is the initial content of `t` with the memory that follows it, `junk 1` that of
`s1`. -/
def manx2_dec_tiny_blocks (vadlen : Nat) (junk : Nat → Buf) (k : Buf) (n : Buf) (nlen : Nat)
    (c : Buf) (a : Buf) (alen : Nat) (decrypt : dec_func) (kexpand : kexp_func) :
    Buf × Buf × Nat :=
  let roundkeys := kexpand k
  let s1 := apply_cipher decrypt (junk 1) 0 c 0 roundkeys
  let t := init_tiny_msg vadlen (junk 0) n nlen a alen c 0
  let ds := GETBIT (s1 ((nlen + 1) / 8)).val (7 - (nlen + 1) % 8)
  let t := wr t ((nlen + 1) / 8) (CHGBIT (t ((nlen + 1) / 8)).val (7 - (nlen + 1) % 8) ds)
  (s1, t, ds)

/-- The arrays `s1`, `s2` and `t` of `manx2_dec` on a two-block ciphertext when
`sec_memcmp_bits` is called (`manx2.c`, branch `else` of `manx2_dec`).  `junk 0`,
`junk 1`, `junk 2` are the initial contents of `t`, `s1`, `s2` with the memory that
follows them. -/
def manx2_dec_short_blocks (vadlen : Nat) (junk : Nat → Buf) (k : Buf) (nlen : Nat)
    (c : Buf) (a : Buf) (alen : Nat) (decrypt : dec_func) (kexpand : kexp_func) :
    Buf × Buf × Buf :=
  let roundkeys := kexpand k
  let s1 := apply_cipher decrypt (junk 1) 0 c 0 roundkeys
  let s2 := apply_cipher decrypt (junk 2) 0 c BLOCKBYTES roundkeys
  let t := init_tiny_msg vadlen (junk 0) s2 nlen a alen c 0
  let t := wr t ((nlen + 1) / 8) (CLRBIT (t ((nlen + 1) / 8)).val (7 - (nlen + 1) % 8))
  let t := wr t (nlen / 8) (CLRBIT (t (nlen / 8)).val (7 - nlen % 8))
  (s1, s2, t)

/-! ## Concrete data: the vectors of `test/main.c` and a small cipher -/

/-- An array given by the list of its first octets, zero afterwards. -/
def ofList (l : List Nat) : Buf := fun i => u8 (l.getD i 0)

/-- The array `nonce` of `test/main.c` (the array `ad` has the same content). -/
def test_nonce : Buf := ofList [0x00, 0x01, 0x02, 0x03, 0x04, 0x05, 0x06, 0x07, 0x08, 0x09,
  0x0a, 0x0b, 0x0c, 0x0d, 0x0e, 0x0f]

/-- The array `key` of `test/main.c`. -/
def test_key : Buf := ofList [0x2b, 0x7e, 0x15, 0x16, 0x28, 0xae, 0xd2, 0xa6, 0xab, 0xf7,
  0x15, 0x88, 0x09, 0xcf, 0x4f, 0x3c]

/-- The array `ptext` of `test/main.c`. -/
def test_ptext : Buf := ofList [0x7f, 0x43, 0xf6, 0xaf, 0x88, 0x5a, 0x30, 0x8d, 0x31, 0x31,
  0x98, 0xa2, 0xe0, 0x37, 0x07, 0x34]

/-- An array of zeros (the initial `ctext`, `ptext_bis` of `test/main.c`). -/
def zero_buf : Buf := fun _ => 0

/-- A block cipher for concrete instances: XOR of the block with the round keys.  It is
its own inverse. -/
def xor_cipher : Block → Buf → Block := fun x rk i => u8 ((x i).val ^^^ (rk i.val).val)

/-- The block `80 00 ... 00`: the empty string followed by the padding marker. -/
def depad_marker_first : Buf := ofList [0x80]

/-- The block `ff c0 00 ... 00`: nine set bits, then the padding marker at bit 9. -/
def depad_nine_bits : Buf := ofList [0xff, 0xc0]

/-- The 16-bit AD `80 00`: one set bit, then fifteen zeros. -/
def ad_marker16 : Buf := ofList [0x80, 0x00]

/-- The block `00 ... 00 01`, whose last bit is the padding marker, followed in memory by
the octet `ff`. -/
def depad_full_block : Buf := ofList [0, 0, 0, 0, 0, 0, 0, 0, 0, 0, 0, 0, 0, 0, 0, 0x01, 0xff]

/-! ## Doubling as the specification states it -/

/-- The value of a 16-octet block read as a 128-bit polynomial in little-endian byte
order: octet `i` carries the coefficients of `α^(8i)` to `α^(8i+7)`. -/
def le128 (x : Buf) : Nat :=
  (List.range 16).foldr (fun i acc => (x i).val + 256 * acc) 0

/-- Multiplication by `α` modulo `α^128 + α^7 + α^2 + α + 1`: the 128-bit left shift by
one, with `0x87` added when the coefficient of `α^127` was set. -/
def doubling_spec (v : Nat) : Nat :=
  ((v <<< 1) % 2 ^ 128) ^^^ (if v.testBit 127 then 0x87 else 0)

/-- A block whose only set bit is the top bit of octet 3 (the coefficient of `α^31`). -/
def doubling_bug_input : Buf := ofList [0x00, 0x00, 0x00, 0x80]

/-- A one-block Manx2 ciphertext for the key of `test/main.c` and the XOR cipher: the
block `00 01 02 03 04 05 06 07 80 00 ... 00` (the 64-bit nonce of `test/main.c`, the
separation bits `10`, zeros) XOR the key. -/
def forged_tiny_block : Buf := ofList [0x2b, 0x7f, 0x17, 0x15, 0x2c, 0xab, 0xd4, 0xa1, 0x2b,
  0xf7, 0x15, 0x88, 0x09, 0xcf, 0x4f, 0x3c]

/-! ## Bit view of arrays -/

/-- Bit `p` of an array, counted MSB-first from the start of the array. -/
def bitAt (buf : Buf) (p : Nat) : Bool := (buf (p / 8)).val.testBit (7 - p % 8)

/-! ## The Manx2 encoding, bit by bit -/

/-- Bit `p` of the Manx2 header `N || d0 d1 || A`, followed by the padding bit of the AD
when the AD has variable length (`vadlen ≠ 0`), and zeros. -/
def manx2_hdr_bit (vadlen : Nat) (n : Buf) (nlen : Nat) (d0 d1 : Bool) (a : Buf) (alen : Nat)
    (p : Nat) : Bool :=
  if p < nlen then bitAt n p
  else if p = nlen then d0
  else if p = nlen + 1 then d1
  else if p < nlen + 2 + alen then bitAt a (p - (nlen + 2))
  else decide (vadlen ≠ 0 ∧ p = nlen + 2 + alen)

/-- Bit position at which the message starts in a Manx2 block: after the nonce, the two
domain-separation bits and the AD, padded to `MANX2_ALPHASTAR` bits when the AD has
variable length. -/
def manx2_hdr_len (vadlen nlen alen : Nat) : Nat :=
  nlen + 2 + (if vadlen ≠ 0 then MANX2_ALPHASTAR vadlen else alen)

/-! ## One-zero padding, bit by bit -/

/-- Bit `q` of the one-zero padded string `A || 1 || 0*`, for the `alen`-bit string `A`
at the start of `a`. -/
def pad10_bit (a : Buf) (alen q : Nat) : Bool :=
  if q < alen then bitAt a q else decide (q = alen)

/-! ## Lemmas: octets, stores, cursors -/

theorem u8_val (v : Nat) : (u8 v).val = v % 256 := rfl

theorem u8_byte (x : Byte) : u8 x.val = x := by
  apply Fin.ext
  simp [u8_val, Nat.mod_eq_of_lt x.isLt]

theorem testBit_u8 (v j : Nat) (h : j < 8) : (u8 v).val.testBit j = v.testBit j := by
  have : (256 : Nat) = 2 ^ 8 := by norm_num
  rw [u8_val, this, Nat.testBit_mod_two_pow]
  simp [h]

theorem testBit_byte_high (x : Byte) (j : Nat) (h : 8 ≤ j) : x.val.testBit j = false := by
  apply Nat.testBit_lt_two_pow
  calc x.val < 2 ^ 8 := x.isLt
    _ ≤ 2 ^ j := Nat.pow_le_pow_right (by norm_num) h

theorem byte_ext (x y : Byte) (h : ∀ j, j < 8 → x.val.testBit j = y.val.testBit j) : x = y := by
  apply Fin.ext
  apply Nat.eq_of_testBit_eq
  intro j
  by_cases hj : j < 8
  · exact h j hj
  · rw [testBit_byte_high x j (by omega), testBit_byte_high y j (by omega)]

theorem wr_same (buf : Buf) (i v : Nat) : wr buf i v i = u8 v := by simp [wr]

theorem wr_other (buf : Buf) (i v j : Nat) (h : j ≠ i) : wr buf i v j = buf j := by simp [wr, h]

theorem bitAt_wr (buf : Buf) (i v p : Nat) :
    bitAt (wr buf i v) p = if p / 8 = i then v.testBit (7 - p % 8) else bitAt buf p := by
  unfold bitAt wr
  split
  · rw [testBit_u8 _ _ (by omega)]
  · rfl

theorem testBit_one_shiftLeft (i j : Nat) : (1 <<< i).testBit j = decide (i = j) := by
  rw [Nat.one_shiftLeft, Nat.testBit_two_pow]

theorem bitAt_setbit_at (buf : Buf) (oct bit p : Nat) (hb : bit < 8) :
    bitAt (setbit_at buf oct bit) p = (decide (p = 8 * oct + bit) || bitAt buf p) := by
  unfold setbit_at SETBIT
  rw [bitAt_wr]
  split
  · rename_i h
    subst h
    rw [Nat.testBit_or, testBit_one_shiftLeft]
    unfold bitAt
    by_cases hp : p = 8 * (p / 8) + bit
    · have : 7 - bit = 7 - p % 8 := by omega
      simp [this, ← hp]
    · have : ¬ (7 - bit = 7 - p % 8) := by omega
      simp [this, hp, Bool.or_comm]
  · rename_i h
    have : ¬ (p = 8 * oct + bit) := by omega
    simp [this]

theorem inc_bitpos_loop_eq (fuel oct bit : Nat) (h : bit / 8 ≤ fuel) :
    inc_bitpos_loop fuel oct bit = (oct + bit / 8, bit % 8) := by
  induction fuel generalizing oct bit with
  | zero =>
    have : bit < 8 := by omega
    simp [inc_bitpos_loop, Nat.div_eq_of_lt this, Nat.mod_eq_of_lt this]
  | succ f ih =>
    unfold inc_bitpos_loop
    split
    · rw [ih _ _ (by omega)]
      congr 1 <;> omega
    · have : bit < 8 := by omega
      simp [Nat.div_eq_of_lt this, Nat.mod_eq_of_lt this]

theorem inc_bitpos_nat (oct bit k : Nat) (h : bit + k < SZ) :
    inc_bitpos oct bit (k : Int) = (oct + (bit + k) / 8, (bit + k) % 8) := by
  unfold inc_bitpos
  have e : (((bit : Int) + (k : Int)) % (SZ : Int)).toNat = bit + k := by
    have : ((bit : Int) + (k : Int)) = ((bit + k : Nat) : Int) := by push_cast; rfl
    rw [this, ← Int.natCast_mod, Int.toNat_natCast, Nat.mod_eq_of_lt h]
  simp only [e]
  exact inc_bitpos_loop_eq _ _ _ (Nat.div_le_self _ _)

theorem to_int_small (x : Nat) (h : x < 2147483648) : to_int x = (x : Int) := by
  unfold to_int
  have : x % 4294967296 = x := Nat.mod_eq_of_lt (by omega)
  simp [this, h]

theorem ssub_le (x y : Nat) (h : y ≤ x) (hx : x < SZ) : ssub x y = x - y := by
  unfold ssub SZ at *
  omega

theorem sadd_small (x y : Nat) (h : x + y < SZ) : sadd x y = x + y := by
  unfold sadd
  exact Nat.mod_eq_of_lt h

theorem copy_loop_get (o : Nat) (inp : Buf) (k : Nat) (out : Buf) (j : Nat) :
    copy_loop o inp k out j = if o ≤ j ∧ j < o + k then inp (j - o) else out j := by
  induction k with
  | zero =>
    have : ¬ (o ≤ j ∧ j < o) := by omega
    simp [copy_loop, this]
  | succ k ih =>
    unfold copy_loop
    by_cases hj : j = o + k
    · subst hj
      rw [wr_same, u8_byte]
      simp
    · rw [wr_other _ _ _ _ hj, ih]
      by_cases h1 : o ≤ j ∧ j < o + k
      · have : o ≤ j ∧ j < o + (k + 1) := by omega
        simp [h1, this]
      · have : ¬ (o ≤ j ∧ j < o + (k + 1)) := by omega
        simp [h1, this]

/-! ## Lemmas: `rshift` -/

theorem bitAt_mk (buf : Buf) (p i j : Nat) (h1 : p / 8 = i) (h2 : 7 - p % 8 = j) :
    bitAt buf p = (buf i).val.testBit j := by
  unfold bitAt
  rw [h1, h2]

theorem rshift_mask (b : Nat) (hb : b < 8) : (u8 ((1 <<< b) - 1)).val = 2 ^ b - 1 := by
  rw [u8_val, Nat.one_shiftLeft]
  apply Nat.mod_eq_of_lt
  have : 2 ^ b ≤ 2 ^ 7 := Nat.pow_le_pow_right (by norm_num) (by omega)
  have : 0 < 2 ^ b := Nat.pos_pow_of_pos b (by norm_num)
  omega

/-- One pass through the body of the loop of `rshift`. -/
theorem rshift_step_bits (o : Nat) (inp : Buf) (b : Nat) (hb1 : 0 < b) (hb : b < 8)
    (out : Buf) (i : Nat)
    (h0 : ∀ p, 8 * (o + i) + b ≤ p → p < 8 * (o + i + 1) → bitAt out p = false) (p : Nat) :
    bitAt (wr (wr out (o + i) ((out (o + i)).val ||| ((inp i).val >>> b))) (o + (i + 1))
        (((inp i).val &&& (2 ^ b - 1)) <<< (8 - b))) p
      = if p < 8 * (o + i) + b then bitAt out p
        else if p < 8 * (o + i) + b + 8 then bitAt inp (p - 8 * o - b)
        else if p < 8 * (o + i + 2) then false
        else bitAt out p := by
  rw [bitAt_wr]
  by_cases c1 : p / 8 = o + (i + 1)
  · rw [if_pos c1]
    have n1 : ¬ p < 8 * (o + i) + b := by omega
    rw [if_neg n1]
    rw [Nat.testBit_shiftLeft, Nat.testBit_and, Nat.testBit_two_pow_sub_one]
    by_cases c2 : p % 8 < b
    · have : p < 8 * (o + i) + b + 8 := by omega
      rw [if_pos this]
      rw [bitAt_mk inp (p - 8 * o - b) i (7 - p % 8 - (8 - b)) (by omega) (by omega)]
      have a1 : 7 - p % 8 ≥ 8 - b := by omega
      have a2 : 7 - p % 8 - (8 - b) < b := by omega
      simp [a1, a2]
    · have : ¬ p < 8 * (o + i) + b + 8 := by omega
      rw [if_neg this]
      have : p < 8 * (o + i + 2) := by omega
      rw [if_pos this]
      have a1 : ¬ (7 - p % 8 ≥ 8 - b) := by omega
      simp [a1]
  · rw [if_neg c1, bitAt_wr]
    by_cases c3 : p / 8 = o + i
    · rw [if_pos c3, Nat.testBit_or, Nat.testBit_shiftRight]
      by_cases c2 : p % 8 < b
      · have : p < 8 * (o + i) + b := by omega
        rw [if_pos this, testBit_byte_high (inp i) (b + (7 - p % 8)) (by omega)]
        rw [bitAt_mk out p (o + i) (7 - p % 8) c3 rfl]
        simp
      · have n1 : ¬ p < 8 * (o + i) + b := by omega
        have : p < 8 * (o + i) + b + 8 := by omega
        rw [if_neg n1, if_pos this]
        have hz := h0 p (by omega) (by omega)
        rw [bitAt_mk out p (o + i) (7 - p % 8) c3 rfl] at hz
        rw [hz, bitAt_mk inp (p - 8 * o - b) i (b + (7 - p % 8)) (by omega) (by omega)]
        simp
    · rw [if_neg c3]
      by_cases c4 : p < 8 * (o + i) + b
      · rw [if_pos c4]
      · have n2 : ¬ p < 8 * (o + i) + b + 8 := by omega
        have n3 : ¬ p < 8 * (o + i + 2) := by omega
        rw [if_neg c4, if_neg n2, if_neg n3]

theorem rshift_loop_spec (o : Nat) (inp : Buf) (b : Nat) (hb1 : 0 < b) (hb : b < 8) :
    ∀ (fuel : Nat) (out : Buf) (i inlen : Nat), inlen / 8 ≤ fuel →
      (∀ p, 8 * (o + i) + b ≤ p → p < 8 * (o + i + 1) → bitAt out p = false) →
      (rshift_loop o inp b (2 ^ b - 1) fuel out i inlen).2.1 = i + inlen / 8 ∧
      (rshift_loop o inp b (2 ^ b - 1) fuel out i inlen).2.2 = inlen % 8 ∧
      ∀ p, bitAt (rshift_loop o inp b (2 ^ b - 1) fuel out i inlen).1 p
        = if p < 8 * (o + i) + b then bitAt out p
          else if p < 8 * (o + i) + b + 8 * (inlen / 8) then bitAt inp (p - 8 * o - b)
          else if p < 8 * (o + i + inlen / 8 + 1) then false
          else bitAt out p := by
  intro fuel
  induction fuel with
  | zero =>
    intro out i inlen hf h0
    have hl : inlen < 8 := by omega
    have hd : inlen / 8 = 0 := Nat.div_eq_of_lt hl
    simp only [rshift_loop, hd, Nat.mod_eq_of_lt hl, Nat.add_zero, Nat.mul_zero, true_and]
    intro p
    by_cases c1 : p < 8 * (o + i) + b
    · simp [c1]
    · by_cases c2 : p < 8 * (o + i + 1)
      · simp [c1, c2, h0 p (by omega) c2]
      · simp [c1, c2]
  | succ f ih =>
    intro out i inlen hf h0
    unfold rshift_loop
    by_cases hge : inlen ≥ 8
    · rw [if_pos hge]
      simp only []
      have hstep := rshift_step_bits o inp b hb1 hb out i h0
      have ih' := ih (wr (wr out (o + i) ((out (o + i)).val ||| ((inp i).val >>> b))) (o + (i + 1))
        (((inp i).val &&& (2 ^ b - 1)) <<< (8 - b))) (i + 1) (inlen - 8) (by omega)
        (by
          intro p h1 h2
          rw [hstep p]
          have n1 : ¬ p < 8 * (o + i) + b := by omega
          have n2 : ¬ p < 8 * (o + i) + b + 8 := by omega
          have n3 : p < 8 * (o + i + 2) := by omega
          rw [if_neg n1, if_neg n2, if_pos n3])
      obtain ⟨e1, e2, e3⟩ := ih'
      refine ⟨by rw [e1]; omega, by rw [e2]; omega, ?_⟩
      intro p
      rw [e3 p]
      have hd : (inlen - 8) / 8 = inlen / 8 - 1 := by omega
      have hd1 : 1 ≤ inlen / 8 := by omega
      by_cases c1 : p < 8 * (o + (i + 1)) + b
      · rw [if_pos c1, hstep p]
        by_cases c2 : p < 8 * (o + i) + b
        · rw [if_pos c2, if_pos c2]
        · have : p < 8 * (o + i) + b + 8 := by omega
          have t2 : p < 8 * (o + i) + b + 8 * (inlen / 8) := by omega
          rw [if_neg c2, if_pos this, if_neg c2, if_pos t2]
      · rw [if_neg c1]
        have n1 : ¬ p < 8 * (o + i) + b := by omega
        rw [if_neg n1]
        by_cases c2 : p < 8 * (o + (i + 1)) + b + 8 * ((inlen - 8) / 8)
        · have t2 : p < 8 * (o + i) + b + 8 * (inlen / 8) := by omega
          rw [if_pos c2, if_pos t2]
        · have t2 : ¬ p < 8 * (o + i) + b + 8 * (inlen / 8) := by omega
          rw [if_neg c2, if_neg t2]
          by_cases c3 : p < 8 * (o + (i + 1) + (inlen - 8) / 8 + 1)
          · have t3 : p < 8 * (o + i + inlen / 8 + 1) := by omega
            rw [if_pos c3, if_pos t3]
          · have t3 : ¬ p < 8 * (o + i + inlen / 8 + 1) := by omega
            rw [if_neg c3, if_neg t3, hstep p]
            have n2 : ¬ p < 8 * (o + i) + b + 8 := by omega
            have n3 : ¬ p < 8 * (o + i + 2) := by omega
            rw [if_neg n1, if_neg n2, if_neg n3]
    · rw [if_neg hge]
      have hl : inlen < 8 := by omega
      have hd : inlen / 8 = 0 := Nat.div_eq_of_lt hl
      simp only [hd, Nat.mod_eq_of_lt hl, Nat.add_zero, Nat.mul_zero, true_and]
      intro p
      by_cases c1 : p < 8 * (o + i) + b
      · simp [c1]
      · by_cases c2 : p < 8 * (o + i + 1)
        · simp [c1, c2, h0 p (by omega) c2]
        · simp [c1, c2]


theorem testBit_ff_shiftLeft (r j : Nat) (hj : j < 8) :
    (0xff <<< r).testBit j = decide (r ≤ j) := by
  have e : (0xff : Nat) = 2 ^ 8 - 1 := by norm_num
  rw [Nat.testBit_shiftLeft, e, Nat.testBit_two_pow_sub_one]
  have : j - r < 8 := by omega
  simp [this]

/-- Bits of the masked last octet `in[i] & (0xff << (8-rem))`. -/
theorem testBit_tail (x : Byte) (rem j : Nat) :
    (u8 (x.val &&& (0xff <<< (8 - rem)))).val.testBit j
      = (x.val.testBit j && decide (8 - rem ≤ j)) := by
  by_cases hj : j < 8
  · rw [testBit_u8 _ _ hj, Nat.testBit_and, testBit_ff_shiftLeft _ _ hj]
  · rw [testBit_byte_high _ _ (by omega), testBit_byte_high _ _ (by omega)]
    simp

theorem rshift_bits (out : Buf) (o : Nat) (inp : Buf) (inlen b : Nat) (hb1 : 0 < b)
    (hb : b < 8) (p : Nat) :
    bitAt (rshift out o inp inlen b) p
      = if p < 8 * o then bitAt out p
        else if p < 8 * o + b then false
        else if p < 8 * o + b + inlen then bitAt inp (p - 8 * o - b)
        else if p < 8 * (o + (b + inlen + 7) / 8) then false
        else bitAt out p := by
  have hz : ∀ q, 8 * (o + 0) + b ≤ q → q < 8 * (o + 0 + 1) → bitAt (wr out o 0) q = false := by
    intro q h1 h2
    rw [bitAt_wr, if_pos (by omega)]
    simp
  obtain ⟨e1, e2, e3⟩ := rshift_loop_spec o inp b hb1 hb inlen (wr out o 0) 0 inlen
    (Nat.div_le_self _ _) hz
  have e0 : ∀ q, bitAt (wr out o 0) q = if q / 8 = o then false else bitAt out q := by
    intro q
    rw [bitAt_wr]
    simp
  unfold rshift
  simp only [rshift_mask b hb]
  rw [e1, e2]
  simp only [Nat.zero_add, Nat.add_zero] at e3 ⊢
  by_cases hrem : inlen % 8 = 0
  · rw [if_neg (by simpa using hrem), e3 p, e0 p]
    split_ifs <;> first | rfl | omega
  · rw [if_pos (by simpa using hrem)]
    by_cases hbig : inlen % 8 > 8 - b
    · rw [if_pos hbig, bitAt_wr]
      by_cases d1 : p / 8 = o + (inlen / 8 + 1)
      · rw [if_pos d1, Nat.testBit_shiftLeft, testBit_tail]
        have n1 : ¬ p < 8 * o := by omega
        have n2 : ¬ p < 8 * o + b := by omega
        rw [if_neg n1, if_neg n2]
        by_cases c3 : p < 8 * o + b + inlen
        · rw [if_pos c3, bitAt_mk inp (p - 8 * o - b) (inlen / 8) (7 - p % 8 - (8 - b))
            (by omega) (by omega)]
          have a1 : 7 - p % 8 ≥ 8 - b := by omega
          have a2 : 8 - inlen % 8 ≤ 7 - p % 8 - (8 - b) := by omega
          simp [a1, a2]
        · rw [if_neg c3, if_pos (by omega)]
          by_cases a1 : 7 - p % 8 ≥ 8 - b
          · have a2 : ¬ 8 - inlen % 8 ≤ 7 - p % 8 - (8 - b) := by omega
            simp [a2]
          · simp [a1]
      · rw [if_neg d1, bitAt_wr]
        by_cases d2 : p / 8 = o + inlen / 8
        · rw [if_pos d2, Nat.testBit_or, Nat.testBit_shiftRight, testBit_tail]
          have hq := e3 p
          rw [bitAt_mk _ p (o + inlen / 8) (7 - p % 8) d2 rfl] at hq
          rw [hq, e0 p]
          have n1 : ¬ p < 8 * o := by omega
          rw [if_neg n1]
          by_cases c2 : p % 8 < b
          · rw [testBit_byte_high (inp (inlen / 8)) (b + (7 - p % 8)) (by omega)]
            simp only [Bool.false_and, Bool.or_false]
            split_ifs <;> first | rfl | omega
          · have a1 : ¬ p < 8 * o + b := by omega
            have a2 : ¬ p < 8 * o + b + 8 * (inlen / 8) := by omega
            have a3 : p < 8 * (o + inlen / 8 + 1) := by omega
            rw [if_neg a1, if_neg a2, if_pos a3, if_neg a1]
            by_cases c3 : p < 8 * o + b + inlen
            · rw [if_pos c3, bitAt_mk inp (p - 8 * o - b) (inlen / 8) (b + (7 - p % 8))
                (by omega) (by omega)]
              have : 8 - inlen % 8 ≤ b + (7 - p % 8) := by omega
              simp [this]
            · rw [if_neg c3, if_pos (by omega)]
              have : ¬ 8 - inlen % 8 ≤ b + (7 - p % 8) := by omega
              simp [this]
        · rw [if_neg d2, e3 p, e0 p]
          split_ifs <;> first | rfl | omega
    · rw [if_neg hbig, bitAt_wr]
      by_cases d2 : p / 8 = o + inlen / 8
      · rw [if_pos d2, Nat.testBit_or, Nat.testBit_shiftRight, testBit_tail]
        have hq := e3 p
        rw [bitAt_mk _ p (o + inlen / 8) (7 - p % 8) d2 rfl] at hq
        rw [hq, e0 p]
        have n1 : ¬ p < 8 * o := by omega
        rw [if_neg n1]
        by_cases c2 : p % 8 < b
        · rw [testBit_byte_high (inp (inlen / 8)) (b + (7 - p % 8)) (by omega)]
          simp only [Bool.false_and, Bool.or_false]
          split_ifs <;> first | rfl | omega
        · have a1 : ¬ p < 8 * o + b := by omega
          have a2 : ¬ p < 8 * o + b + 8 * (inlen / 8) := by omega
          have a3 : p < 8 * (o + inlen / 8 + 1) := by omega
          rw [if_neg a1, if_neg a2, if_pos a3, if_neg a1]
          by_cases c3 : p < 8 * o + b + inlen
          · rw [if_pos c3, bitAt_mk inp (p - 8 * o - b) (inlen / 8) (b + (7 - p % 8))
              (by omega) (by omega)]
            have : 8 - inlen % 8 ≤ b + (7 - p % 8) := by omega
            simp [this]
          · rw [if_neg c3, if_pos (by omega)]
            have : ¬ 8 - inlen % 8 ≤ b + (7 - p % 8) := by omega
            simp [this]
      · rw [if_neg d2, e3 p, e0 p]
        split_ifs <;> first | rfl | omega

/-! ## Lemmas: `concat_bits` -/

theorem byte_eq_of_bits (x y : Buf) (i k : Nat)
    (h : ∀ p, 8 * i ≤ p → p < 8 * i + 8 → bitAt x p = bitAt y (8 * k + (p - 8 * i))) :
    x i = y k := by
  apply byte_ext
  intro j hj
  have := h (8 * i + (7 - j)) (by omega) (by omega)
  rw [bitAt_mk x _ i j (by omega) (by omega), bitAt_mk y _ k j (by omega) (by omega)] at this
  exact this

theorem bitAt_copy_loop (o : Nat) (inp : Buf) (k : Nat) (out : Buf) (p : Nat) :
    bitAt (copy_loop o inp k out) p
      = if 8 * o ≤ p ∧ p < 8 * (o + k) then bitAt inp (p - 8 * o) else bitAt out p := by
  unfold bitAt
  rw [copy_loop_get]
  by_cases h : o ≤ p / 8 ∧ p / 8 < o + k
  · rw [if_pos h, if_pos (by omega)]
    have e1 : (p - 8 * o) / 8 = p / 8 - o := by omega
    have e2 : (p - 8 * o) % 8 = p % 8 := by omega
    rw [e1, e2]
  · rw [if_neg h, if_neg (by omega)]

theorem concat_bits_cursor (out : Buf) (oct bit : Nat) (inp : Buf) (inlen : Nat) :
    (concat_bits out oct bit inp inlen).2
      = ((8 * oct + bit + inlen) / 8, (8 * oct + bit + inlen) % 8) := by
  unfold concat_bits
  by_cases h0 : bit = 0
  · subst h0
    simp only [ne_eq, not_true_eq_false, if_false]
    refine Prod.ext ?_ ?_
    · show oct + inlen / 8 = _
      omega
    · show (inlen + 0) % 8 = _
      omega
  · rw [if_pos h0]
    refine Prod.ext ?_ ?_
    · show oct + ((inlen + bit + 7) / 8 - (if (inlen + bit) % 8 ≠ 0 then 1 else 0)) = _
      split <;> omega
    · show (inlen + bit) % 8 = _
      omega

theorem concat_bits_bits (out : Buf) (oct bit : Nat) (inp : Buf) (inlen : Nat) (hb : bit < 8)
    (hz : ∀ p, 8 * oct + bit ≤ p → p < 8 * ((8 * oct + bit + 7) / 8) → bitAt out p = false)
    (p : Nat) :
    bitAt (concat_bits out oct bit inp inlen).1 p
      = if p < 8 * oct + bit then bitAt out p
        else if p < 8 * oct + bit + inlen then bitAt inp (p - (8 * oct + bit))
        else if p < 8 * ((8 * oct + bit + inlen + 7) / 8) then false
        else bitAt out p := by
  unfold concat_bits
  by_cases h0 : bit = 0
  · subst h0
    simp only [ne_eq, not_true_eq_false, if_false, Nat.add_zero]
    by_cases hm : inlen % 8 = 0
    · rw [if_neg (by simpa using hm), bitAt_copy_loop]
      split_ifs <;> first | rfl | omega
    · rw [if_pos (by simpa using hm), bitAt_wr]
      by_cases d : p / 8 = oct + inlen / 8
      · rw [if_pos d, Nat.testBit_and, testBit_ff_shiftLeft _ _ (by omega)]
        have n1 : ¬ p < 8 * oct := by omega
        rw [if_neg n1]
        by_cases c : p < 8 * oct + inlen
        · rw [if_pos c, bitAt_mk inp (p - 8 * oct) (inlen / 8) (7 - p % 8) (by omega) (by omega)]
          have : 8 - inlen % 8 ≤ 7 - p % 8 := by omega
          simp [this]
        · rw [if_neg c, if_pos (by omega)]
          have : ¬ 8 - inlen % 8 ≤ 7 - p % 8 := by omega
          simp [this]
      · rw [if_neg d, bitAt_copy_loop]
        split_ifs <;> first | rfl | omega
  · rw [if_pos h0]
    show bitAt (wr (rshift out oct inp inlen bit) oct
      ((rshift out oct inp inlen bit oct).val ||| (out oct).val)) p = _
    rw [bitAt_wr]
    by_cases d : p / 8 = oct
    · rw [if_pos d, Nat.testBit_or]
      have hr := rshift_bits out oct inp inlen bit (by omega) hb p
      rw [bitAt_mk _ p oct (7 - p % 8) d rfl] at hr
      rw [hr]
      have n1 : ¬ p < 8 * oct := by omega
      rw [if_neg n1]
      by_cases c2 : p < 8 * oct + bit
      · rw [if_pos c2, if_pos c2, bitAt_mk out p oct (7 - p % 8) d rfl]
        simp
      · have hzp := hz p (by omega) (by omega)
        rw [bitAt_mk out p oct (7 - p % 8) d rfl] at hzp
        rw [if_neg c2, if_neg c2, hzp]
        have e : p - 8 * oct - bit = p - (8 * oct + bit) := by omega
        have e2 : 8 * (oct + (bit + inlen + 7) / 8) = 8 * ((8 * oct + bit + inlen + 7) / 8) := by
          omega
        rw [e, e2]
        simp only [Bool.or_false]
    · rw [if_neg d, rshift_bits out oct inp inlen bit (by omega) hb p]
      have e : p - 8 * oct - bit = p - (8 * oct + bit) := by omega
      have e2 : 8 * (oct + (bit + inlen + 7) / 8) = 8 * ((8 * oct + bit + inlen + 7) / 8) := by
        omega
      rw [e, e2]
      split_ifs <;> first | rfl | omega

/-! ## Lemmas: `lshift` -/

theorem testBit_lmask (r j : Nat) (hj : j < 8) :
    (u8 (0xff <<< (8 - r))).val.testBit j = decide (8 - r ≤ j) := by
  rw [testBit_u8 _ _ hj, testBit_ff_shiftLeft _ _ hj]

/-- One pass through the body of the loop of `lshift`. -/
theorem lshift_step_bits (inp : Buf) (b : Nat) (hb : b < 8) (out : Buf) (i p : Nat) :
    bitAt (wr (wr out i ((inp i).val <<< b)) i
        ((wr out i ((inp i).val <<< b) i).val
          ||| (((inp (i + 1)).val &&& (u8 (0xff <<< (8 - b))).val) >>> (8 - b)))) p
      = if 8 * i ≤ p ∧ p < 8 * (i + 1) then bitAt inp (p + b) else bitAt out p := by
  rw [bitAt_wr]
  by_cases d : p / 8 = i
  · rw [if_pos d, if_pos (by omega), wr_same, Nat.testBit_or, testBit_u8 _ _ (by omega),
      Nat.testBit_shiftLeft, Nat.testBit_shiftRight, Nat.testBit_and]
    by_cases c : p % 8 + b < 8
    · rw [testBit_byte_high (inp (i + 1)) (8 - b + (7 - p % 8)) (by omega),
        bitAt_mk inp (p + b) i (7 - p % 8 - b) (by omega) (by omega)]
      have : 7 - p % 8 ≥ b := by omega
      simp [this]
    · rw [testBit_lmask _ _ (by omega),
        bitAt_mk inp (p + b) (i + 1) (8 - b + (7 - p % 8)) (by omega) (by omega)]
      have : ¬ 7 - p % 8 ≥ b := by omega
      simp [this]
  · rw [if_neg d, bitAt_wr, if_neg d, if_neg (by omega)]

theorem lshift_loop_spec (inp : Buf) (b : Nat) (hb : b < 8) :
    ∀ (fuel : Nat) (out : Buf) (i inlen : Nat), inlen / 8 ≤ fuel →
      (lshift_loop inp b (u8 (0xff <<< (8 - b))).val fuel out i inlen).2.1 = i + inlen / 8 ∧
      (lshift_loop inp b (u8 (0xff <<< (8 - b))).val fuel out i inlen).2.2 = inlen % 8 ∧
      ∀ p, bitAt (lshift_loop inp b (u8 (0xff <<< (8 - b))).val fuel out i inlen).1 p
        = if 8 * i ≤ p ∧ p < 8 * (i + inlen / 8) then bitAt inp (p + b) else bitAt out p := by
  intro fuel
  induction fuel with
  | zero =>
    intro out i inlen hf
    have hl : inlen < 8 := by omega
    have hd : inlen / 8 = 0 := Nat.div_eq_of_lt hl
    simp only [lshift_loop, hd, Nat.mod_eq_of_lt hl, Nat.add_zero, true_and]
    intro p
    rw [if_neg (by omega)]
  | succ f ih =>
    intro out i inlen hf
    unfold lshift_loop
    by_cases hge : inlen ≥ 8
    · rw [if_pos hge]
      obtain ⟨e1, e2, e3⟩ := ih (wr (wr out i ((inp i).val <<< b)) i
        ((wr out i ((inp i).val <<< b) i).val
          ||| (((inp (i + 1)).val &&& (u8 (0xff <<< (8 - b))).val) >>> (8 - b))))
        (i + 1) (inlen - 8) (by omega)
      refine ⟨by rw [e1]; omega, by rw [e2]; omega, ?_⟩
      intro p
      rw [e3 p, lshift_step_bits inp b hb out i p]
      split_ifs <;> first | rfl | omega
    · rw [if_neg hge]
      have hl : inlen < 8 := by omega
      have hd : inlen / 8 = 0 := Nat.div_eq_of_lt hl
      simp only [hd, Nat.mod_eq_of_lt hl, Nat.add_zero, true_and]
      intro p
      rw [if_neg (by omega)]

theorem lshift_bits (out inp : Buf) (inlen b : Nat) (hb : b < 8) (p : Nat) :
    bitAt (lshift out inp inlen b) p
      = if p < inlen then bitAt inp (p + b)
        else if p < 8 * ((inlen + 7) / 8) then false
        else bitAt out p := by
  obtain ⟨e1, e2, e3⟩ := lshift_loop_spec inp b hb inlen out 0 inlen (Nat.div_le_self _ _)
  unfold lshift
  simp only []
  rw [e1, e2]
  simp only [Nat.zero_add, Nat.mul_zero, Nat.zero_le, true_and] at e3 ⊢
  by_cases hrem : inlen % 8 = 0
  · rw [if_neg (by simpa using hrem), e3 p]
    split_ifs <;> first | rfl | omega
  · rw [if_pos (by simpa using hrem)]
    by_cases hbig : inlen % 8 > 8 - b
    · rw [if_pos hbig, bitAt_wr]
      by_cases d : p / 8 = inlen / 8
      · rw [if_pos d, wr_same, Nat.testBit_or, testBit_u8 _ _ (by omega), Nat.testBit_and,
          Nat.testBit_shiftLeft, testBit_lmask _ _ (by omega), Nat.testBit_shiftRight,
          Nat.testBit_and, Nat.testBit_shiftLeft, testBit_lmask _ _ (by omega)]
        by_cases c : p < inlen
        · rw [if_pos c]
          have m1 : 8 - inlen % 8 ≤ 7 - p % 8 := by omega
          by_cases c2 : p % 8 + b < 8
          · rw [testBit_byte_high (inp (inlen / 8 + 1)) (8 - b + (7 - p % 8)) (by omega),
              bitAt_mk inp (p + b) (inlen / 8) (7 - p % 8 - b) (by omega) (by omega)]
            have : 7 - p % 8 ≥ b := by omega
            simp [this, m1]
          · rw [bitAt_mk inp (p + b) (inlen / 8 + 1) (8 - b + (7 - p % 8)) (by omega) (by omega)]
            have : ¬ 7 - p % 8 ≥ b := by omega
            have m2 : 8 - b + (7 - p % 8) - (8 - b) = 7 - p % 8 := by omega
            simp [this, m1, m2]
        · rw [if_neg c, if_pos (by omega)]
          have m1 : ¬ 8 - inlen % 8 ≤ 7 - p % 8 := by omega
          have m2 : 8 - b + (7 - p % 8) - (8 - b) = 7 - p % 8 := by omega
          simp [m1, m2]
      · rw [if_neg d, bitAt_wr, if_neg d, e3 p]
        split_ifs <;> first | rfl | omega
    · rw [if_neg hbig, bitAt_wr]
      by_cases d : p / 8 = inlen / 8
      · rw [if_pos d, Nat.testBit_and, Nat.testBit_shiftLeft, testBit_lmask _ _ (by omega)]
        by_cases c : p < inlen
        · rw [if_pos c, bitAt_mk inp (p + b) (inlen / 8) (7 - p % 8 - b) (by omega) (by omega)]
          have m1 : 8 - inlen % 8 ≤ 7 - p % 8 := by omega
          have : 7 - p % 8 ≥ b := by omega
          simp [this, m1]
        · rw [if_neg c, if_pos (by omega)]
          have m1 : ¬ 8 - inlen % 8 ≤ 7 - p % 8 := by omega
          simp [m1]
      · rw [if_neg d, e3 p]
        split_ifs <;> first | rfl | omega

/-! ## Lemmas: `depad_10` -/

theorem and_one_shiftLeft_ne_zero (x i : Nat) : (x &&& (1 <<< i) ≠ 0) ↔ x.testBit i = true := by
  rw [Nat.one_shiftLeft, Nat.and_two_pow]
  have h2 : 0 < 2 ^ i := Nat.pos_pow_of_pos i (by norm_num)
  cases h : x.testBit i
  · simp
  · simp

theorem depad_for_found (tmp : Nat) :
    ∀ (fuel bit outlen t : Nat), bit ≤ t → t < 8 → t - bit < fuel →
      (∀ j, bit ≤ j → j < t → tmp.testBit j = false) → tmp.testBit t = true →
      depad_for tmp fuel bit outlen = (t, outlen - (t - bit), true) := by
  intro fuel
  induction fuel with
  | zero => intro bit outlen t _ _ h; omega
  | succ f ih =>
    intro bit outlen t h1 h2 h3 hlow ht
    unfold depad_for
    rw [if_pos (by omega)]
    by_cases c : bit = t
    · subst c
      rw [if_pos ((and_one_shiftLeft_ne_zero tmp bit).2 ht)]
      simp
    · have hb : tmp.testBit bit = false := hlow bit (Nat.le_refl _) (by omega)
      have : ¬ (tmp &&& (1 <<< bit) ≠ 0) := by
        rw [and_one_shiftLeft_ne_zero, hb]
        simp
      rw [if_neg this, ih (bit + 1) (outlen - 1) t (by omega) h2 (by omega)
        (fun j hj1 hj2 => hlow j (by omega) hj2) ht]
      congr 2
      omega

theorem depad_for_none (tmp : Nat) :
    ∀ (fuel bit outlen : Nat), bit ≤ 8 → 8 - bit ≤ fuel →
      (∀ j, bit ≤ j → j < 8 → tmp.testBit j = false) →
      depad_for tmp fuel bit outlen = (8, outlen - (8 - bit), false) := by
  intro fuel
  induction fuel with
  | zero =>
    intro bit outlen h1 h2 _
    have : bit = 8 := by omega
    subst this
    simp [depad_for]
  | succ f ih =>
    intro bit outlen h1 h2 hlow
    unfold depad_for
    by_cases c : bit < 8
    · rw [if_pos c]
      have hb : tmp.testBit bit = false := hlow bit (Nat.le_refl _) c
      have : ¬ (tmp &&& (1 <<< bit) ≠ 0) := by
        rw [and_one_shiftLeft_ne_zero, hb]
        simp
      rw [if_neg this, ih (bit + 1) (outlen - 1) (by omega) (by omega)
        (fun j hj1 hj2 => hlow j (by omega) hj2)]
      congr 2
      omega
    · rw [if_neg c]
      have : bit = 8 := by omega
      subst this
      simp

/-- The scan of `depad_10` stops at the last set bit of the block, when there is one
past the first octet. -/
theorem depad_while_found (inp : Buf) (l : Nat) (hl1 : 8 ≤ l) (hset : bitAt inp l = true) :
    ∀ (fuel bytes tmp bit : Nat), l / 8 ≤ bytes → bytes - l / 8 < fuel →
      (∀ p, l < p → p < 8 * (bytes + 1) → bitAt inp p = false) →
      depad_while inp fuel bytes tmp bit (8 * bytes + 7) = ((inp (l / 8)).val, 7 - l % 8, l) := by
  intro fuel
  induction fuel with
  | zero => intro bytes tmp bit _ h; omega
  | succ f ih =>
    intro bytes tmp bit h1 h2 hz
    unfold depad_while
    rw [if_pos (by omega)]
    dsimp only
    by_cases c : bytes = l / 8
    · subst c
      have ht : (inp (l / 8)).val.testBit (7 - l % 8) = true := by
        rw [← bitAt_mk inp l (l / 8) (7 - l % 8) rfl rfl]
        exact hset
      have hlow : ∀ j, 0 ≤ j → j < 7 - l % 8 → (inp (l / 8)).val.testBit j = false := by
        intro j _ hj
        rw [← bitAt_mk inp (8 * (l / 8) + (7 - j)) (l / 8) j (by omega) (by omega)]
        exact hz _ (by omega) (by omega)
      rw [depad_for_found (inp (l / 8)).val 8 0 (8 * (l / 8) + 7) (7 - l % 8) (by omega)
        (by omega) (by omega) hlow ht]
      simp only [if_true]
      congr 2
      omega
    · have hzero : ∀ j, 0 ≤ j → j < 8 → (inp bytes).val.testBit j = false := by
        intro j _ hj
        rw [← bitAt_mk inp (8 * bytes + (7 - j)) bytes j (by omega) (by omega)]
        exact hz _ (by omega) (by omega)
      rw [depad_for_none (inp bytes).val 8 0 (8 * bytes + 7) (by omega) (by omega) hzero]
      simp only [Bool.false_eq_true, if_false]
      have e : 8 * bytes + 7 - (8 - 0) = 8 * (bytes - 1) + 7 := by omega
      rw [e]
      exact ih (bytes - 1) (inp bytes).val 8 (by omega) (by omega)
        (fun p hp1 hp2 => hz p hp1 (by omega))

/-- What `depad_10` returns on a block whose last set bit is bit `l`, `8 ≤ l ≤ 127`. -/
theorem depad_10_eq (out inp : Buf) (l : Nat) (hl1 : 8 ≤ l) (hl2 : l < 128)
    (hset : bitAt inp l = true) (hz : ∀ p, l < p → p < 128 → bitAt inp p = false) :
    depad_10 out inp
      = (wr (copy_loop 0 inp (l / 8) out) ((l + 7) / 8)
          ((inp (l / 8)).val &&& (0xff <<< (8 - (7 - l % 8)))), l) := by
  unfold depad_10
  have h := depad_while_found inp l hl1 hset 15 15 0 0 (by omega) (by omega)
    (fun p hp1 hp2 => hz p hp1 (by omega))
  have e1 : BLOCKBYTES - 1 = 15 := rfl
  have e2 : BLOCKBITS - 1 = 8 * 15 + 7 := rfl
  rw [e1, e2, h]

theorem depad_10_len (out inp : Buf) (l : Nat) (hl1 : 8 ≤ l) (hl2 : l < 128)
    (hset : bitAt inp l = true) (hz : ∀ p, l < p → p < 128 → bitAt inp p = false) :
    (depad_10 out inp).2 = l := by
  rw [depad_10_eq out inp l hl1 hl2 hset hz]

/-- The in-place call `depad_10(x, x)` keeps the bits before the padding bit. -/
theorem depad_10_inplace_bits (x : Buf) (l : Nat) (hl1 : 8 ≤ l) (hl2 : l < 128)
    (hset : bitAt x l = true) (hz : ∀ p, l < p → p < 128 → bitAt x p = false)
    (p : Nat) (hp : p < l) :
    bitAt (depad_10 x x).1 p = bitAt x p := by
  rw [depad_10_eq x x l hl1 hl2 hset hz]
  show bitAt (wr _ _ _) p = _
  rw [bitAt_wr, if_neg (by omega), bitAt_copy_loop]
  split_ifs <;> rfl

/-! ## Lemmas: `sec_memcmp_bits` -/

theorem nat_eq_zero_iff_testBit (v : Nat) : v = 0 ↔ ∀ j, v.testBit j = false := by
  constructor
  · intro h j
    rw [h]
    exact Nat.zero_testBit j
  · intro h
    apply Nat.eq_of_testBit_eq
    intro j
    rw [h j, Nat.zero_testBit]

theorem u8_eq_zero_iff (v : Nat) : (u8 v).val = 0 ↔ ∀ j, j < 8 → v.testBit j = false := by
  rw [nat_eq_zero_iff_testBit]
  constructor
  · intro h j hj
    rw [← testBit_u8 v j hj]
    exact h j
  · intro h j
    by_cases hj : j < 8
    · rw [testBit_u8 v j hj]
      exact h j hj
    · exact testBit_byte_high _ _ (by omega)

theorem byte_eq_zero_iff (x : Byte) : x.val = 0 ↔ ∀ j, j < 8 → x.val.testBit j = false := by
  rw [← u8_eq_zero_iff, u8_byte]

theorem sec_memcmp_loop_spec (a b : Buf) :
    ∀ (fuel : Nat) (ret : Byte) (i bitlen : Nat), bitlen / 8 ≤ fuel →
      (sec_memcmp_loop a b fuel ret.val i bitlen).2.1 = i + bitlen / 8 ∧
      (sec_memcmp_loop a b fuel ret.val i bitlen).2.2 = bitlen % 8 ∧
      ∃ r : Byte, (sec_memcmp_loop a b fuel ret.val i bitlen).1 = r.val ∧
        (r.val = 0 ↔ ret.val = 0 ∧
          ∀ p, 8 * i ≤ p → p < 8 * (i + bitlen / 8) → bitAt a p = bitAt b p) := by
  intro fuel
  induction fuel with
  | zero =>
    intro ret i bitlen hf
    have hl : bitlen < 8 := by omega
    have hd : bitlen / 8 = 0 := Nat.div_eq_of_lt hl
    simp only [sec_memcmp_loop, hd, Nat.mod_eq_of_lt hl, Nat.add_zero, true_and]
    refine ⟨ret, rfl, ?_⟩
    constructor
    · intro h
      exact ⟨h, fun p h1 h2 => by omega⟩
    · intro h
      exact h.1
  | succ f ih =>
    intro ret i bitlen hf
    unfold sec_memcmp_loop
    by_cases hge : bitlen ≥ 8
    · rw [if_pos hge]
      obtain ⟨e1, e2, r, e3, e4⟩ := ih (u8 (ret.val ||| ((a i).val ^^^ (b i).val))) (i + 1)
        (bitlen - 8) (by omega)
      refine ⟨by rw [e1]; omega, by rw [e2]; omega, r, e3, ?_⟩
      rw [e4, u8_eq_zero_iff, byte_eq_zero_iff ret]
      constructor
      · rintro ⟨h1, h2⟩
        refine ⟨fun j hj => ?_, fun p hp1 hp2 => ?_⟩
        · have := h1 j hj
          rw [Nat.testBit_or] at this
          simp only [Bool.or_eq_false_iff] at this
          exact this.1
        · by_cases c : p < 8 * (i + 1)
          · have := h1 (7 - p % 8) (by omega)
            rw [Nat.testBit_or, Nat.testBit_xor] at this
            simp only [Bool.or_eq_false_iff] at this
            have h3 := this.2
            rw [bitAt_mk a p i (7 - p % 8) (by omega) rfl, bitAt_mk b p i (7 - p % 8) (by omega) rfl]
            revert h3
            cases (a i).val.testBit (7 - p % 8) <;> cases (b i).val.testBit (7 - p % 8) <;> simp
          · exact h2 p (by omega) (by omega)
      · rintro ⟨h1, h2⟩
        refine ⟨fun j hj => ?_, fun p hp1 hp2 => h2 p (by omega) (by omega)⟩
        rw [Nat.testBit_or, Nat.testBit_xor, h1 j hj]
        have := h2 (8 * i + (7 - j)) (by omega) (by omega)
        rw [bitAt_mk a _ i j (by omega) (by omega), bitAt_mk b _ i j (by omega) (by omega)] at this
        rw [this]
        simp
    · rw [if_neg hge]
      have hl : bitlen < 8 := by omega
      have hd : bitlen / 8 = 0 := Nat.div_eq_of_lt hl
      simp only [hd, Nat.mod_eq_of_lt hl, Nat.add_zero, true_and]
      refine ⟨ret, rfl, ?_⟩
      constructor
      · intro h
        exact ⟨h, fun p h1 h2 => by omega⟩
      · intro h
        exact h.1

/-- The function `sec_memcmp_bits` returns 0 exactly when the first `bitlen` bits agree. -/
theorem sec_memcmp_bits_eq_zero_iff (a b : Buf) (bitlen : Nat) :
    sec_memcmp_bits a b bitlen = 0 ↔ ∀ p, p < bitlen → bitAt a p = bitAt b p := by
  obtain ⟨e1, e2, r, e3, e4⟩ := sec_memcmp_loop_spec a b bitlen 0 0 bitlen (Nat.div_le_self _ _)
  have z : ((0 : Byte)).val = 0 := rfl
  rw [z] at e1 e2 e3 e4
  have e1' : (sec_memcmp_loop a b bitlen 0 0 bitlen).2.1 = bitlen / 8 := by rw [e1]; omega
  have e4' : r.val = 0 ↔ ∀ p, p < 8 * (bitlen / 8) → bitAt a p = bitAt b p := by
    rw [e4]
    constructor
    · intro h p hp
      exact h.2 p (by omega) (by omega)
    · intro h
      exact ⟨rfl, fun p _ hp => h p (by omega)⟩
  unfold sec_memcmp_bits
  dsimp only
  rw [e1', e2, e3]
  by_cases hrem : bitlen % 8 = 0
  · rw [if_neg (by simpa using hrem), e4']
    constructor
    · intro h p hp
      exact h p (by omega)
    · intro h p hp
      exact h p (by omega)
  · rw [if_pos (by simpa using hrem), u8_eq_zero_iff]
    constructor
    · intro h p hp
      by_cases c : p < 8 * (bitlen / 8)
      · have h0 : r.val = 0 := by
          rw [byte_eq_zero_iff]
          intro j hj
          have := h j hj
          rw [Nat.testBit_or] at this
          simp only [Bool.or_eq_false_iff] at this
          exact this.1
        exact e4'.1 h0 p c
      · have := h (7 - p % 8) (by omega)
        rw [Nat.testBit_or, Nat.testBit_and, Nat.testBit_xor,
          testBit_ff_shiftLeft _ _ (by omega)] at this
        simp only [Bool.or_eq_false_iff] at this
        have h3 := this.2
        have m : 8 - bitlen % 8 ≤ 7 - p % 8 := by omega
        rw [bitAt_mk a p (bitlen / 8) (7 - p % 8) (by omega) rfl,
          bitAt_mk b p (bitlen / 8) (7 - p % 8) (by omega) rfl]
        revert h3
        simp only [m, decide_True, Bool.and_true]
        cases (a (bitlen / 8)).val.testBit (7 - p % 8) <;>
          cases (b (bitlen / 8)).val.testBit (7 - p % 8) <;> simp
    · intro h j hj
      have h0 : r.val = 0 := e4'.2 (fun p hp => h p (by omega))
      rw [Nat.testBit_or, Nat.testBit_and, Nat.testBit_xor, testBit_ff_shiftLeft _ _ hj,
        (byte_eq_zero_iff r).1 h0 j hj]
      by_cases m : 8 - bitlen % 8 ≤ j
      · have := h (8 * (bitlen / 8) + (7 - j)) (by omega)
        rw [bitAt_mk a _ (bitlen / 8) j (by omega) (by omega),
          bitAt_mk b _ (bitlen / 8) j (by omega) (by omega)] at this
        rw [this]
        simp
      · simp [m]

/-! ## Lemmas: `xor_block`, `doubling`, block-cipher calls -/

theorem GET_LE32_testBit (a : Buf) (o i : Nat) :
    (GET_LE32 a o).testBit i
      = if i < 8 then (a o).val.testBit i
        else if i < 16 then (a (o + 1)).val.testBit (i - 8)
        else if i < 24 then (a (o + 2)).val.testBit (i - 16)
        else if i < 32 then (a (o + 3)).val.testBit (i - 24)
        else false := by
  unfold GET_LE32
  simp only [Nat.testBit_or, Nat.testBit_shiftLeft]
  by_cases c1 : i < 8
  · have n1 : ¬ i ≥ 24 := by omega
    have n2 : ¬ i ≥ 16 := by omega
    have n3 : ¬ i ≥ 8 := by omega
    simp [c1, n1, n2, n3]
  · by_cases c2 : i < 16
    · have n1 : ¬ i ≥ 24 := by omega
      have n2 : ¬ i ≥ 16 := by omega
      have n3 : i ≥ 8 := by omega
      simp [c1, c2, n1, n2, n3, testBit_byte_high (a o) i (by omega)]
    · by_cases c3 : i < 24
      · have n1 : ¬ i ≥ 24 := by omega
        have n2 : i ≥ 16 := by omega
        have n3 : i ≥ 8 := by omega
        simp [c1, c2, c3, n1, n2, n3, testBit_byte_high (a o) i (by omega),
          testBit_byte_high (a (o + 1)) (i - 8) (by omega)]
      · have n1 : i ≥ 24 := by omega
        have n2 : i ≥ 16 := by omega
        have n3 : i ≥ 8 := by omega
        by_cases c4 : i < 32
        · simp [c1, c2, c3, c4, n1, n2, n3, testBit_byte_high (a o) i (by omega),
            testBit_byte_high (a (o + 1)) (i - 8) (by omega),
            testBit_byte_high (a (o + 2)) (i - 16) (by omega)]
        · simp [c1, c2, c3, c4, n1, n2, n3, testBit_byte_high (a o) i (by omega),
            testBit_byte_high (a (o + 1)) (i - 8) (by omega),
            testBit_byte_high (a (o + 2)) (i - 16) (by omega),
            testBit_byte_high (a (o + 3)) (i - 24) (by omega)]

theorem PUT_LE32_get (a : Buf) (o val j : Nat) :
    PUT_LE32 a o val j
      = if j = o then u8 ((val >>> 0) &&& 0xff)
        else if j = o + 1 then u8 ((val >>> 8) &&& 0xff)
        else if j = o + 2 then u8 ((val >>> 16) &&& 0xff)
        else if j = o + 3 then u8 ((val >>> 24) &&& 0xff)
        else a j := by
  unfold PUT_LE32 wr
  rfl

theorem testBit_ff (j : Nat) : (0xff : Nat).testBit j = decide (j < 8) := by
  have e : (0xff : Nat) = 2 ^ 8 - 1 := by norm_num
  rw [e, Nat.testBit_two_pow_sub_one]

/-- Octet `t` of the XOR of two little-endian words. -/
theorem xor_word_byte (s1 s2 : Buf) (k t : Nat) (ht : t < 4) :
    u8 (((GET_LE32 s1 k ^^^ GET_LE32 s2 k) >>> (8 * t)) &&& 0xff)
      = u8 ((s1 (k + t)).val ^^^ (s2 (k + t)).val) := by
  apply byte_ext
  intro j hj
  rw [testBit_u8 _ _ hj, testBit_u8 _ _ hj, Nat.testBit_and, Nat.testBit_shiftRight,
    Nat.testBit_xor, Nat.testBit_xor, GET_LE32_testBit, GET_LE32_testBit, testBit_ff]
  have hd : decide (j < 8) = true := by simpa using hj
  rw [hd, Bool.and_true]
  have ht' : t = 0 ∨ t = 1 ∨ t = 2 ∨ t = 3 := by omega
  rcases ht' with h | h | h | h <;> subst h
  · simp only [Nat.mul_zero, Nat.zero_add, Nat.add_zero]
    rw [if_pos hj, if_pos hj]
  · rw [if_neg (by omega), if_pos (by omega), if_neg (by omega), if_pos (by omega)]
    have : 8 * 1 + j - 8 = j := by omega
    rw [this]
  · rw [if_neg (by omega), if_neg (by omega), if_pos (by omega), if_neg (by omega),
      if_neg (by omega), if_pos (by omega)]
    have : 8 * 2 + j - 16 = j := by omega
    rw [this]
  · rw [if_neg (by omega), if_neg (by omega), if_neg (by omega), if_pos (by omega),
      if_neg (by omega), if_neg (by omega), if_neg (by omega), if_pos (by omega)]
    have : 8 * 3 + j - 24 = j := by omega
    rw [this]

theorem PUT_xor_get (dst : Buf) (o : Nat) (s1 s2 : Buf) (k j : Nat) :
    PUT_LE32 dst o (GET_LE32 s1 k ^^^ GET_LE32 s2 k) j
      = if o ≤ j ∧ j < o + 4 then u8 ((s1 (k + (j - o))).val ^^^ (s2 (k + (j - o))).val)
        else dst j := by
  rw [PUT_LE32_get]
  by_cases h0 : j = o
  · rw [if_pos h0, if_pos (by omega)]
    have := xor_word_byte s1 s2 k 0 (by omega)
    have e : j - o = 0 := by omega
    rw [e]
    exact this
  · rw [if_neg h0]
    by_cases h1 : j = o + 1
    · rw [if_pos h1, if_pos (by omega)]
      have := xor_word_byte s1 s2 k 1 (by omega)
      have e : j - o = 1 := by omega
      rw [e]
      exact this
    · rw [if_neg h1]
      by_cases h2 : j = o + 2
      · rw [if_pos h2, if_pos (by omega)]
        have := xor_word_byte s1 s2 k 2 (by omega)
        have e : j - o = 2 := by omega
        rw [e]
        exact this
      · rw [if_neg h2]
        by_cases h3 : j = o + 3
        · rw [if_pos h3, if_pos (by omega)]
          have := xor_word_byte s1 s2 k 3 (by omega)
          have e : j - o = 3 := by omega
          rw [e]
          exact this
        · rw [if_neg h3, if_neg (by omega)]

theorem xor_block_get (dst : Buf) (o : Nat) (s1 s2 : Buf) (j : Nat) :
    xor_block dst o s1 s2 j
      = if o ≤ j ∧ j < o + 16 then u8 ((s1 (j - o)).val ^^^ (s2 (j - o)).val) else dst j := by
  unfold xor_block
  simp only [PUT_xor_get]
  by_cases c3 : o + 12 ≤ j ∧ j < o + 12 + 4
  · rw [if_pos c3, if_pos (by omega)]
    have : 12 + (j - (o + 12)) = j - o := by omega
    rw [this]
  · rw [if_neg c3]
    by_cases c2 : o + 8 ≤ j ∧ j < o + 8 + 4
    · rw [if_pos c2, if_pos (by omega)]
      have : 8 + (j - (o + 8)) = j - o := by omega
      rw [this]
    · rw [if_neg c2]
      by_cases c1 : o + 4 ≤ j ∧ j < o + 4 + 4
      · rw [if_pos c1, if_pos (by omega)]
        have : 4 + (j - (o + 4)) = j - o := by omega
        rw [this]
      · rw [if_neg c1]
        by_cases c0 : o ≤ j ∧ j < o + 4
        · rw [if_pos c0, if_pos (by omega)]
          have : 0 + (j - o) = j - o := by omega
          rw [this]
        · rw [if_neg c0, if_neg (by omega)]


theorem PUT_LE32_other (a : Buf) (o val j : Nat) (h : j < o ∨ o + 3 < j) :
    PUT_LE32 a o val j = a j := by
  rw [PUT_LE32_get, if_neg (by omega), if_neg (by omega), if_neg (by omega), if_neg (by omega)]

theorem GET_LE32_congr (x y : Buf) (k : Nat) (hk : k + 3 < 16) (h : ∀ j, j < 16 → x j = y j) :
    GET_LE32 x k = GET_LE32 y k := by
  unfold GET_LE32
  rw [h (k + 3) (by omega), h (k + 2) (by omega), h (k + 1) (by omega), h k (by omega)]

theorem PUT_LE32_congr (x y : Buf) (o val : Nat) (h : ∀ j, j < 16 → x j = y j) :
    ∀ j, j < 16 → PUT_LE32 x o val j = PUT_LE32 y o val j := by
  intro j hj
  rw [PUT_LE32_get, PUT_LE32_get, h j hj]

/-- One of the four word shifts of `doubling` reads only the first 16 octets. -/
theorem doubling_step_congr (x y : Buf) (o c : Nat) (ho : o + 3 < 16) (hc : c < 16)
    (h : ∀ j, j < 16 → x j = y j) :
    ∀ j, j < 16 →
      PUT_LE32 x o (u32 (GET_LE32 x o <<< 1) ||| (((x c).val &&& 0x80) >>> 7)) j
        = PUT_LE32 y o (u32 (GET_LE32 y o <<< 1) ||| (((y c).val &&& 0x80) >>> 7)) j := by
  rw [GET_LE32_congr x y o ho h, h c hc]
  exact PUT_LE32_congr x y o _ h

/-- The function `doubling` reads only the first 16 octets of its argument. -/
theorem doubling_congr (x y : Buf) (h : ∀ j, j < 16 → x j = y j) :
    ∀ j, j < 16 → doubling x j = doubling y j := by
  have a1 := doubling_step_congr x y 12 11 (by omega) (by omega) h
  have a2 := doubling_step_congr _ _ 8 7 (by omega) (by omega) a1
  have a3 := doubling_step_congr _ _ 4 3 (by omega) (by omega) a2
  have a4 := doubling_step_congr _ _ 0 3 (by omega) (by omega) a3
  intro j hj
  unfold doubling
  unfold wr
  rw [a4 j hj, a4 0 (by omega), h 15 (by omega)]

/-- The function `doubling` writes only the first 16 octets. -/
theorem doubling_frame (x : Buf) (j : Nat) (hj : 16 ≤ j) : doubling x j = x j := by
  unfold doubling
  rw [wr_other _ _ _ _ (by omega), PUT_LE32_other _ _ _ _ (by omega),
    PUT_LE32_other _ _ _ _ (by omega), PUT_LE32_other _ _ _ _ (by omega),
    PUT_LE32_other _ _ _ _ (by omega)]

theorem wrBlock_in (buf : Buf) (o : Nat) (blk : Block) (j : Nat) (h : o ≤ j ∧ j < o + 16) :
    wrBlock buf o blk j = blk ⟨j - o, by omega⟩ := by
  unfold wrBlock
  rw [dif_pos h]

theorem wrBlock_other (buf : Buf) (o : Nat) (blk : Block) (j : Nat) (h : j < o ∨ o + 16 ≤ j) :
    wrBlock buf o blk j = buf j := by
  unfold wrBlock
  rw [dif_neg (by omega)]

theorem rdBlock_wrBlock (buf : Buf) (o : Nat) (blk : Block) :
    rdBlock (wrBlock buf o blk) o = blk := by
  funext i
  unfold rdBlock
  rw [wrBlock_in _ _ _ _ (by omega)]
  congr 1
  apply Fin.ext
  simp

theorem rdBlock_congr (x y : Buf) (o k : Nat) (h : ∀ t, t < 16 → x (o + t) = y (k + t)) :
    rdBlock x o = rdBlock y k := by
  funext i
  unfold rdBlock
  exact h i.val i.isLt

theorem bitAt_offs (buf : Buf) (k p : Nat) : bitAt (offs buf k) p = bitAt buf (8 * k + p) := by
  unfold bitAt offs
  have e1 : (8 * k + p) / 8 = k + p / 8 := by omega
  have e2 : (8 * k + p) % 8 = p % 8 := by omega
  rw [e1, e2]

theorem bitAt_congr_byte (x y : Buf) (p q : Nat) (h : x (p / 8) = y (q / 8))
    (hm : p % 8 = q % 8) : bitAt x p = bitAt y q := by
  unfold bitAt
  rw [h, hm]

theorem xor_cancel_byte (x s : Byte) : u8 ((u8 (x.val ^^^ s.val)).val ^^^ s.val) = x := by
  apply byte_ext
  intro j hj
  rw [testBit_u8 _ _ hj, Nat.testBit_xor, testBit_u8 _ _ hj, Nat.testBit_xor]
  cases x.val.testBit j <;> cases s.val.testBit j <;> rfl

theorem xor_cancel_byte_left (x s : Byte) : u8 (s.val ^^^ (u8 (x.val ^^^ s.val)).val) = x := by
  rw [Nat.xor_comm]
  exact xor_cancel_byte x s

theorem bitAt_zeroed (size : Nat) (junk : Buf) (p : Nat) (h : p < 8 * size) :
    bitAt (zeroed size junk) p = false := by
  unfold bitAt zeroed
  rw [if_pos (by omega)]
  simp

/-! ## Lemmas: Manx1 -/

/-- Appending with `concat_bits` at bit position `P` to an array whose bits from `P` up
to bit `L` are zero: the cursor advances by `inlen`, the bits before `P` stay, the new
bits are those of the input, the bits after them are zero up to `L`, and the octets
past the last one written stay. -/
theorem concat_bits_build (out : Buf) (oct bit : Nat) (inp : Buf) (inlen L P : Nat)
    (hP : 8 * oct + bit = P) (hb : bit < 8) (hL : L % 8 = 0) (hPL : P ≤ L)
    (hz : ∀ p, P ≤ p → p < L → bitAt out p = false) :
    ∃ (out1 : Buf) (oct1 bit1 : Nat),
      concat_bits out oct bit inp inlen = (out1, oct1, bit1) ∧
      8 * oct1 + bit1 = P + inlen ∧ bit1 < 8 ∧
      (∀ p, p < P → bitAt out1 p = bitAt out p) ∧
      (∀ p, P ≤ p → p < P + inlen → bitAt out1 p = bitAt inp (p - P)) ∧
      (∀ p, P + inlen ≤ p → p < L → bitAt out1 p = false) ∧
      (∀ p, 8 * ((P + inlen + 7) / 8) ≤ p → bitAt out1 p = bitAt out p) := by
  subst hP
  have hz' : ∀ p, 8 * oct + bit ≤ p → p < 8 * ((8 * oct + bit + 7) / 8) → bitAt out p = false :=
    fun p h1 h2 => hz p h1 (by omega)
  have hc := concat_bits_cursor out oct bit inp inlen
  have hbits := concat_bits_bits out oct bit inp inlen hb hz'
  refine ⟨(concat_bits out oct bit inp inlen).1, (concat_bits out oct bit inp inlen).2.1,
    (concat_bits out oct bit inp inlen).2.2, rfl, by rw [hc]; dsimp only; omega,
    by rw [hc]; dsimp only; omega, ?_, ?_, ?_, ?_⟩
  · intro p hp
    rw [hbits p, if_pos hp]
  · intro p hp1 hp2
    rw [hbits p, if_neg (by omega), if_pos hp2]
  · intro p hp1 hp2
    rw [hbits p, if_neg (by omega), if_neg (by omega)]
    split_ifs
    · rfl
    · exact hz p (by omega) hp2
  · intro p hp
    rw [hbits p, if_neg (by omega), if_neg (by omega), if_neg (by omega)]

theorem manx1_s_eq (nlen : Nat) (h : nlen ≤ 128) :
    MAX (sadd (ssub BLOCKBITS nlen) MANX_TAU) MANX1_ALPHAMAX = 192 - nlen := by
  unfold MAX sadd ssub SZ BLOCKBITS MANX_TAU MANX1_ALPHAMAX BLOCKBYTES BLOCKBITS BLOCKBYTES
  split <;> omega

theorem manx1_v2len_eq (nlen : Nat) (h : nlen ≤ 128) :
    ssub (192 - nlen) (ssub BLOCKBITS nlen) = 64 := by
  unfold ssub SZ BLOCKBITS BLOCKBYTES
  omega

/-- The encoding `vencode(N, A)` of Manx1 with variable-length AD: the cursor ends at bit
192 and the 256 bits are `N || A || 1 || 0*`. -/
theorem manx1_vencode_spec (junk n a : Buf) (nlen alen : Nat) (hn : nlen ≤ 128)
    (ha : alen ≤ 64) :
    ∃ v : Buf, manx1_vencode 1 junk (192 - nlen) n nlen a alen = (v, 24, 0) ∧
    ∀ p, p < 256 → bitAt v p
      = if p < nlen then bitAt n p
        else if p < nlen + alen then bitAt a (p - nlen)
        else decide (p = nlen + alen) := by
  obtain ⟨v1, o1, b1, e1, c1, hb1, f1, g1, z1, _⟩ :=
    concat_bits_build (zeroed (2 * BLOCKBYTES) junk) 0 0 n nlen 256 0
    (by omega) (by omega) (by omega) (by omega) (fun p _ hp => bitAt_zeroed _ _ _ (by
      unfold BLOCKBYTES; omega))
  obtain ⟨v2, o2, b2, e2, c2, hb2, f2, g2, z2, _⟩ :=
    concat_bits_build v1 o1 b1 a alen 256 nlen (by omega) hb1 (by omega)
    (by omega) (fun p h1 h2 => z1 p (by omega) h2)
  unfold manx1_vencode
  rw [if_pos (by omega), e1]
  dsimp only
  rw [e2]
  dsimp only
  have hs : ssub (192 - nlen) alen = 192 - nlen - alen := by
    unfold ssub SZ
    omega
  rw [hs, to_int_small _ (by omega), inc_bitpos_nat _ _ _ (by unfold SZ; omega)]
  refine ⟨_, Prod.ext rfl (Prod.ext ?_ ?_), ?_⟩
  · dsimp only
    omega
  · dsimp only
    omega
  · intro p hp
    rw [bitAt_setbit_at _ _ _ _ hb2]
    have e : 8 * o2 + b2 = nlen + alen := by omega
    rw [e]
    by_cases h1 : p < nlen
    · rw [if_pos h1, f2 p (by omega), g1 p (by omega) (by omega)]
      have : ¬ p = nlen + alen := by omega
      simp [this]
    · rw [if_neg h1]
      by_cases h2 : p < nlen + alen
      · rw [if_pos h2, g2 p (by omega) (by omega)]
        have : ¬ p = nlen + alen := by omega
        simp [this]
      · rw [if_neg h2, z2 p (by omega) hp]
        simp


/-- The two blocks built by `manx1_enc` before the cipher calls: the first 192 bits are
those of `vencode(N, A)`, then come the message, one set bit and zeros. -/
theorem manx1_enc_blocks (v m : Buf) (mlen : Nat) (hm : mlen < 64)
    (hz : ∀ p, 192 < p → p < 256 → bitAt v p = false) :
    ∃ w : Buf, setbit_at (concat_bits v 24 0 m mlen).1 (concat_bits v 24 0 m mlen).2.1
        (concat_bits v 24 0 m mlen).2.2 = w ∧
      (∀ p, p < 192 → bitAt w p = bitAt v p) ∧
      (∀ p, 192 ≤ p → p < 192 + mlen → bitAt w p = bitAt m (p - 192)) ∧
      bitAt w (192 + mlen) = true ∧
      (∀ p, 192 + mlen < p → p < 256 → bitAt w p = false) := by
  have hc := concat_bits_cursor v 24 0 m mlen
  have hbits := concat_bits_bits v 24 0 m mlen (by omega) (fun p h1 h2 => by omega)
  have hb : (concat_bits v 24 0 m mlen).2.2 < 8 := by rw [hc]; dsimp only; omega
  have hP : 8 * (concat_bits v 24 0 m mlen).2.1 + (concat_bits v 24 0 m mlen).2.2
      = 192 + mlen := by rw [hc]; dsimp only; omega
  refine ⟨_, rfl, ?_, ?_, ?_, ?_⟩
  · intro p hp
    rw [bitAt_setbit_at _ _ _ _ hb, hP, hbits p, if_pos (by omega)]
    have : ¬ p = 192 + mlen := by omega
    simp [this]
  · intro p hp1 hp2
    rw [bitAt_setbit_at _ _ _ _ hb, hP, hbits p, if_neg (by omega), if_pos (by omega)]
    have : ¬ p = 192 + mlen := by omega
    simp [this]
  · rw [bitAt_setbit_at _ _ _ _ hb, hP]
    simp
  · intro p hp1 hp2
    rw [bitAt_setbit_at _ _ _ _ hb, hP, hbits p, if_neg (by omega), if_neg (by omega)]
    have : ¬ p = 192 + mlen := by omega
    simp only [this, decide_False, Bool.false_or]
    split_ifs
    · rfl
    · exact hz p (by omega) hp2

theorem byte_eq_of_bitAt (x y : Buf) (i k : Nat)
    (h : ∀ q, q < 8 → bitAt x (8 * i + q) = bitAt y (8 * k + q)) : x i = y k := by
  apply byte_eq_of_bits
  intro p hp1 hp2
  have := h (p - 8 * i) (by omega)
  have e : 8 * i + (p - 8 * i) = p := by omega
  rw [e] at this
  exact this

theorem bitAt_of_byte_eq (x y : Buf) (i k q : Nat) (hq : q < 8) (h : x i = y k) :
    bitAt x (8 * i + q) = bitAt y (8 * k + q) := by
  apply bitAt_congr_byte
  · have e1 : (8 * i + q) / 8 = i := by omega
    have e2 : (8 * k + q) / 8 = k := by omega
    rw [e1, e2, h]
  · omega

/-- Core of the Manx1 round trip: what `manx1_dec` recomputes from the output of
`manx1_enc` is the second block `V[2]` of the encryption. -/
theorem manx1_core (w v c0 vt0 rk : Buf) (enc : enc_func) (dec : dec_func)
    (hinv : ∀ x r, dec (enc x r) r = x)
    (hwv : ∀ j, j < 16 → w j = v j) (t : Nat) (ht : t < 16) :
    let sv := doubling (apply_cipher enc w 0 w 0 rk)
    let v3 := xor_block sv BLOCKBYTES (offs sv BLOCKBYTES) sv
    let c2 := xor_block (apply_cipher enc c0 0 v3 BLOCKBYTES rk) 0
      (apply_cipher enc c0 0 v3 BLOCKBYTES rk) v3
    let sd := doubling (apply_cipher enc v 0 v 0 rk)
    let vt1 := xor_block vt0 0 sd c2
    let vt2 := apply_cipher dec vt1 0 vt1 0 rk
    xor_block vt2 0 vt2 sd t = w (16 + t) := by
  intro sv v3 c2 sd vt1 vt2
  have hblk : rdBlock w 0 = rdBlock v 0 := rdBlock_congr w v 0 0 (fun t ht => by
    simpa using hwv t ht)
  have hsd : ∀ j, j < 16 → sd j = sv j := by
    apply doubling_congr
    intro j hj
    unfold apply_cipher
    rw [wrBlock_in _ _ _ _ (by omega), wrBlock_in _ _ _ _ (by omega), hblk]
  have hsv16 : ∀ j, 16 ≤ j → sv j = w j := by
    intro j hj
    show doubling _ j = _
    rw [doubling_frame _ _ hj]
    unfold apply_cipher
    rw [wrBlock_other _ _ _ _ (by omega)]
  have hv3lo : ∀ j, j < 16 → v3 j = sv j := by
    intro j hj
    show xor_block _ _ _ _ j = _
    rw [xor_block_get, if_neg (by unfold BLOCKBYTES; omega)]
  have hv3hi : ∀ j, j < 16 → v3 (16 + j) = u8 ((w (16 + j)).val ^^^ (sv j).val) := by
    intro j hj
    show xor_block _ _ _ _ (16 + j) = _
    rw [xor_block_get, if_pos (by unfold BLOCKBYTES; omega)]
    have e : 16 + j - BLOCKBYTES = j := by unfold BLOCKBYTES; omega
    rw [e]
    unfold offs
    rw [hsv16 (BLOCKBYTES + j) (by unfold BLOCKBYTES; omega)]
    rfl
  have hc2 : ∀ j (hj : j < 16), c2 j
      = u8 ((enc (rdBlock v3 16) rk ⟨j, hj⟩).val ^^^ (sv j).val) := by
    intro j hj
    show xor_block _ _ _ _ j = _
    rw [xor_block_get, if_pos (by omega)]
    unfold apply_cipher
    rw [wrBlock_in _ _ _ _ (by omega), hv3lo (j - 0) (by omega)]
    rfl
  have hvt1 : rdBlock vt1 0 = enc (rdBlock v3 16) rk := by
    funext i
    show xor_block _ _ _ _ (0 + i.val) = _
    rw [xor_block_get, if_pos (by omega)]
    have e : 0 + i.val - 0 = i.val := by omega
    rw [e, hsd _ i.isLt, hc2 _ i.isLt, xor_cancel_byte_left]
  have hvt2 : ∀ j, j < 16 → vt2 j = v3 (16 + j) := by
    intro j hj
    show apply_cipher _ _ _ _ _ _ j = _
    unfold apply_cipher
    rw [wrBlock_in _ _ _ _ (by omega), hvt1, hinv]
    unfold rdBlock
    simp
  show xor_block _ _ _ _ t = _
  rw [xor_block_get, if_pos (by omega)]
  have e : t - 0 = t := by omega
  rw [e, hvt2 t ht, hv3hi t ht, hsd t ht, xor_cancel_byte]


theorem bitAt_shift_block (x w : Buf) (k : Nat) (h : ∀ t, t < 16 → x t = w (k + t)) (p : Nat)
    (hp : p < 128) : bitAt x p = bitAt w (8 * k + p) := by
  apply bitAt_congr_byte
  · have e : (8 * k + p) / 8 = k + p / 8 := by omega
    rw [e]
    exact h (p / 8) (by omega)
  · omega

/-- Round trip of Manx1 with variable-length AD (`MANX1_VARIABLE_ADLEN = 1`). -/
theorem manx1_roundtrip (junk : Buf) (junkd : Nat → Buf) (c0 p0 k n m a : Buf)
    (nlen mlen alen : Nat) (enc : enc_func) (dec : dec_func) (kexpand : Option kexp_func)
    (hinv : ∀ x rk, dec (enc x rk) rk = x)
    (hn : nlen ≤ 128) (ha : alen ≤ 64) (hm : mlen < 64) :
    (manx1_enc 1 junk c0 k n nlen m mlen a alen enc kexpand).ret = 0 ∧
    (manx1_enc 1 junk c0 k n nlen m mlen a alen enc kexpand).len = 128 ∧
    (manx1_dec 1 junkd p0 k n nlen
      (manx1_enc 1 junk c0 k n nlen m mlen a alen enc kexpand).out
      (manx1_enc 1 junk c0 k n nlen m mlen a alen enc kexpand).len
      a alen enc dec kexpand).ret = 0 ∧
    (manx1_dec 1 junkd p0 k n nlen
      (manx1_enc 1 junk c0 k n nlen m mlen a alen enc kexpand).out
      (manx1_enc 1 junk c0 k n nlen m mlen a alen enc kexpand).len
      a alen enc dec kexpand).len = mlen ∧
    ∀ i, i < mlen →
      bitAt (manx1_dec 1 junkd p0 k n nlen
        (manx1_enc 1 junk c0 k n nlen m mlen a alen enc kexpand).out
        (manx1_enc 1 junk c0 k n nlen m mlen a alen enc kexpand).len
        a alen enc dec kexpand).out i = bitAt m i := by
  obtain ⟨v, ev, hv⟩ := manx1_vencode_spec junk n a nlen alen hn ha
  obtain ⟨vd, evd, hvd⟩ := manx1_vencode_spec (junkd 0) n a nlen alen hn ha
  obtain ⟨w, ew, w1, w2, w3, w4⟩ := manx1_enc_blocks v m mlen hm (fun p h1 h2 => by
    rw [hv p h2, if_neg (by omega), if_neg (by omega)]
    have : ¬ p = nlen + alen := by omega
    simp [this])
  have hwvd : ∀ j, j < 24 → w j = vd j := by
    intro j hj
    apply byte_eq_of_bitAt
    intro q hq
    rw [w1 _ (by omega), hv _ (by omega), hvd _ (by omega)]
  -- the encryption
  have henc : manx1_enc 1 junk c0 k n nlen m mlen a alen enc kexpand
      = ⟨0, BLOCKBITS,
        xor_block (apply_cipher enc c0 0
          (xor_block (doubling (apply_cipher enc w 0 w 0 (manx1_roundkeys kexpand k))) BLOCKBYTES
            (offs (doubling (apply_cipher enc w 0 w 0 (manx1_roundkeys kexpand k))) BLOCKBYTES)
            (doubling (apply_cipher enc w 0 w 0 (manx1_roundkeys kexpand k))))
          BLOCKBYTES (manx1_roundkeys kexpand k)) 0
        (apply_cipher enc c0 0
          (xor_block (doubling (apply_cipher enc w 0 w 0 (manx1_roundkeys kexpand k))) BLOCKBYTES
            (offs (doubling (apply_cipher enc w 0 w 0 (manx1_roundkeys kexpand k))) BLOCKBYTES)
            (doubling (apply_cipher enc w 0 w 0 (manx1_roundkeys kexpand k))))
          BLOCKBYTES (manx1_roundkeys kexpand k))
        (xor_block (doubling (apply_cipher enc w 0 w 0 (manx1_roundkeys kexpand k))) BLOCKBYTES
            (offs (doubling (apply_cipher enc w 0 w 0 (manx1_roundkeys kexpand k))) BLOCKBYTES)
            (doubling (apply_cipher enc w 0 w 0 (manx1_roundkeys kexpand k))))⟩ := by
    unfold manx1_enc
    dsimp only
    rw [manx1_s_eq nlen hn, manx1_v2len_eq nlen hn, ev]
    dsimp only
    rw [ew, if_neg (by unfold BLOCKBITS MANX_TAU BLOCKBITS BLOCKBYTES; omega),
      if_neg (by unfold MANX1_ALPHAMAX; omega),
      if_neg (by unfold ssub SZ BLOCKBITS BLOCKBYTES; omega)]
  rw [henc]
  dsimp only
  have hcore := manx1_core w vd c0 (zeroed BLOCKBYTES (junkd 1)) (manx1_roundkeys kexpand k)
    enc dec hinv (fun j hj => hwvd j (by omega))
  dsimp only at hcore
  have hvt3 := bitAt_shift_block _ w 16 hcore
  unfold manx1_dec
  dsimp only
  rw [manx1_s_eq nlen hn, manx1_v2len_eq nlen hn, evd]
  dsimp only
  rw [if_neg (by simp), if_neg (by unfold MANX1_ALPHAMAX; omega)]
  have hcmp : ∀ x : Buf, (∀ p, p < 128 → bitAt x p = bitAt w (8 * 16 + p)) →
      sec_memcmp_bits
        (offs (doubling (apply_cipher enc vd 0 vd 0 (manx1_roundkeys kexpand k))) BLOCKBYTES) x 64
        = 0 := by
    intro x hx
    rw [sec_memcmp_bits_eq_zero_iff]
    intro p hp
    rw [bitAt_offs, hx p (by omega)]
    apply bitAt_congr_byte
    · rw [doubling_frame _ _ (by unfold BLOCKBYTES; omega)]
      unfold apply_cipher
      rw [wrBlock_other _ _ _ _ (by unfold BLOCKBYTES; omega)]
      have e1 : (8 * BLOCKBYTES + p) / 8 = 16 + p / 8 := by unfold BLOCKBYTES; omega
      have e2 : (8 * 16 + p) / 8 = 16 + p / 8 := by omega
      rw [e1, e2, hwvd _ (by omega)]
    · unfold BLOCKBYTES
      omega
  rw [if_neg (by rw [hcmp _ hvt3]; simp)]
  dsimp only
  have hl1 : ∀ x : Buf, (∀ p, p < 128 → bitAt x p = bitAt w (8 * 16 + p)) →
      bitAt x (64 + mlen) = true := by
    intro x hx
    rw [hx (64 + mlen) (by omega)]
    have e : 8 * 16 + (64 + mlen) = 192 + mlen := by omega
    rw [e]
    exact w3
  have hl2 : ∀ x : Buf, (∀ p, p < 128 → bitAt x p = bitAt w (8 * 16 + p)) →
      ∀ p, 64 + mlen < p → p < 128 → bitAt x p = false := by
    intro x hx p h1 h2
    rw [hx p h2]
    exact w4 _ (by omega) (by omega)
  rw [depad_10_len _ _ (64 + mlen) (by omega) (by omega) (hl1 _ hvt3) (hl2 _ hvt3)]
  have hs : ssub (64 + mlen) 64 = mlen := by
    unfold ssub SZ
    omega
  rw [hs]
  refine ⟨rfl, rfl, rfl, rfl, ?_⟩
  intro i hi
  rw [lshift_bits _ _ _ _ (by omega), if_pos hi, bitAt_offs,
    depad_10_inplace_bits _ (64 + mlen) (by omega) (by omega) (hl1 _ hvt3) (hl2 _ hvt3) _
      (by omega),
    hvt3 _ (by omega), w2 _ (by omega) (by omega)]
  exact congrArg (bitAt m) (by omega)


theorem xor_cipher_inv (x : Block) (rk : Buf) : xor_cipher (xor_cipher x rk) rk = x := by
  funext i
  unfold xor_cipher
  exact xor_cancel_byte (x i) (rk i.val)

/-! ## Lemmas: Manx2 -/

theorem GETBIT_eq (x i : Nat) : GETBIT x i = if x.testBit i then 1 else 0 := by
  unfold GETBIT
  rw [Nat.and_one_is_mod]
  have h := Nat.testBit_to_div_mod (x := x) (i := i)
  rw [Nat.shiftRight_eq_div_pow]
  by_cases c : x / 2 ^ i % 2 = 1
  · rw [h]
    simp [c]
  · rw [h]
    have : x / 2 ^ i % 2 = 0 := by omega
    simp [this]

theorem testBit_CHGBIT (x i b j : Nat) (hb : b ≤ 1) (hj : j < 64) :
    (CHGBIT x i b).testBit j = if i = j then decide (b = 1) else x.testBit j := by
  unfold CHGBIT
  rw [Nat.testBit_xor, Nat.testBit_and, Nat.testBit_xor, testBit_one_shiftLeft]
  by_cases c : i = j
  · rw [if_pos c]
    have hb' : b = 0 ∨ b = 1 := by omega
    rcases hb' with h | h
    · subst h
      have : (SZ - 0 % SZ) % SZ = 0 := by unfold SZ; rfl
      rw [this]
      cases x.testBit j <;> simp [c]
    · subst h
      have e : (SZ - 1 % SZ) % SZ = 2 ^ 64 - 1 := by unfold SZ; rfl
      rw [e, Nat.testBit_two_pow_sub_one]
      cases x.testBit j <;> simp [c, hj]
  · rw [if_neg c]
    simp [c]

theorem testBit_CLRBIT (x i j : Nat) (hi : i < 64) (hj : j < 64) :
    (CLRBIT x i).testBit j = (x.testBit j && !decide (i = j)) := by
  unfold CLRBIT
  have e : SZ - 1 - 1 <<< i = 2 ^ 64 - (2 ^ i + 1) := by
    rw [Nat.one_shiftLeft]
    unfold SZ
    omega
  have hlt : 2 ^ i < 2 ^ 64 := Nat.pow_lt_pow_right (by norm_num) hi
  rw [Nat.testBit_and, e, Nat.testBit_two_pow_sub_succ hlt, Nat.testBit_two_pow]
  simp [hj]

theorem bitAt_wr_CHGBIT (t : Buf) (pos b p : Nat) (hb : b ≤ 1) :
    bitAt (wr t (pos / 8) (CHGBIT (t (pos / 8)).val (7 - pos % 8) b)) p
      = if p = pos then decide (b = 1) else bitAt t p := by
  rw [bitAt_wr]
  by_cases c : p / 8 = pos / 8
  · rw [if_pos c, testBit_CHGBIT _ _ _ _ hb (by omega)]
    by_cases d : p = pos
    · subst d
      simp
    · rw [if_neg (by omega), if_neg d, bitAt_mk t p (pos / 8) (7 - p % 8) c rfl]
  · rw [if_neg c, if_neg (by intro h; subst h; exact c rfl)]

theorem bitAt_wr_CLRBIT (t : Buf) (pos p : Nat) :
    bitAt (wr t (pos / 8) (CLRBIT (t (pos / 8)).val (7 - pos % 8))) p
      = if p = pos then false else bitAt t p := by
  rw [bitAt_wr]
  by_cases c : p / 8 = pos / 8
  · rw [if_pos c, testBit_CLRBIT _ _ _ (by omega) (by omega)]
    by_cases d : p = pos
    · subst d
      simp
    · rw [if_neg d, bitAt_mk t p (pos / 8) (7 - p % 8) c rfl]
      have : ¬ (7 - pos % 8 = 7 - p % 8) := by omega
      simp [this]
  · rw [if_neg c, if_neg (by intro h; subst h; exact c rfl)]

theorem GETBIT_bitAt (s : Buf) (pos : Nat) :
    GETBIT (s (pos / 8)).val (7 - pos % 8) = if bitAt s pos then 1 else 0 := by
  rw [GETBIT_eq]
  rfl

theorem inc_bitpos_lit (oct bit k : Nat) (hb : bit < 8) (hk : k < 256) :
    8 * (inc_bitpos oct bit (k : Int)).1 + (inc_bitpos oct bit (k : Int)).2 = 8 * oct + bit + k ∧
    (inc_bitpos oct bit (k : Int)).2 < 8 := by
  rw [inc_bitpos_nat _ _ _ (by unfold SZ; omega)]
  dsimp only
  omega

theorem inc_bitpos_one (oct bit : Nat) (hb : bit < 8) :
    8 * (inc_bitpos oct bit 1).1 + (inc_bitpos oct bit 1).2 = 8 * oct + bit + 1 ∧
    (inc_bitpos oct bit 1).2 < 8 :=
  inc_bitpos_lit oct bit 1 hb (by omega)

theorem inc_bitpos_two (oct bit : Nat) (hb : bit < 8) :
    8 * (inc_bitpos oct bit 2).1 + (inc_bitpos oct bit 2).2 = 8 * oct + bit + 2 ∧
    (inc_bitpos oct bit 2).2 < 8 :=
  inc_bitpos_lit oct bit 2 hb (by omega)

/-- The two domain-separation bits written by `set_separation_domain` at bit position
`P`: `10` for `mlen < r`, `11` for `mlen = r`, `00` for `mlen > r`; the cursor advances
by 2 and no other bit changes. -/
theorem set_separation_domain_spec (out : Buf) (oct bit mlen r P : Nat) (hP : 8 * oct + bit = P)
    (hb : bit < 8) (hz0 : bitAt out P = false) (hz1 : bitAt out (P + 1) = false) :
    ∃ (out1 : Buf) (oct1 bit1 : Nat),
      set_separation_domain out oct bit mlen r = (out1, oct1, bit1) ∧
      8 * oct1 + bit1 = P + 2 ∧ bit1 < 8 ∧
      ∀ p, bitAt out1 p = if p = P then decide (mlen ≤ r)
        else if p = P + 1 then decide (mlen = r) else bitAt out p := by
  subst hP
  have h2 := inc_bitpos_two oct bit hb
  have h1 := inc_bitpos_one oct bit hb
  have h11 := inc_bitpos_one (inc_bitpos oct bit 1).1 (inc_bitpos oct bit 1).2 h1.2
  unfold set_separation_domain
  by_cases c1 : mlen < r
  · rw [if_pos c1]
    refine ⟨_, _, _, rfl, h2.1, h2.2, ?_⟩
    intro p
    rw [bitAt_setbit_at _ _ _ _ hb]
    by_cases d : p = 8 * oct + bit
    · rw [if_pos d]
      have : mlen ≤ r := by omega
      simp [d, this]
    · rw [if_neg d]
      by_cases d1 : p = 8 * oct + bit + 1
      · rw [if_pos d1, d1, hz1]
        have : ¬ mlen = r := by omega
        simp [this]
      · rw [if_neg d1]
        simp [d]
  · rw [if_neg c1]
    by_cases c2 : mlen = r
    · rw [if_pos c2]
      refine ⟨_, _, _, rfl, ?_, h11.2, ?_⟩
      · have := h11.1
        have := h1.1
        omega
      · intro p
        rw [bitAt_setbit_at _ _ _ _ h1.2, bitAt_setbit_at _ _ _ _ hb, h1.1]
        by_cases d : p = 8 * oct + bit
        · rw [if_pos d]
          simp [d, c2]
        · rw [if_neg d]
          by_cases d1 : p = 8 * oct + bit + 1
          · rw [if_pos d1]
            simp [d1, c2]
          · rw [if_neg d1]
            simp [d, d1]
    · rw [if_neg c2]
      refine ⟨_, _, _, rfl, h2.1, h2.2, ?_⟩
      intro p
      have n1 : ¬ mlen ≤ r := by omega
      by_cases d : p = 8 * oct + bit
      · rw [if_pos d, d, hz0]
        simp [n1]
      · rw [if_neg d]
        by_cases d1 : p = 8 * oct + bit + 1
        · rw [if_pos d1, d1, hz1]
          simp [c2]
        · rw [if_neg d1]

theorem manx2_r_eq (vadlen nlen : Nat) (h : nlen + MANX2_ALPHASTAR vadlen + 2 ≤ 128) :
    ssub BLOCKBITS (nlen + MANX2_ALPHASTAR vadlen + 2)
      = 128 - (nlen + MANX2_ALPHASTAR vadlen + 2) := by
  unfold ssub SZ BLOCKBITS BLOCKBYTES
  omega

/-- The AD part of a Manx2 block: `concat_bits` of the AD at bit `nlen + 2`, then the
padding of the AD when it has variable length.  The cursor ends at `manx2_hdr_len`. -/
theorem manx2_ad_spec (vadlen : Nat) (v : Buf) (oct bit : Nat) (a : Buf) (alen nlen : Nat)
    (hv : vadlen ≤ 1) (hn : nlen + 18 + vadlen ≤ 128) (ha : alen ≤ 16)
    (hP : 8 * oct + bit = nlen + 2) (hb : bit < 8)
    (hz : ∀ p, nlen + 2 ≤ p → p < 128 → bitAt v p = false) :
    ∃ (v1 : Buf) (oct1 bit1 : Nat),
      manx2_pad_ad vadlen (concat_bits v oct bit a alen).1 (concat_bits v oct bit a alen).2.1
        (concat_bits v oct bit a alen).2.2 alen = (v1, oct1, bit1) ∧
      8 * oct1 + bit1 = manx2_hdr_len vadlen nlen alen ∧ bit1 < 8 ∧
      (∀ p, p < nlen + 2 → bitAt v1 p = bitAt v p) ∧
      (∀ p, nlen + 2 ≤ p → p < nlen + 2 + alen → bitAt v1 p = bitAt a (p - (nlen + 2))) ∧
      (∀ p, nlen + 2 + alen ≤ p → p < 128 →
        bitAt v1 p = decide (vadlen ≠ 0 ∧ p = nlen + 2 + alen)) := by
  obtain ⟨w, o1, b1, e1, c1, hb1, f1, g1, z1, _⟩ :=
    concat_bits_build v oct bit a alen 128 (nlen + 2) hP hb (by omega) (by omega) hz
  rw [e1]
  dsimp only
  unfold manx2_pad_ad manx2_hdr_len
  by_cases c : vadlen ≠ 0
  · rw [if_pos c, if_pos c]
    have hv1 : vadlen = 1 := by omega
    subst hv1
    have hs : ssub (MANX2_ALPHASTAR 1) alen = 17 - alen := by
      unfold ssub SZ MANX2_ALPHASTAR MANX2_ALPHAMAX
      omega
    have hi := inc_bitpos_lit o1 b1 (17 - alen) hb1 (by omega)
    rw [hs, to_int_small _ (by omega)]
    refine ⟨_, _, _, rfl, ?_, hi.2, ?_, ?_, ?_⟩
    · have := hi.1
      unfold MANX2_ALPHASTAR MANX2_ALPHAMAX
      omega
    · intro p hp
      rw [bitAt_setbit_at _ _ _ _ hb1, f1 p hp]
      have : ¬ p = 8 * o1 + b1 := by omega
      simp [this]
    · intro p hp1 hp2
      rw [bitAt_setbit_at _ _ _ _ hb1, g1 p hp1 hp2]
      have : ¬ p = 8 * o1 + b1 := by omega
      simp [this]
    · intro p hp1 hp2
      rw [bitAt_setbit_at _ _ _ _ hb1, z1 p hp1 hp2, c1]
      simp
  · rw [if_neg c, if_neg c]
    refine ⟨_, _, _, rfl, by omega, hb1, f1, g1, ?_⟩
    intro p hp1 hp2
    rw [z1 p hp1 hp2]
    simp [c]

/-- The block built by `init_tiny_msg`, bit by bit: the header with the separation bits
`10` (`mlen < r`) or `11` (`mlen = r`), the message, one set bit and zeros. -/
theorem init_tiny_msg_bits (vadlen : Nat) (b n : Buf) (nlen : Nat) (a : Buf) (alen : Nat)
    (m : Buf) (mlen : Nat) (hv : vadlen ≤ 1) (hn : nlen + 18 + vadlen ≤ 128) (ha : alen ≤ 16)
    (hm : manx2_hdr_len vadlen nlen alen + mlen ≤ 128) (p : Nat) (hp : p < 128) :
    bitAt (init_tiny_msg vadlen b n nlen a alen m mlen) p
      = if p < manx2_hdr_len vadlen nlen alen then
          manx2_hdr_bit vadlen n nlen
            (decide (mlen ≤ ssub BLOCKBITS (nlen + MANX2_ALPHASTAR vadlen + 2)))
            (decide (mlen = ssub BLOCKBITS (nlen + MANX2_ALPHASTAR vadlen + 2))) a alen p
        else if p < manx2_hdr_len vadlen nlen alen + mlen then
          bitAt m (p - manx2_hdr_len vadlen nlen alen)
        else decide (p = manx2_hdr_len vadlen nlen alen + mlen) := by
  obtain ⟨v1, o1, b1, e1, c1, hb1, f1, g1, z1, _⟩ :=
    concat_bits_build (zeroed BLOCKBYTES b) 0 0 n nlen 128 0
    (by omega) (by omega) (by omega) (by omega) (fun p _ hp => bitAt_zeroed _ _ _ (by
      unfold BLOCKBYTES; omega))
  obtain ⟨v2, o2, b2, e2, c2, hb2, f2⟩ := set_separation_domain_spec v1 o1 b1 mlen
    (ssub BLOCKBITS (nlen + MANX2_ALPHASTAR vadlen + 2)) nlen (by omega) hb1
    (z1 _ (by omega) (by omega)) (z1 _ (by omega) (by omega))
  have hz2 : ∀ p, nlen + 2 ≤ p → p < 128 → bitAt v2 p = false := by
    intro p h1 h2
    rw [f2 p, if_neg (by omega), if_neg (by omega)]
    exact z1 p (by omega) h2
  obtain ⟨v3, o3, b3, e3, c3, hb3, f3, g3, z3⟩ := manx2_ad_spec vadlen v2 o2 b2 a alen nlen hv hn
    ha c2 hb2 hz2
  have hc : nlen + 2 + alen ≤ manx2_hdr_len vadlen nlen alen := by
    unfold manx2_hdr_len MANX2_ALPHASTAR MANX2_ALPHAMAX
    split <;> omega
  have hc16 : manx2_hdr_len vadlen nlen alen ≤ 128 := by omega
  have hz3 : ∀ p, manx2_hdr_len vadlen nlen alen ≤ p → p < 128 → bitAt v3 p = false := by
    intro p h1 h2
    rw [z3 p (by omega) h2]
    by_cases c : vadlen ≠ 0
    · have : ¬ p = nlen + 2 + alen := by
        unfold manx2_hdr_len MANX2_ALPHASTAR MANX2_ALPHAMAX at h1
        rw [if_pos c] at h1
        omega
      simp [this]
    · simp [c]
  obtain ⟨v4, o4, b4, e4, c4, hb4, f4, g4, z4, _⟩ :=
    concat_bits_build v3 o3 b3 m mlen 128 (manx2_hdr_len vadlen nlen alen) c3 hb3 (by omega)
    hc16 hz3
  unfold init_tiny_msg
  dsimp only
  rw [e1]
  dsimp only
  rw [e2]
  dsimp only
  rw [e3]
  dsimp only
  rw [e4]
  dsimp only
  rw [bitAt_setbit_at _ _ _ _ hb4, c4]
  by_cases h1 : p < manx2_hdr_len vadlen nlen alen
  · rw [if_pos h1, f4 p h1]
    have : ¬ p = manx2_hdr_len vadlen nlen alen + mlen := by omega
    simp only [this, decide_False, Bool.false_or]
    unfold manx2_hdr_bit
    by_cases q1 : p < nlen
    · rw [if_pos q1, f3 p (by omega), f2 p, if_neg (by omega), if_neg (by omega),
        g1 p (by omega) (by omega)]
      rfl
    · rw [if_neg q1]
      by_cases q2 : p = nlen
      · rw [if_pos q2, f3 p (by omega), f2 p, if_pos q2]
      · rw [if_neg q2]
        by_cases q3 : p = nlen + 1
        · rw [if_pos q3, f3 p (by omega), f2 p, if_neg q2, if_pos q3]
        · rw [if_neg q3]
          by_cases q4 : p < nlen + 2 + alen
          · rw [if_pos q4, g3 p (by omega) q4]
          · rw [if_neg q4, z3 p (by omega) hp]
  · rw [if_neg h1]
    by_cases h2 : p < manx2_hdr_len vadlen nlen alen + mlen
    · rw [if_pos h2, g4 p (by omega) h2]
      have : ¬ p = manx2_hdr_len vadlen nlen alen + mlen := by omega
      simp [this]
    · rw [if_neg h2, z4 p (by omega) hp]
      simp

theorem manx2_hdr_len_le (vadlen nlen alen : Nat) (hv : vadlen ≤ 1) (ha : alen ≤ 16) :
    nlen + 2 + alen ≤ manx2_hdr_len vadlen nlen alen ∧
    manx2_hdr_len vadlen nlen alen ≤ nlen + 18 + vadlen := by
  unfold manx2_hdr_len MANX2_ALPHASTAR MANX2_ALPHAMAX
  split <;> omega

/-- The first block built by `init_short_msg`, bit by bit: `N || 00 || A` (with the
padding of the AD when it has variable length), then the message from bit
`manx2_hdr_len` on. -/
theorem init_short_msg_block1 (vadlen : Nat) (xjunk b n : Buf) (nlen : Nat) (a : Buf)
    (alen : Nat) (m : Buf) (mlen : Nat) (hv : vadlen ≤ 1) (hn : nlen + 18 + vadlen ≤ 128)
    (ha : alen ≤ 16) (p : Nat) (hp : p < 128) :
    bitAt (init_short_msg vadlen xjunk b n nlen a alen m mlen) p
      = if p < manx2_hdr_len vadlen nlen alen then
          manx2_hdr_bit vadlen n nlen false false a alen p
        else if p < manx2_hdr_len vadlen nlen alen + mlen then
          bitAt m (p - manx2_hdr_len vadlen nlen alen)
        else false := by
  obtain ⟨v1, o1, b1, e1, c1, hb1, f1, g1, z1, _⟩ :=
    concat_bits_build (zeroed BLOCKBYTES b) 0 0 n nlen 128 0
    (by omega) (by omega) (by omega) (by omega) (fun p _ hp => bitAt_zeroed _ _ _ (by
      unfold BLOCKBYTES; omega))
  have h2 := inc_bitpos_two o1 b1 hb1
  obtain ⟨v3, o3, b3, e3, c3, hb3, f3, g3, z3⟩ := manx2_ad_spec vadlen v1
    (inc_bitpos o1 b1 2).1 (inc_bitpos o1 b1 2).2 a alen nlen hv hn ha (by omega) h2.2
    (fun p hp1 hp2 => z1 p (by omega) hp2)
  have hc := manx2_hdr_len_le vadlen nlen alen hv ha
  have hz3 : ∀ p, manx2_hdr_len vadlen nlen alen ≤ p → p < 128 → bitAt v3 p = false := by
    intro p h1 h2
    rw [z3 p (by omega) h2]
    by_cases c : vadlen ≠ 0
    · have : ¬ p = nlen + 2 + alen := by
        unfold manx2_hdr_len MANX2_ALPHASTAR MANX2_ALPHAMAX at h1
        rw [if_pos c] at h1
        omega
      simp [this]
    · simp [c]
  obtain ⟨v4, o4, b4, e4, c4, hb4, f4, g4, z4, _⟩ :=
    concat_bits_build v3 o3 b3 m mlen 128 (manx2_hdr_len vadlen nlen alen) c3 hb3 (by omega)
    (by omega) hz3
  have hfirst : ∀ q, q < 128 →
      bitAt (init_short_msg vadlen xjunk b n nlen a alen m mlen) q = bitAt v4 q := by
    intro q hq
    unfold init_short_msg
    dsimp only
    rw [e1]
    dsimp only
    rw [e3]
    dsimp only
    rw [e4]
    unfold bitAt
    dsimp only
    rw [if_pos (by unfold BLOCKBYTES; omega)]
  rw [hfirst p hp]
  by_cases h1 : p < manx2_hdr_len vadlen nlen alen
  · rw [if_pos h1, f4 p h1]
    unfold manx2_hdr_bit
    by_cases q1 : p < nlen
    · rw [if_pos q1, f3 p (by omega), g1 p (by omega) (by omega)]
      rfl
    · rw [if_neg q1]
      by_cases q2 : p = nlen
      · rw [if_pos q2, f3 p (by omega), z1 p (by omega) (by omega)]
      · rw [if_neg q2]
        by_cases q3 : p = nlen + 1
        · rw [if_pos q3, f3 p (by omega), z1 p (by omega) (by omega)]
        · rw [if_neg q3]
          by_cases q4 : p < nlen + 2 + alen
          · rw [if_pos q4, g3 p (by omega) q4]
          · rw [if_neg q4, z3 p (by omega) (by omega)]
  · rw [if_neg h1]
    by_cases h2 : p < manx2_hdr_len vadlen nlen alen + mlen
    · rw [if_pos h2, g4 p (by omega) h2]
    · rw [if_neg h2, z4 p (by omega) hp]

/-- The length of `M[2]` as `init_short_msg` computes it, `mlen -= BLOCKBITS - nlen -
MANX2_ALPHASTAR - 2`, when nothing wraps around. -/
theorem manx2_mlen2_eq (vadlen nlen mlen : Nat) (hn : nlen + 18 + vadlen ≤ 128)
    (hm1 : 128 - (nlen + 18 + vadlen) < mlen) (hm : mlen < 256) :
    ssub mlen (ssub (ssub (ssub BLOCKBITS nlen) (MANX2_ALPHASTAR vadlen)) 2)
      = mlen - (128 - (nlen + 18 + vadlen)) := by
  have e3 : BLOCKBITS = 128 := rfl
  have e4 : MANX2_ALPHASTAR vadlen = 16 + vadlen := rfl
  rw [e3, e4, ssub_le 128 nlen (by omega) (by unfold SZ; omega),
    ssub_le (128 - nlen) (16 + vadlen) (by omega) (by unfold SZ; omega),
    ssub_le (128 - nlen - (16 + vadlen)) 2 (by omega) (by unfold SZ; omega),
    ssub_le mlen (128 - nlen - (16 + vadlen) - 2) (by omega) (by unfold SZ; omega)]
  omega

/-- The second block built by `init_short_msg`, bit by bit, when the header fills
`nlen + 2 + MANX2_ALPHASTAR` bits and `r < mlen`: `N || 01`, the message from its bit
`r` on, one set bit and zeros. -/
theorem init_short_msg_block2 (vadlen : Nat) (xjunk b n : Buf) (nlen : Nat) (a : Buf)
    (alen : Nat) (m : Buf) (mlen : Nat) (hv : vadlen ≤ 1) (hn : nlen + 18 + vadlen ≤ 128)
    (ha : alen ≤ 16) (hex : manx2_hdr_len vadlen nlen alen = nlen + 18 + vadlen)
    (hm1 : 128 - (nlen + 18 + vadlen) < mlen)
    (hm2 : nlen + 2 + (mlen - (128 - (nlen + 18 + vadlen))) < 128) (p : Nat) (hp : p < 128) :
    bitAt (init_short_msg vadlen xjunk b n nlen a alen m mlen) (128 + p)
      = if p < nlen then bitAt n p
        else if p = nlen then false
        else if p = nlen + 1 then true
        else if p < nlen + 2 + (mlen - (128 - (nlen + 18 + vadlen))) then
          bitAt m (128 - (nlen + 18 + vadlen) + (p - (nlen + 2)))
        else decide (p = nlen + 2 + (mlen - (128 - (nlen + 18 + vadlen)))) := by
  obtain ⟨v1, o1, b1, e1, c1, hb1, f1, g1, z1, _⟩ :=
    concat_bits_build (zeroed BLOCKBYTES b) 0 0 n nlen 128 0
    (by omega) (by omega) (by omega) (by omega) (fun p _ hp => bitAt_zeroed _ _ _ (by
      unfold BLOCKBYTES; omega))
  have h2 := inc_bitpos_two o1 b1 hb1
  obtain ⟨v3, o3, b3, e3, c3, hb3, f3, g3, z3⟩ := manx2_ad_spec vadlen v1
    (inc_bitpos o1 b1 2).1 (inc_bitpos o1 b1 2).2 a alen nlen hv hn ha (by omega) h2.2
    (fun p hp1 hp2 => z1 p (by omega) hp2)
  have hc := manx2_hdr_len_le vadlen nlen alen hv ha
  have hz3 : ∀ p, manx2_hdr_len vadlen nlen alen ≤ p → p < 128 → bitAt v3 p = false := by
    intro p h1 h2
    rw [z3 p (by omega) h2]
    by_cases c : vadlen ≠ 0
    · have : ¬ p = nlen + 2 + alen := by
        unfold manx2_hdr_len MANX2_ALPHASTAR MANX2_ALPHAMAX at h1
        rw [if_pos c] at h1
        omega
      simp [this]
    · simp [c]
  obtain ⟨v4, o4, b4, e4, c4, hb4, f4, g4, z4, _⟩ :=
    concat_bits_build v3 o3 b3 m mlen 128 (manx2_hdr_len vadlen nlen alen) c3 hb3 (by omega)
    (by omega) hz3
  have hml : ssub mlen (ssub (ssub (ssub BLOCKBITS nlen) (MANX2_ALPHASTAR vadlen)) 2)
      = mlen - (128 - (nlen + 18 + vadlen)) :=
    manx2_mlen2_eq vadlen nlen mlen hn hm1 (by omega)
  have hx : ∀ q, q < mlen - (128 - (nlen + 18 + vadlen)) →
      bitAt (copy_loop 0 (offs v4 BLOCKBYTES) ((mlen + 7) / 8) xjunk) q
        = bitAt m (128 - (nlen + 18 + vadlen) + q) := by
    intro q hq
    rw [bitAt_copy_loop, if_pos (by omega), bitAt_offs, g4 _ (by unfold BLOCKBYTES; omega)
      (by unfold BLOCKBYTES; omega)]
    exact congrArg (bitAt m) (by unfold BLOCKBYTES; omega)
  obtain ⟨u1, p1, q1, d1, k1, hq1, ff1, gg1, zz1, _⟩ :=
    concat_bits_build (zeroed BLOCKBYTES (offs v4 BLOCKBYTES)) 0 0 n nlen 128 0
    (by omega) (by omega) (by omega) (by omega) (fun p _ hp => bitAt_zeroed _ _ _ (by
      unfold BLOCKBYTES; omega))
  have i1 := inc_bitpos_one p1 q1 hq1
  have i2 := inc_bitpos_one (inc_bitpos p1 q1 1).1 (inc_bitpos p1 q1 1).2 i1.2
  have hzs : ∀ p, nlen + 2 ≤ p → p < 128 →
      bitAt (setbit_at u1 (inc_bitpos p1 q1 1).1 (inc_bitpos p1 q1 1).2) p = false := by
    intro p h1 h2
    rw [bitAt_setbit_at _ _ _ _ i1.2, zz1 p (by omega) h2]
    have : ¬ p = 8 * (inc_bitpos p1 q1 1).1 + (inc_bitpos p1 q1 1).2 := by omega
    simp [this]
  obtain ⟨u2, p2, q2, d2, k2, hq2, ff2, gg2, zz2, _⟩ :=
    concat_bits_build (setbit_at u1 (inc_bitpos p1 q1 1).1 (inc_bitpos p1 q1 1).2)
      (inc_bitpos (inc_bitpos p1 q1 1).1 (inc_bitpos p1 q1 1).2 1).1
      (inc_bitpos (inc_bitpos p1 q1 1).1 (inc_bitpos p1 q1 1).2 1).2
      (copy_loop 0 (offs v4 BLOCKBYTES) ((mlen + 7) / 8) xjunk)
      (mlen - (128 - (nlen + 18 + vadlen))) 128 (nlen + 2) (by omega) i2.2 (by omega)
      (by omega) hzs
  have hsecond : bitAt (init_short_msg vadlen xjunk b n nlen a alen m mlen) (128 + p)
      = bitAt (setbit_at u2 p2 q2) p := by
    unfold init_short_msg
    dsimp only
    rw [e1]
    dsimp only
    rw [e3]
    dsimp only
    rw [e4]
    dsimp only
    rw [hml, d1]
    dsimp only
    rw [d2]
    unfold bitAt
    dsimp only
    rw [if_neg (by unfold BLOCKBYTES; omega)]
    have e1 : (128 + p) / 8 - BLOCKBYTES = p / 8 := by unfold BLOCKBYTES; omega
    have e2 : (128 + p) % 8 = p % 8 := by omega
    rw [e1, e2]
  rw [hsecond, bitAt_setbit_at _ _ _ _ hq2, k2]
  by_cases r1 : p < nlen
  · rw [if_pos r1, ff2 p (by omega), bitAt_setbit_at _ _ _ _ i1.2, gg1 p (by omega) (by omega)]
    have t1 : ¬ p = nlen + 2 + (mlen - (128 - (nlen + 18 + vadlen))) := by omega
    have t2 : ¬ p = 8 * (inc_bitpos p1 q1 1).1 + (inc_bitpos p1 q1 1).2 := by omega
    simp [t1, t2]
  · rw [if_neg r1]
    by_cases r2 : p = nlen
    · rw [if_pos r2, ff2 p (by omega), bitAt_setbit_at _ _ _ _ i1.2, zz1 p (by omega) hp]
      have t1 : ¬ p = nlen + 2 + (mlen - (128 - (nlen + 18 + vadlen))) := by omega
      have t2 : ¬ p = 8 * (inc_bitpos p1 q1 1).1 + (inc_bitpos p1 q1 1).2 := by omega
      simp [t1, t2]
    · rw [if_neg r2]
      by_cases r3 : p = nlen + 1
      · rw [if_pos r3, ff2 p (by omega), bitAt_setbit_at _ _ _ _ i1.2]
        have t2 : p = 8 * (inc_bitpos p1 q1 1).1 + (inc_bitpos p1 q1 1).2 := by omega
        simp [t2]
      · rw [if_neg r3]
        by_cases r4 : p < nlen + 2 + (mlen - (128 - (nlen + 18 + vadlen)))
        · rw [if_pos r4, gg2 p (by omega) r4, hx _ (by omega)]
          have t1 : ¬ p = nlen + 2 + (mlen - (128 - (nlen + 18 + vadlen))) := by omega
          simp [t1]
        · rw [if_neg r4, zz2 p (by omega) hp]
          simp

theorem manx2_hdr_len_exact (vadlen nlen alen : Nat)
    (hfix : vadlen = 0 → alen = 16) :
    manx2_hdr_len vadlen nlen alen = nlen + 18 + vadlen := by
  unfold manx2_hdr_len MANX2_ALPHASTAR MANX2_ALPHAMAX
  split
  · omega
  · have := hfix (by omega)
    omega

theorem bitAt_apply_cipher_other (f : Block → Buf → Block) (dst : Buf) (o : Nat) (src : Buf)
    (i : Nat) (rk : Buf) (p : Nat) (h : p < 8 * o ∨ 8 * (o + 16) ≤ p) :
    bitAt (apply_cipher f dst o src i rk) p = bitAt dst p := by
  unfold bitAt apply_cipher
  rw [wrBlock_other _ _ _ _ (by omega)]

/-- Decrypting an encrypted block gives the block back. -/
theorem decrypt_encrypt_block (enc : enc_func) (dec : dec_func)
    (hinv : ∀ x rk, dec (enc x rk) rk = x) (dst cdst t : Buf) (o i : Nat) (rk : Buf) (j : Nat)
    (hj : j < 16) :
    apply_cipher dec dst 0 (apply_cipher enc cdst o t i rk) o rk j = t (i + j) := by
  unfold apply_cipher
  rw [wrBlock_in _ _ _ _ (by omega), rdBlock_wrBlock, hinv]
  unfold rdBlock
  simp

/-- Header length in octets and bits, as `manx2_dec` computes it. -/
theorem manx2_hl_eq (vadlen nlen : Nat) :
    nlen + 2 + MANX2_ALPHASTAR vadlen = nlen + 18 + vadlen := by
  unfold MANX2_ALPHASTAR MANX2_ALPHAMAX
  omega

/-- On a one-block ciphertext whose decryption is a well-formed tiny-message block,
`manx2_dec` returns 0 and gives back the message. -/
theorem manx2_dec_tiny_ok (vadlen : Nat) (junkd : Nat → Buf) (p0 k n : Buf) (nlen : Nat)
    (c a : Buf) (alen : Nat) (decrypt : dec_func) (kexpand : kexp_func) (m : Buf) (mlen : Nat)
    (hv : vadlen ≤ 1) (hn : nlen + 18 + vadlen ≤ 128) (ha : alen ≤ 16)
    (hex : manx2_hdr_len vadlen nlen alen = nlen + 18 + vadlen)
    (hm : mlen ≤ 128 - (nlen + 18 + vadlen))
    (hs1 : ∀ p, p < 128 → bitAt (apply_cipher decrypt (junkd 1) 0 c 0 (kexpand k)) p
      = if p < nlen + 18 + vadlen then
          manx2_hdr_bit vadlen n nlen true (decide (mlen = 128 - (nlen + 18 + vadlen))) a alen p
        else if p < nlen + 18 + vadlen + mlen then bitAt m (p - (nlen + 18 + vadlen))
        else decide (p = nlen + 18 + vadlen + mlen)) :
    (manx2_dec vadlen junkd p0 k n nlen c 128 a alen decrypt kexpand).ret = 0 ∧
    (manx2_dec vadlen junkd p0 k n nlen c 128 a alen decrypt kexpand).len = mlen ∧
    ∀ i, i < mlen →
      bitAt (manx2_dec vadlen junkd p0 k n nlen c 128 a alen decrypt kexpand).out i
        = bitAt m i := by
  have hr := manx2_r_eq vadlen nlen (by unfold MANX2_ALPHASTAR MANX2_ALPHAMAX; omega)
  have hr' : 128 - (nlen + MANX2_ALPHASTAR vadlen + 2) = 128 - (nlen + 18 + vadlen) := by
    unfold MANX2_ALPHASTAR MANX2_ALPHAMAX
    omega
  rw [hr'] at hr
  have hT := init_tiny_msg_bits vadlen (junkd 0) n nlen a alen c 0 hv hn ha (by rw [hex]; omega)
  rw [hex, hr] at hT
  have hds : GETBIT (apply_cipher decrypt (junkd 1) 0 c 0 (kexpand k) ((nlen + 1) / 8)).val
      (7 - (nlen + 1) % 8) = if mlen = 128 - (nlen + 18 + vadlen) then 1 else 0 := by
    have hb : bitAt (apply_cipher decrypt (junkd 1) 0 c 0 (kexpand k)) (nlen + 1)
        = decide (mlen = 128 - (nlen + 18 + vadlen)) := by
      rw [hs1 _ (by omega), if_pos (by omega)]
      unfold manx2_hdr_bit
      rw [if_neg (by omega), if_neg (by omega), if_pos rfl]
    rw [GETBIT_bitAt, hb]
    by_cases c : mlen = 128 - (nlen + 18 + vadlen) <;> simp [c]
  have hcmp : sec_memcmp_bits (apply_cipher decrypt (junkd 1) 0 c 0 (kexpand k))
      (wr (init_tiny_msg vadlen (junkd 0) n nlen a alen c 0) ((nlen + 1) / 8)
        (CHGBIT (init_tiny_msg vadlen (junkd 0) n nlen a alen c 0 ((nlen + 1) / 8)).val
          (7 - (nlen + 1) % 8) (if mlen = 128 - (nlen + 18 + vadlen) then 1 else 0)))
      (nlen + 18 + vadlen) = 0 := by
    rw [sec_memcmp_bits_eq_zero_iff]
    intro p hp
    rw [hs1 p (by omega), if_pos hp, bitAt_wr_CHGBIT _ _ _ _ (by split <;> omega)]
    by_cases q : p = nlen + 1
    · rw [if_pos q]
      unfold manx2_hdr_bit
      rw [if_neg (by omega), if_neg (by omega), if_pos q]
      by_cases c : mlen = 128 - (nlen + 18 + vadlen) <;> simp [c]
    · rw [if_neg q, hT p (by omega), if_pos hp]
      unfold manx2_hdr_bit
      rw [if_neg q, if_neg q]
      simp
  unfold manx2_dec
  dsimp only
  rw [if_neg (by simp [BLOCKBITS, BLOCKBYTES]), if_pos (by simp [BLOCKBITS, BLOCKBYTES]), hds,
    manx2_hl_eq, if_neg (by rw [hcmp]; simp)]
  by_cases cm : mlen = 128 - (nlen + 18 + vadlen)
  · rw [if_pos cm, if_pos (by omega)]
    dsimp only
    have hs : ssub 128 (nlen + 18 + vadlen) = mlen := by
      unfold ssub SZ
      omega
    rw [hs]
    refine ⟨rfl, rfl, ?_⟩
    intro i hi
    rw [lshift_bits _ _ _ _ (by omega), if_pos hi, bitAt_offs, hs1 _ (by omega),
      if_neg (by omega), if_pos (by omega)]
    exact congrArg (bitAt m) (by omega)
  · rw [if_neg cm, if_neg (by omega)]
    dsimp only
    have hl1 : bitAt (apply_cipher decrypt (junkd 1) 0 c 0 (kexpand k))
        (nlen + 18 + vadlen + mlen) = true := by
      rw [hs1 _ (by omega), if_neg (by omega), if_neg (by omega)]
      simp
    have hl2 : ∀ p, nlen + 18 + vadlen + mlen < p → p < 128 →
        bitAt (apply_cipher decrypt (junkd 1) 0 c 0 (kexpand k)) p = false := by
      intro p h1 h2
      rw [hs1 p h2, if_neg (by omega), if_neg (by omega)]
      have : ¬ p = nlen + 18 + vadlen + mlen := by omega
      simp [this]
    rw [depad_10_len _ _ (nlen + 18 + vadlen + mlen) (by omega) (by omega) hl1 hl2]
    have hs : ssub (nlen + 18 + vadlen + mlen) (nlen + 18 + vadlen) = mlen := by
      unfold ssub SZ
      omega
    rw [hs]
    refine ⟨rfl, rfl, ?_⟩
    intro i hi
    rw [lshift_bits _ _ _ _ (by omega), if_pos hi, bitAt_offs,
      depad_10_inplace_bits _ (nlen + 18 + vadlen + mlen) (by omega) (by omega) hl1 hl2 _
        (by omega),
      hs1 _ (by omega), if_neg (by omega), if_pos (by omega)]
    exact congrArg (bitAt m) (by omega)

/-- On a two-block ciphertext whose decryption is a well-formed pair of short-message
blocks, `manx2_dec` returns 0 and gives back the message, whatever nonce array `n0` it
is called with. -/
theorem manx2_dec_short_ok (vadlen : Nat) (junkd : Nat → Buf) (p0 k n0 : Buf) (nlen : Nat)
    (c a : Buf) (alen : Nat) (decrypt : dec_func) (kexpand : kexp_func) (n m : Buf) (mlen : Nat)
    (hv : vadlen ≤ 1) (hn1 : 6 ≤ nlen) (hn : nlen + 18 + vadlen ≤ 128) (ha : alen ≤ 16)
    (hex : manx2_hdr_len vadlen nlen alen = nlen + 18 + vadlen)
    (hm1 : 128 - (nlen + 18 + vadlen) < mlen)
    (hm2 : nlen + 2 + (mlen - (128 - (nlen + 18 + vadlen))) < 128)
    (hs1 : ∀ p, p < 128 → bitAt (apply_cipher decrypt (junkd 1) 0 c 0 (kexpand k)) p
      = if p < nlen + 18 + vadlen then manx2_hdr_bit vadlen n nlen false false a alen p
        else bitAt m (p - (nlen + 18 + vadlen)))
    (hs2 : ∀ p, p < 128 → bitAt (apply_cipher decrypt (junkd 2) 0 c BLOCKBYTES (kexpand k)) p
      = if p < nlen then bitAt n p
        else if p = nlen then false
        else if p = nlen + 1 then true
        else if p < nlen + 2 + (mlen - (128 - (nlen + 18 + vadlen))) then
          bitAt m (128 - (nlen + 18 + vadlen) + (p - (nlen + 2)))
        else decide (p = nlen + 2 + (mlen - (128 - (nlen + 18 + vadlen))))) :
    (manx2_dec vadlen junkd p0 k n0 nlen c 256 a alen decrypt kexpand).ret = 0 ∧
    (manx2_dec vadlen junkd p0 k n0 nlen c 256 a alen decrypt kexpand).len = mlen ∧
    ∀ i, i < mlen →
      bitAt (manx2_dec vadlen junkd p0 k n0 nlen c 256 a alen decrypt kexpand).out i
        = bitAt m i := by
  have hr := manx2_r_eq vadlen nlen (by unfold MANX2_ALPHASTAR MANX2_ALPHAMAX; omega)
  have hr' : 128 - (nlen + MANX2_ALPHASTAR vadlen + 2) = 128 - (nlen + 18 + vadlen) := by
    unfold MANX2_ALPHASTAR MANX2_ALPHAMAX
    omega
  rw [hr'] at hr
  have hT := init_tiny_msg_bits vadlen (junkd 0)
    (apply_cipher decrypt (junkd 2) 0 c BLOCKBYTES (kexpand k)) nlen a alen c 0 hv hn ha
    (by rw [hex]; omega)
  rw [hex, hr] at hT
  have hcmp : sec_memcmp_bits (apply_cipher decrypt (junkd 1) 0 c 0 (kexpand k))
      (wr (wr (init_tiny_msg vadlen (junkd 0)
          (apply_cipher decrypt (junkd 2) 0 c BLOCKBYTES (kexpand k)) nlen a alen c 0)
          ((nlen + 1) / 8)
          (CLRBIT (init_tiny_msg vadlen (junkd 0)
            (apply_cipher decrypt (junkd 2) 0 c BLOCKBYTES (kexpand k)) nlen a alen c 0
            ((nlen + 1) / 8)).val (7 - (nlen + 1) % 8)))
        (nlen / 8)
        (CLRBIT (wr (init_tiny_msg vadlen (junkd 0)
          (apply_cipher decrypt (junkd 2) 0 c BLOCKBYTES (kexpand k)) nlen a alen c 0)
          ((nlen + 1) / 8)
          (CLRBIT (init_tiny_msg vadlen (junkd 0)
            (apply_cipher decrypt (junkd 2) 0 c BLOCKBYTES (kexpand k)) nlen a alen c 0
            ((nlen + 1) / 8)).val (7 - (nlen + 1) % 8)) (nlen / 8)).val (7 - nlen % 8)))
      (nlen + 18 + vadlen) = 0 := by
    rw [sec_memcmp_bits_eq_zero_iff]
    intro p hp
    rw [hs1 p (by omega), if_pos hp, bitAt_wr_CLRBIT, bitAt_wr_CLRBIT]
    unfold manx2_hdr_bit
    by_cases q0 : p = nlen
    · rw [if_pos q0, if_neg (by omega), if_pos q0]
    · rw [if_neg q0]
      by_cases q1 : p = nlen + 1
      · rw [if_pos q1, if_neg (by omega), if_neg (by omega), if_pos q1]
      · rw [if_neg q1, hT p (by omega), if_pos hp]
        unfold manx2_hdr_bit
        rw [if_neg q0, if_neg q1, if_neg q0, if_neg q1]
        by_cases q2 : p < nlen
        · rw [if_pos q2, if_pos q2, hs2 p (by omega), if_pos q2]
        · rw [if_neg q2, if_neg q2]
  have hg0 : GETBIT (apply_cipher decrypt (junkd 2) 0 c BLOCKBYTES (kexpand k) (nlen / 8)).val
      (7 - nlen % 8) = 0 := by
    have hb : bitAt (apply_cipher decrypt (junkd 2) 0 c BLOCKBYTES (kexpand k)) nlen
        = false := by
      rw [hs2 _ (by omega), if_neg (by omega), if_pos rfl]
    rw [GETBIT_bitAt, hb]
    simp
  have hg1 : GETBIT (apply_cipher decrypt (junkd 2) 0 c BLOCKBYTES (kexpand k)
      ((nlen + 1) / 8)).val (7 - (nlen + 1) % 8) = 1 := by
    have hb : bitAt (apply_cipher decrypt (junkd 2) 0 c BLOCKBYTES (kexpand k)) (nlen + 1)
        = true := by
      rw [hs2 _ (by omega), if_neg (by omega), if_neg (by omega), if_pos rfl]
    rw [GETBIT_bitAt, hb]
    simp
  have hl1 : bitAt (apply_cipher decrypt (junkd 2) 0 c BLOCKBYTES (kexpand k))
      (nlen + 2 + (mlen - (128 - (nlen + 18 + vadlen)))) = true := by
    rw [hs2 _ (by omega), if_neg (by omega), if_neg (by omega), if_neg (by omega),
      if_neg (by omega)]
    simp
  have hl2 : ∀ p, nlen + 2 + (mlen - (128 - (nlen + 18 + vadlen))) < p → p < 128 →
      bitAt (apply_cipher decrypt (junkd 2) 0 c BLOCKBYTES (kexpand k)) p = false := by
    intro p h1 h2
    rw [hs2 p h2, if_neg (by omega), if_neg (by omega), if_neg (by omega), if_neg (by omega)]
    have : ¬ p = nlen + 2 + (mlen - (128 - (nlen + 18 + vadlen))) := by omega
    simp [this]
  unfold manx2_dec
  dsimp only
  rw [if_neg (by simp [BLOCKBITS, BLOCKBYTES]), if_neg (by simp [BLOCKBITS, BLOCKBYTES]),
    manx2_hl_eq, if_neg (by rw [hcmp]; simp), hg0, hg1, if_neg (by simp)]
  dsimp only
  rw [depad_10_len _ _ (nlen + 2 + (mlen - (128 - (nlen + 18 + vadlen)))) (by omega) (by omega)
    hl1 hl2]
  have hs : ssub (nlen + 2 + (mlen - (128 - (nlen + 18 + vadlen)))) (nlen + 2)
      = mlen - (128 - (nlen + 18 + vadlen)) := by
    unfold ssub SZ
    omega
  have hr2 : ssub BLOCKBITS (nlen + MANX2_ALPHASTAR vadlen + 2) = 128 - (nlen + 18 + vadlen) := by
    unfold ssub SZ BLOCKBITS BLOCKBYTES MANX2_ALPHASTAR MANX2_ALPHAMAX
    omega
  rw [hs, hr2]
  refine ⟨rfl, ?_, ?_⟩
  · show sadd _ _ = mlen
    unfold sadd SZ
    omega
  · intro i hi
    have hc := concat_bits_bits
      (lshift p0 (offs (apply_cipher decrypt (junkd 1) 0 c 0 (kexpand k))
        ((nlen + 18 + vadlen) / 8)) (128 - (nlen + 18 + vadlen)) ((nlen + 18 + vadlen) % 8))
      ((128 - (nlen + 18 + vadlen)) / 8) ((128 - (nlen + 18 + vadlen)) % 8)
      (lshift (depad_10 (apply_cipher decrypt (junkd 2) 0 c BLOCKBYTES (kexpand k))
          (apply_cipher decrypt (junkd 2) 0 c BLOCKBYTES (kexpand k))).1
        (offs (depad_10 (apply_cipher decrypt (junkd 2) 0 c BLOCKBYTES (kexpand k))
          (apply_cipher decrypt (junkd 2) 0 c BLOCKBYTES (kexpand k))).1 ((nlen + 2) / 8))
        (mlen - (128 - (nlen + 18 + vadlen))) ((nlen + 2) % 8))
      (mlen - (128 - (nlen + 18 + vadlen))) (by omega)
      (by
        intro p h1 h2
        rw [lshift_bits _ _ _ _ (by omega), if_neg (by omega), if_pos (by omega)])
      i
    rw [hc]
    by_cases c1 : i < 128 - (nlen + 18 + vadlen)
    · rw [if_pos (by omega), lshift_bits _ _ _ _ (by omega), if_pos c1, bitAt_offs,
        hs1 _ (by omega), if_neg (by omega)]
      exact congrArg (bitAt m) (by omega)
    · rw [if_neg (by omega), if_pos (by omega), lshift_bits _ _ _ _ (by omega),
        if_pos (by omega), bitAt_offs,
        depad_10_inplace_bits _ (nlen + 2 + (mlen - (128 - (nlen + 18 + vadlen)))) (by omega)
          (by omega) hl1 hl2 _ (by omega),
        hs2 _ (by omega), if_neg (by omega), if_neg (by omega), if_neg (by omega),
        if_pos (by omega)]
      exact congrArg (bitAt m) (by omega)

theorem bitAt_of_bytes (x y : Buf) (k : Nat) (h : ∀ j, j < 16 → x j = y (k + j)) (p : Nat)
    (hp : p < 128) : bitAt x p = bitAt y (8 * k + p) :=
  bitAt_shift_block x y k h p hp

/-- Round trip of Manx2 when the header fills exactly `nlen + 2 + MANX2_ALPHASTAR` bits:
variable-length AD with `alen ≤ 16`, or fixed-length AD with `alen = 16`. -/
theorem manx2_roundtrip (vadlen : Nat) (junk junkd : Nat → Buf) (c0 p0 k n m a : Buf)
    (nlen mlen alen : Nat) (encrypt : enc_func) (decrypt : dec_func) (kexpand : kexp_func)
    (hinv : ∀ x rk, decrypt (encrypt x rk) rk = x)
    (hv : vadlen ≤ 1) (hn1 : 64 ≤ nlen) (hn2 : nlen + 18 + vadlen ≤ 128) (ha : alen ≤ 16)
    (hfix : vadlen = 0 → alen = 16)
    (hm : mlen < 126 - nlen + (128 - (nlen + 18 + vadlen))) :
    (manx2_enc vadlen junk c0 k n nlen m mlen a alen encrypt kexpand).ret = 0 ∧
    (manx2_enc vadlen junk c0 k n nlen m mlen a alen encrypt kexpand).len
      = (if mlen ≤ 128 - (nlen + 18 + vadlen) then 128 else 256) ∧
    (manx2_dec vadlen junkd p0 k n nlen
      (manx2_enc vadlen junk c0 k n nlen m mlen a alen encrypt kexpand).out
      (manx2_enc vadlen junk c0 k n nlen m mlen a alen encrypt kexpand).len
      a alen decrypt kexpand).ret = 0 ∧
    (manx2_dec vadlen junkd p0 k n nlen
      (manx2_enc vadlen junk c0 k n nlen m mlen a alen encrypt kexpand).out
      (manx2_enc vadlen junk c0 k n nlen m mlen a alen encrypt kexpand).len
      a alen decrypt kexpand).len = mlen ∧
    ∀ i, i < mlen →
      bitAt (manx2_dec vadlen junkd p0 k n nlen
        (manx2_enc vadlen junk c0 k n nlen m mlen a alen encrypt kexpand).out
        (manx2_enc vadlen junk c0 k n nlen m mlen a alen encrypt kexpand).len
        a alen decrypt kexpand).out i = bitAt m i := by
  have hex := manx2_hdr_len_exact vadlen nlen alen hfix
  have hr : ssub BLOCKBITS (nlen + MANX2_ALPHASTAR vadlen + 2) = 128 - (nlen + 18 + vadlen) := by
    unfold ssub SZ BLOCKBITS BLOCKBYTES MANX2_ALPHASTAR MANX2_ALPHAMAX
    omega
  have hadm : sadd (ssub (ssub BLOCKBITS nlen) 2) (128 - (nlen + 18 + vadlen))
      = 126 - nlen + (128 - (nlen + 18 + vadlen)) := by
    unfold sadd ssub SZ BLOCKBITS BLOCKBYTES
    omega
  by_cases ct : mlen ≤ 128 - (nlen + 18 + vadlen)
  · have henc : manx2_enc vadlen junk c0 k n nlen m mlen a alen encrypt kexpand
        = ⟨0, 128, apply_cipher encrypt c0 0 (init_tiny_msg vadlen (junk 0) n nlen a alen m mlen)
            0 (kexpand k)⟩ := by
      unfold manx2_enc
      dsimp only
      rw [hr, hadm, if_neg (by unfold MANX_TAU BLOCKBITS BLOCKBYTES; omega), if_neg (by omega),
        if_neg (by unfold MANX2_ALPHAMAX; omega), if_pos ct]
    rw [henc]
    dsimp only
    have hT := init_tiny_msg_bits vadlen (junk 0) n nlen a alen m mlen hv hn2 ha
      (by rw [hex]; omega)
    rw [hex, hr] at hT
    have hs1 : ∀ p, p < 128 →
        bitAt (apply_cipher decrypt (junkd 1) 0
          (apply_cipher encrypt c0 0 (init_tiny_msg vadlen (junk 0) n nlen a alen m mlen) 0
            (kexpand k)) 0 (kexpand k)) p
        = if p < nlen + 18 + vadlen then
            manx2_hdr_bit vadlen n nlen true (decide (mlen = 128 - (nlen + 18 + vadlen))) a alen p
          else if p < nlen + 18 + vadlen + mlen then bitAt m (p - (nlen + 18 + vadlen))
          else decide (p = nlen + 18 + vadlen + mlen) := by
      intro p hp
      rw [bitAt_of_bytes _ (init_tiny_msg vadlen (junk 0) n nlen a alen m mlen) 0
        (fun j hj => decrypt_encrypt_block encrypt decrypt hinv _ _ _ 0 0 _ j hj) p hp]
      have e : 8 * 0 + p = p := by omega
      rw [e, hT p hp]
      have : decide (mlen ≤ 128 - (nlen + 18 + vadlen)) = true := by simpa using ct
      rw [this]
    have hd := manx2_dec_tiny_ok vadlen junkd p0 k n nlen _ a alen decrypt kexpand m mlen hv hn2
      ha hex ct hs1
    rw [if_pos ct]
    exact ⟨rfl, rfl, hd.1, hd.2.1, hd.2.2⟩
  · have henc : manx2_enc vadlen junk c0 k n nlen m mlen a alen encrypt kexpand
        = ⟨0, 256, apply_cipher encrypt
            (apply_cipher encrypt c0 0
              (init_short_msg vadlen (junk 1) (junk 0) n nlen a alen m mlen) 0 (kexpand k))
            BLOCKBYTES (init_short_msg vadlen (junk 1) (junk 0) n nlen a alen m mlen) BLOCKBYTES
            (kexpand k)⟩ := by
      unfold manx2_enc
      dsimp only
      rw [hr, hadm, if_neg (by unfold MANX_TAU BLOCKBITS BLOCKBYTES; omega), if_neg (by omega),
        if_neg (by unfold MANX2_ALPHAMAX; omega), if_neg ct]
    rw [henc]
    dsimp only
    have hB1 := init_short_msg_block1 vadlen (junk 1) (junk 0) n nlen a alen m mlen hv hn2 ha
    have hB2 := init_short_msg_block2 vadlen (junk 1) (junk 0) n nlen a alen m mlen hv hn2 ha hex
      (by omega) (by omega)
    rw [hex] at hB1
    have hs1 : ∀ p, p < 128 →
        bitAt (apply_cipher decrypt (junkd 1) 0
          (apply_cipher encrypt
            (apply_cipher encrypt c0 0
              (init_short_msg vadlen (junk 1) (junk 0) n nlen a alen m mlen) 0 (kexpand k))
            BLOCKBYTES (init_short_msg vadlen (junk 1) (junk 0) n nlen a alen m mlen) BLOCKBYTES
            (kexpand k)) 0 (kexpand k)) p
        = if p < nlen + 18 + vadlen then manx2_hdr_bit vadlen n nlen false false a alen p
          else bitAt m (p - (nlen + 18 + vadlen)) := by
      intro p hp
      have hb : ∀ j, j < 16 →
          apply_cipher decrypt (junkd 1) 0
            (apply_cipher encrypt
              (apply_cipher encrypt c0 0
                (init_short_msg vadlen (junk 1) (junk 0) n nlen a alen m mlen) 0 (kexpand k))
              BLOCKBYTES (init_short_msg vadlen (junk 1) (junk 0) n nlen a alen m mlen)
              BLOCKBYTES (kexpand k)) 0 (kexpand k) j
          = init_short_msg vadlen (junk 1) (junk 0) n nlen a alen m mlen (0 + j) := by
        intro j hj
        have hrd : rdBlock (apply_cipher encrypt
              (apply_cipher encrypt c0 0
                (init_short_msg vadlen (junk 1) (junk 0) n nlen a alen m mlen) 0 (kexpand k))
              BLOCKBYTES (init_short_msg vadlen (junk 1) (junk 0) n nlen a alen m mlen)
              BLOCKBYTES (kexpand k)) 0
            = encrypt (rdBlock (init_short_msg vadlen (junk 1) (junk 0) n nlen a alen m mlen) 0)
                (kexpand k) := by
          rw [← rdBlock_wrBlock c0 0 (encrypt
            (rdBlock (init_short_msg vadlen (junk 1) (junk 0) n nlen a alen m mlen) 0)
            (kexpand k))]
          apply rdBlock_congr
          intro t ht
          unfold apply_cipher
          rw [wrBlock_other _ BLOCKBYTES _ _ (by unfold BLOCKBYTES; omega)]
        unfold apply_cipher at hrd ⊢
        rw [wrBlock_in _ _ _ _ (by omega), hrd, hinv]
        unfold rdBlock
        simp
      rw [bitAt_of_bytes _ _ 0 hb p hp]
      have e : 8 * 0 + p = p := by omega
      rw [e, hB1 p hp]
      by_cases q : p < nlen + 18 + vadlen
      · rw [if_pos q, if_pos q]
      · rw [if_neg q, if_neg q, if_pos (by omega)]
    have hs2 : ∀ p, p < 128 →
        bitAt (apply_cipher decrypt (junkd 2) 0
          (apply_cipher encrypt
            (apply_cipher encrypt c0 0
              (init_short_msg vadlen (junk 1) (junk 0) n nlen a alen m mlen) 0 (kexpand k))
            BLOCKBYTES (init_short_msg vadlen (junk 1) (junk 0) n nlen a alen m mlen) BLOCKBYTES
            (kexpand k)) BLOCKBYTES (kexpand k)) p
        = if p < nlen then bitAt n p
          else if p = nlen then false
          else if p = nlen + 1 then true
          else if p < nlen + 2 + (mlen - (128 - (nlen + 18 + vadlen))) then
            bitAt m (128 - (nlen + 18 + vadlen) + (p - (nlen + 2)))
          else decide (p = nlen + 2 + (mlen - (128 - (nlen + 18 + vadlen)))) := by
      intro p hp
      rw [bitAt_of_bytes _ (init_short_msg vadlen (junk 1) (junk 0) n nlen a alen m mlen) 16
        (fun j hj => decrypt_encrypt_block encrypt decrypt hinv _ _ _ BLOCKBYTES BLOCKBYTES _ j
          hj) p hp]
      exact hB2 p hp
    have hd := manx2_dec_short_ok vadlen junkd p0 k n nlen _ a alen decrypt kexpand n m mlen hv
      (by omega) hn2 ha hex (by omega) (by omega) hs1 hs2
    rw [if_neg ct]
    exact ⟨rfl, rfl, hd.1, hd.2.1, hd.2.2⟩

/-- For nonce lengths `64 ≤ nlen ≤ 128 - (MANX2_ALPHASTAR + 2)` and `alen ≤ 16`,
`manx2_enc` accepts exactly the message lengths `mlen < 126 - nlen + r`. -/
theorem manx2_enc_accepts_iff (vadlen : Nat) (junk : Nat → Buf) (c0 k n : Buf) (nlen : Nat)
    (m : Buf) (mlen : Nat) (a : Buf) (alen : Nat) (encrypt : enc_func) (kexpand : kexp_func)
    (hn1 : 64 ≤ nlen) (hn2 : nlen + 18 + vadlen ≤ 128) (ha : alen ≤ 16) :
    (manx2_enc vadlen junk c0 k n nlen m mlen a alen encrypt kexpand).ret = 0
      ↔ mlen < 126 - nlen + (128 - (nlen + 18 + vadlen)) := by
  have hr : ssub BLOCKBITS (nlen + MANX2_ALPHASTAR vadlen + 2) = 128 - (nlen + 18 + vadlen) := by
    unfold ssub SZ BLOCKBITS BLOCKBYTES MANX2_ALPHASTAR MANX2_ALPHAMAX
    omega
  have hadm : sadd (ssub (ssub BLOCKBITS nlen) 2) (128 - (nlen + 18 + vadlen))
      = 126 - nlen + (128 - (nlen + 18 + vadlen)) := by
    unfold sadd ssub SZ BLOCKBITS BLOCKBYTES
    omega
  unfold manx2_enc
  dsimp only
  rw [hr, hadm, if_neg (by unfold MANX_TAU BLOCKBITS BLOCKBYTES; omega)]
  by_cases c : mlen ≥ 126 - nlen + (128 - (nlen + 18 + vadlen))
  · rw [if_pos c]
    constructor
    · intro h
      simp at h
    · intro h
      omega
  · rw [if_neg c, if_neg (by unfold MANX2_ALPHAMAX; omega)]
    constructor
    · intro _
      omega
    · intro _
      split <;> rfl

/-- Under fixed-length AD (`MANX2_VARIABLE_ADLEN = 0`) an AD shorter than 16 bits is not
padded: on a two-block ciphertext of a message whose first bit is 0, the message bit
sits where `manx2_dec` expects the padding bit of its empty message, and `manx2_dec`
returns 3. -/
theorem manx2_short_ad_rejected (junk junkd : Nat → Buf) (c0 p0 k n n0 m a : Buf)
    (nlen mlen alen : Nat) (encrypt : enc_func) (decrypt : dec_func) (kexpand : kexp_func)
    (hinv : ∀ x rk, decrypt (encrypt x rk) rk = x)
    (hn1 : 64 ≤ nlen) (hn2 : nlen + 18 ≤ 128) (ha : alen < 16)
    (hm1 : 128 - (nlen + 18) < mlen) (hm2 : mlen < 126 - nlen + (128 - (nlen + 18)))
    (hbit : bitAt m 0 = false) :
    (manx2_enc 0 junk c0 k n nlen m mlen a alen encrypt kexpand).ret = 0 ∧
    (manx2_enc 0 junk c0 k n nlen m mlen a alen encrypt kexpand).len = 256 ∧
    (manx2_dec 0 junkd p0 k n0 nlen
      (manx2_enc 0 junk c0 k n nlen m mlen a alen encrypt kexpand).out
      (manx2_enc 0 junk c0 k n nlen m mlen a alen encrypt kexpand).len
      a alen decrypt kexpand).ret = 3 ∧
    (manx2_dec 0 junkd p0 k n0 nlen
      (manx2_enc 0 junk c0 k n nlen m mlen a alen encrypt kexpand).out
      (manx2_enc 0 junk c0 k n nlen m mlen a alen encrypt kexpand).len
      a alen decrypt kexpand).len = 0 := by
  have hlen : manx2_hdr_len 0 nlen alen = nlen + 2 + alen := by
    unfold manx2_hdr_len
    simp
  have hr : ssub BLOCKBITS (nlen + MANX2_ALPHASTAR 0 + 2) = 128 - (nlen + 18) := by
    unfold ssub SZ BLOCKBITS BLOCKBYTES MANX2_ALPHASTAR MANX2_ALPHAMAX
    omega
  have hadm : sadd (ssub (ssub BLOCKBITS nlen) 2) (128 - (nlen + 18))
      = 126 - nlen + (128 - (nlen + 18)) := by
    unfold sadd ssub SZ BLOCKBITS BLOCKBYTES
    omega
  have henc : manx2_enc 0 junk c0 k n nlen m mlen a alen encrypt kexpand
      = ⟨0, 256, apply_cipher encrypt
          (apply_cipher encrypt c0 0
            (init_short_msg 0 (junk 1) (junk 0) n nlen a alen m mlen) 0 (kexpand k))
          BLOCKBYTES (init_short_msg 0 (junk 1) (junk 0) n nlen a alen m mlen) BLOCKBYTES
          (kexpand k)⟩ := by
    unfold manx2_enc
    dsimp only
    rw [hr, hadm, if_neg (by unfold MANX_TAU BLOCKBITS BLOCKBYTES; omega), if_neg (by omega),
      if_neg (by unfold MANX2_ALPHAMAX; omega), if_neg (by omega)]
  rw [henc]
  dsimp only
  have hB1 := init_short_msg_block1 0 (junk 1) (junk 0) n nlen a alen m mlen (by omega)
    (by omega) (by omega) (nlen + 2 + alen) (by omega)
  rw [hlen, if_neg (by omega), if_pos (by omega)] at hB1
  have e0 : nlen + 2 + alen - (nlen + 2 + alen) = 0 := by omega
  rw [e0, hbit] at hB1
  have hb : ∀ j, j < 16 →
      apply_cipher decrypt (junkd 1) 0
        (apply_cipher encrypt
          (apply_cipher encrypt c0 0
            (init_short_msg 0 (junk 1) (junk 0) n nlen a alen m mlen) 0 (kexpand k))
          BLOCKBYTES (init_short_msg 0 (junk 1) (junk 0) n nlen a alen m mlen)
          BLOCKBYTES (kexpand k)) 0 (kexpand k) j
      = init_short_msg 0 (junk 1) (junk 0) n nlen a alen m mlen (0 + j) := by
    intro j hj
    have hrd : rdBlock (apply_cipher encrypt
          (apply_cipher encrypt c0 0
            (init_short_msg 0 (junk 1) (junk 0) n nlen a alen m mlen) 0 (kexpand k))
          BLOCKBYTES (init_short_msg 0 (junk 1) (junk 0) n nlen a alen m mlen)
          BLOCKBYTES (kexpand k)) 0
        = encrypt (rdBlock (init_short_msg 0 (junk 1) (junk 0) n nlen a alen m mlen) 0)
            (kexpand k) := by
      rw [← rdBlock_wrBlock c0 0 (encrypt
        (rdBlock (init_short_msg 0 (junk 1) (junk 0) n nlen a alen m mlen) 0)
        (kexpand k))]
      apply rdBlock_congr
      intro t ht
      unfold apply_cipher
      rw [wrBlock_other _ BLOCKBYTES _ _ (by unfold BLOCKBYTES; omega)]
    unfold apply_cipher at hrd ⊢
    rw [wrBlock_in _ _ _ _ (by omega), hrd, hinv]
    unfold rdBlock
    simp
  have hs1 := bitAt_of_bytes _ _ 0 hb (nlen + 2 + alen) (by omega)
  have e1 : 8 * 0 + (nlen + 2 + alen) = nlen + 2 + alen := by omega
  rw [e1, hB1] at hs1
  unfold manx2_dec
  dsimp only
  rw [if_neg (by simp [BLOCKBITS, BLOCKBYTES]), if_neg (by simp [BLOCKBITS, BLOCKBYTES]),
    if_pos]
  · exact ⟨rfl, rfl, rfl, rfl⟩
  · intro h
    rw [sec_memcmp_bits_eq_zero_iff] at h
    have h1 := h (nlen + 2 + alen) (by unfold MANX2_ALPHASTAR MANX2_ALPHAMAX; omega)
    rw [hs1, bitAt_wr_CLRBIT, bitAt_wr_CLRBIT, if_neg (by omega), if_neg (by omega),
      init_tiny_msg_bits 0 _ _ nlen a alen _ 0 (by omega) (by omega) (by omega)
        (by rw [hlen]; omega) _ (by omega),
      hlen, if_neg (by omega), if_neg (by omega)] at h1
    simp at h1

/-! ## Lemmas: binding of the AD and of the nonce -/

theorem bitAt_zero_buf (p : Nat) : bitAt zero_buf p = false := by
  unfold bitAt zero_buf
  exact Nat.zero_testBit _

/-- The encoding `vencode(N, A)` of Manx1 in terms of the padded AD: the nonce, then
`A || 1 || 0*`. -/
theorem manx1_vencode_pad (junk n a : Buf) (nlen alen : Nat) (hn : nlen ≤ 128)
    (ha : alen ≤ 64) :
    ∃ v : Buf, manx1_vencode 1 junk (192 - nlen) n nlen a alen = (v, 24, 0) ∧
    ∀ p, p < 256 → bitAt v p
      = if p < nlen then bitAt n p else pad10_bit a alen (p - nlen) := by
  obtain ⟨v, ev, hv⟩ := manx1_vencode_spec junk n a nlen alen hn ha
  refine ⟨v, ev, ?_⟩
  intro p hp
  rw [hv p hp]
  unfold pad10_bit
  by_cases h1 : p < nlen
  · rw [if_pos h1, if_pos h1]
  · rw [if_neg h1, if_neg h1]
    by_cases h2 : p < nlen + alen
    · rw [if_pos h2, if_pos (by omega)]
    · rw [if_neg h2, if_neg (by omega)]
      have e : (p = nlen + alen) = (p - nlen = alen) := by
        apply propext
        constructor <;> intro h <;> omega
      simp only [e]

/-- Decryption by `manx1_dec` with AD `(a2, alen2)` of a ciphertext that `manx1_enc` made
with AD `(a, alen)`, when the two padded ADs agree on the part that lies in the first
block (the first `128 - nlen` bits): if they differ in the 64 bits that follow, the
result is code 3 with length 0 and `p` untouched; if they agree there too, the result is
code 0 with the message. -/
theorem manx1_dec_other_ad (junk : Buf) (junkd : Nat → Buf) (c0 p0 k n m a a2 : Buf)
    (nlen mlen alen alen2 : Nat) (enc : enc_func) (dec : dec_func) (kexpand : Option kexp_func)
    (hinv : ∀ x rk, dec (enc x rk) rk = x)
    (hn : nlen ≤ 128) (ha : alen ≤ 64) (ha2 : alen2 ≤ 64) (hm : mlen < 64)
    (h1 : ∀ q, q < 128 - nlen → pad10_bit a alen q = pad10_bit a2 alen2 q) :
    ((∃ q, 128 - nlen ≤ q ∧ q < 192 - nlen ∧ pad10_bit a alen q ≠ pad10_bit a2 alen2 q) →
      (manx1_dec 1 junkd p0 k n nlen
        (manx1_enc 1 junk c0 k n nlen m mlen a alen enc kexpand).out
        (manx1_enc 1 junk c0 k n nlen m mlen a alen enc kexpand).len
        a2 alen2 enc dec kexpand).ret = 3 ∧
      (manx1_dec 1 junkd p0 k n nlen
        (manx1_enc 1 junk c0 k n nlen m mlen a alen enc kexpand).out
        (manx1_enc 1 junk c0 k n nlen m mlen a alen enc kexpand).len
        a2 alen2 enc dec kexpand).len = 0 ∧
      (manx1_dec 1 junkd p0 k n nlen
        (manx1_enc 1 junk c0 k n nlen m mlen a alen enc kexpand).out
        (manx1_enc 1 junk c0 k n nlen m mlen a alen enc kexpand).len
        a2 alen2 enc dec kexpand).out = p0) ∧
    ((∀ q, 128 - nlen ≤ q → q < 192 - nlen → pad10_bit a alen q = pad10_bit a2 alen2 q) →
      (manx1_dec 1 junkd p0 k n nlen
        (manx1_enc 1 junk c0 k n nlen m mlen a alen enc kexpand).out
        (manx1_enc 1 junk c0 k n nlen m mlen a alen enc kexpand).len
        a2 alen2 enc dec kexpand).ret = 0 ∧
      (manx1_dec 1 junkd p0 k n nlen
        (manx1_enc 1 junk c0 k n nlen m mlen a alen enc kexpand).out
        (manx1_enc 1 junk c0 k n nlen m mlen a alen enc kexpand).len
        a2 alen2 enc dec kexpand).len = mlen ∧
      ∀ i, i < mlen →
        bitAt (manx1_dec 1 junkd p0 k n nlen
          (manx1_enc 1 junk c0 k n nlen m mlen a alen enc kexpand).out
          (manx1_enc 1 junk c0 k n nlen m mlen a alen enc kexpand).len
          a2 alen2 enc dec kexpand).out i = bitAt m i) := by
  obtain ⟨v, ev, hv⟩ := manx1_vencode_pad junk n a nlen alen hn ha
  obtain ⟨vd, evd, hvd⟩ := manx1_vencode_pad (junkd 0) n a2 nlen alen2 hn ha2
  obtain ⟨w, ew, w1, w2, w3, w4⟩ := manx1_enc_blocks v m mlen hm (fun p h1 h2 => by
    rw [hv p h2, if_neg (by omega)]
    unfold pad10_bit
    rw [if_neg (by omega)]
    have : ¬ p - nlen = alen := by omega
    simp [this])
  have hwvd : ∀ j, j < 16 → w j = vd j := by
    intro j hj
    apply byte_eq_of_bitAt
    intro q hq
    rw [w1 _ (by omega), hv _ (by omega), hvd _ (by omega)]
    by_cases c : 8 * j + q < nlen
    · rw [if_pos c, if_pos c]
    · rw [if_neg c, if_neg c]
      exact h1 _ (by omega)
  -- the encryption
  have henc : manx1_enc 1 junk c0 k n nlen m mlen a alen enc kexpand
      = ⟨0, BLOCKBITS,
        xor_block (apply_cipher enc c0 0
          (xor_block (doubling (apply_cipher enc w 0 w 0 (manx1_roundkeys kexpand k))) BLOCKBYTES
            (offs (doubling (apply_cipher enc w 0 w 0 (manx1_roundkeys kexpand k))) BLOCKBYTES)
            (doubling (apply_cipher enc w 0 w 0 (manx1_roundkeys kexpand k))))
          BLOCKBYTES (manx1_roundkeys kexpand k)) 0
        (apply_cipher enc c0 0
          (xor_block (doubling (apply_cipher enc w 0 w 0 (manx1_roundkeys kexpand k))) BLOCKBYTES
            (offs (doubling (apply_cipher enc w 0 w 0 (manx1_roundkeys kexpand k))) BLOCKBYTES)
            (doubling (apply_cipher enc w 0 w 0 (manx1_roundkeys kexpand k))))
          BLOCKBYTES (manx1_roundkeys kexpand k))
        (xor_block (doubling (apply_cipher enc w 0 w 0 (manx1_roundkeys kexpand k))) BLOCKBYTES
            (offs (doubling (apply_cipher enc w 0 w 0 (manx1_roundkeys kexpand k))) BLOCKBYTES)
            (doubling (apply_cipher enc w 0 w 0 (manx1_roundkeys kexpand k))))⟩ := by
    unfold manx1_enc
    dsimp only
    rw [manx1_s_eq nlen hn, manx1_v2len_eq nlen hn, ev]
    dsimp only
    rw [ew, if_neg (by unfold BLOCKBITS MANX_TAU BLOCKBITS BLOCKBYTES; omega),
      if_neg (by unfold MANX1_ALPHAMAX; omega),
      if_neg (by unfold ssub SZ BLOCKBITS BLOCKBYTES; omega)]
  rw [henc]
  dsimp only
  have hcore := manx1_core w vd c0 (zeroed BLOCKBYTES (junkd 1)) (manx1_roundkeys kexpand k)
    enc dec hinv hwvd
  dsimp only at hcore
  have hvt3 := bitAt_shift_block _ w 16 hcore
  unfold manx1_dec
  dsimp only
  rw [manx1_s_eq nlen hn, manx1_v2len_eq nlen hn, evd]
  dsimp only
  rw [if_neg (by simp), if_neg (by unfold MANX1_ALPHAMAX; omega)]
  -- the two sides of the comparison, bit by bit
  have hleft : ∀ p, p < 64 →
      bitAt (offs (doubling (apply_cipher enc vd 0 vd 0 (manx1_roundkeys kexpand k))) BLOCKBYTES) p
        = pad10_bit a2 alen2 (128 + p - nlen) := by
    intro p hp
    rw [bitAt_offs]
    have e0 : bitAt (doubling (apply_cipher enc vd 0 vd 0 (manx1_roundkeys kexpand k)))
        (8 * BLOCKBYTES + p) = bitAt vd (128 + p) := by
      apply bitAt_congr_byte
      · rw [doubling_frame _ _ (by unfold BLOCKBYTES; omega)]
        unfold apply_cipher
        rw [wrBlock_other _ _ _ _ (by unfold BLOCKBYTES; omega)]
        have e1 : (8 * BLOCKBYTES + p) / 8 = (128 + p) / 8 := by unfold BLOCKBYTES; omega
        rw [e1]
      · unfold BLOCKBYTES
        omega
    rw [e0, hvd _ (by omega), if_neg (by omega)]
  have hright : ∀ x : Buf, (∀ p, p < 128 → bitAt x p = bitAt w (8 * 16 + p)) →
      ∀ p, p < 64 → bitAt x p = pad10_bit a alen (128 + p - nlen) := by
    intro x hx p hp
    rw [hx p (by omega), w1 _ (by omega), hv _ (by omega), if_neg (by omega)]
  constructor
  · rintro ⟨q, q1, q2, q3⟩
    rw [if_pos]
    · exact ⟨rfl, rfl, rfl⟩
    · intro h
      rw [sec_memcmp_bits_eq_zero_iff] at h
      have h' := h (q + nlen - 128) (by omega)
      rw [hleft _ (by omega), hright _ hvt3 _ (by omega)] at h'
      have e : 128 + (q + nlen - 128) - nlen = q := by omega
      rw [e] at h'
      exact q3 h'.symm
  · intro hq
    have hcmp : ∀ x : Buf, (∀ p, p < 128 → bitAt x p = bitAt w (8 * 16 + p)) →
        sec_memcmp_bits
          (offs (doubling (apply_cipher enc vd 0 vd 0 (manx1_roundkeys kexpand k))) BLOCKBYTES)
          x 64 = 0 := by
      intro x hx
      rw [sec_memcmp_bits_eq_zero_iff]
      intro p hp
      rw [hleft p hp, hright x hx p hp]
      exact (hq _ (by omega) (by omega)).symm
    rw [if_neg (by rw [hcmp _ hvt3]; simp)]
    dsimp only
    have hl1 : ∀ x : Buf, (∀ p, p < 128 → bitAt x p = bitAt w (8 * 16 + p)) →
        bitAt x (64 + mlen) = true := by
      intro x hx
      rw [hx (64 + mlen) (by omega)]
      have e : 8 * 16 + (64 + mlen) = 192 + mlen := by omega
      rw [e]
      exact w3
    have hl2 : ∀ x : Buf, (∀ p, p < 128 → bitAt x p = bitAt w (8 * 16 + p)) →
        ∀ p, 64 + mlen < p → p < 128 → bitAt x p = false := by
      intro x hx p h1 h2
      rw [hx p h2]
      exact w4 _ (by omega) (by omega)
    rw [depad_10_len _ _ (64 + mlen) (by omega) (by omega) (hl1 _ hvt3) (hl2 _ hvt3)]
    have hs : ssub (64 + mlen) 64 = mlen := by
      unfold ssub SZ
      omega
    rw [hs]
    refine ⟨rfl, rfl, ?_⟩
    intro i hi
    rw [lshift_bits _ _ _ _ (by omega), if_pos hi, bitAt_offs,
      depad_10_inplace_bits _ (64 + mlen) (by omega) (by omega) (hl1 _ hvt3) (hl2 _ hvt3) _
        (by omega),
      hvt3 _ (by omega), w2 _ (by omega) (by omega)]
    exact congrArg (bitAt m) (by omega)

/-- With the XOR cipher the masks cancel: five XORs of octets around `x`. -/
theorem xor_chain_byte (x s r d : Byte) :
    u8 ((u8 ((u8 ((d.val ^^^ (u8 ((u8 ((u8 (x.val ^^^ s.val)).val ^^^ r.val)).val
      ^^^ s.val)).val))).val ^^^ r.val)).val ^^^ d.val) = x := by
  apply byte_ext
  intro j hj
  simp only [testBit_u8 _ _ hj, Nat.testBit_xor]
  cases x.val.testBit j <;> cases s.val.testBit j <;> cases r.val.testBit j <;>
    cases d.val.testBit j <;> rfl

/-- Core of Manx1 with the XOR cipher: what `manx1_dec` recomputes is the second block of
the encryption, whatever first block `manx1_dec` starts from. -/
theorem manx1_core_xor (w v c0 vt0 rk : Buf) (t : Nat) (ht : t < 16) :
    let sv := doubling (apply_cipher xor_cipher w 0 w 0 rk)
    let v3 := xor_block sv BLOCKBYTES (offs sv BLOCKBYTES) sv
    let c2 := xor_block (apply_cipher xor_cipher c0 0 v3 BLOCKBYTES rk) 0
      (apply_cipher xor_cipher c0 0 v3 BLOCKBYTES rk) v3
    let sd := doubling (apply_cipher xor_cipher v 0 v 0 rk)
    let vt1 := xor_block vt0 0 sd c2
    let vt2 := apply_cipher xor_cipher vt1 0 vt1 0 rk
    xor_block vt2 0 vt2 sd t = w (16 + t) := by
  intro sv v3 c2 sd vt1 vt2
  have hsv16 : ∀ j, 16 ≤ j → sv j = w j := by
    intro j hj
    show doubling _ j = _
    rw [doubling_frame _ _ hj]
    unfold apply_cipher
    rw [wrBlock_other _ _ _ _ (by omega)]
  have hv3lo : ∀ j, j < 16 → v3 j = sv j := by
    intro j hj
    show xor_block _ _ _ _ j = _
    rw [xor_block_get, if_neg (by unfold BLOCKBYTES; omega)]
  have hv3hi : ∀ j, j < 16 → v3 (16 + j) = u8 ((w (16 + j)).val ^^^ (sv j).val) := by
    intro j hj
    show xor_block _ _ _ _ (16 + j) = _
    rw [xor_block_get, if_pos (by unfold BLOCKBYTES; omega)]
    have e : 16 + j - BLOCKBYTES = j := by unfold BLOCKBYTES; omega
    rw [e]
    unfold offs
    rw [hsv16 (BLOCKBYTES + j) (by unfold BLOCKBYTES; omega)]
    rfl
  have hc2 : ∀ j, j < 16 → c2 j
      = u8 ((u8 ((u8 ((w (16 + j)).val ^^^ (sv j).val)).val ^^^ (rk j).val)).val
          ^^^ (sv j).val) := by
    intro j hj
    show xor_block _ _ _ _ j = _
    rw [xor_block_get, if_pos (by omega)]
    unfold apply_cipher
    rw [wrBlock_in _ _ _ _ (by omega), hv3lo (j - 0) (by omega)]
    unfold xor_cipher rdBlock
    dsimp only
    have e : j - 0 = j := by omega
    rw [e, ← hv3hi j hj]
    rfl
  have hvt1 : ∀ j, j < 16 → vt1 j = u8 ((sd j).val ^^^ (c2 j).val) := by
    intro j hj
    show xor_block _ _ _ _ j = _
    rw [xor_block_get, if_pos (by omega)]
    rfl
  have hvt2 : ∀ j, j < 16 → vt2 j = u8 ((vt1 j).val ^^^ (rk j).val) := by
    intro j hj
    show apply_cipher _ _ _ _ _ _ j = _
    unfold apply_cipher
    rw [wrBlock_in _ _ _ _ (by omega)]
    unfold xor_cipher rdBlock
    dsimp only
    have e : 0 + (j - 0) = j := by omega
    rw [e]
    have e2 : j - 0 = j := by omega
    rw [e2]
  show xor_block _ _ _ _ t = _
  rw [xor_block_get, if_pos (by omega)]
  have e : t - 0 = t := by omega
  rw [e, hvt2 t ht, hvt1 t ht, hc2 t ht]
  exact xor_chain_byte _ _ _ _

/-- With the XOR cipher, `manx1_dec` accepts a ciphertext of `manx1_enc` under any AD
whose padded form agrees with that of the encryption on the 64 bits compared in the
second block, whatever the two ADs are in the first block. -/
theorem manx1_xor_cipher_accepts (junk : Buf) (junkd : Nat → Buf) (c0 p0 k n m a a2 : Buf)
    (nlen mlen alen alen2 : Nat) (kexpand : Option kexp_func)
    (hn : nlen ≤ 128) (ha : alen ≤ 64) (ha2 : alen2 ≤ 64) (hm : mlen < 64)
    (hq : ∀ q, 128 - nlen ≤ q → q < 192 - nlen → pad10_bit a alen q = pad10_bit a2 alen2 q) :
    (manx1_dec 1 junkd p0 k n nlen
      (manx1_enc 1 junk c0 k n nlen m mlen a alen xor_cipher kexpand).out
      (manx1_enc 1 junk c0 k n nlen m mlen a alen xor_cipher kexpand).len
      a2 alen2 xor_cipher xor_cipher kexpand).ret = 0 ∧
    (manx1_dec 1 junkd p0 k n nlen
      (manx1_enc 1 junk c0 k n nlen m mlen a alen xor_cipher kexpand).out
      (manx1_enc 1 junk c0 k n nlen m mlen a alen xor_cipher kexpand).len
      a2 alen2 xor_cipher xor_cipher kexpand).len = mlen ∧
    ∀ i, i < mlen →
      bitAt (manx1_dec 1 junkd p0 k n nlen
        (manx1_enc 1 junk c0 k n nlen m mlen a alen xor_cipher kexpand).out
        (manx1_enc 1 junk c0 k n nlen m mlen a alen xor_cipher kexpand).len
        a2 alen2 xor_cipher xor_cipher kexpand).out i = bitAt m i := by
  obtain ⟨v, ev, hv⟩ := manx1_vencode_pad junk n a nlen alen hn ha
  obtain ⟨vd, evd, hvd⟩ := manx1_vencode_pad (junkd 0) n a2 nlen alen2 hn ha2
  obtain ⟨w, ew, w1, w2, w3, w4⟩ := manx1_enc_blocks v m mlen hm (fun p h1 h2 => by
    rw [hv p h2, if_neg (by omega)]
    unfold pad10_bit
    rw [if_neg (by omega)]
    have : ¬ p - nlen = alen := by omega
    simp [this])
  have henc : manx1_enc 1 junk c0 k n nlen m mlen a alen xor_cipher kexpand
      = ⟨0, BLOCKBITS,
        xor_block (apply_cipher xor_cipher c0 0
          (xor_block (doubling (apply_cipher xor_cipher w 0 w 0 (manx1_roundkeys kexpand k)))
            BLOCKBYTES
            (offs (doubling (apply_cipher xor_cipher w 0 w 0 (manx1_roundkeys kexpand k)))
              BLOCKBYTES)
            (doubling (apply_cipher xor_cipher w 0 w 0 (manx1_roundkeys kexpand k))))
          BLOCKBYTES (manx1_roundkeys kexpand k)) 0
        (apply_cipher xor_cipher c0 0
          (xor_block (doubling (apply_cipher xor_cipher w 0 w 0 (manx1_roundkeys kexpand k)))
            BLOCKBYTES
            (offs (doubling (apply_cipher xor_cipher w 0 w 0 (manx1_roundkeys kexpand k)))
              BLOCKBYTES)
            (doubling (apply_cipher xor_cipher w 0 w 0 (manx1_roundkeys kexpand k))))
          BLOCKBYTES (manx1_roundkeys kexpand k))
        (xor_block (doubling (apply_cipher xor_cipher w 0 w 0 (manx1_roundkeys kexpand k)))
            BLOCKBYTES
            (offs (doubling (apply_cipher xor_cipher w 0 w 0 (manx1_roundkeys kexpand k)))
              BLOCKBYTES)
            (doubling (apply_cipher xor_cipher w 0 w 0 (manx1_roundkeys kexpand k))))⟩ := by
    unfold manx1_enc
    dsimp only
    rw [manx1_s_eq nlen hn, manx1_v2len_eq nlen hn, ev]
    dsimp only
    rw [ew, if_neg (by unfold BLOCKBITS MANX_TAU BLOCKBITS BLOCKBYTES; omega),
      if_neg (by unfold MANX1_ALPHAMAX; omega),
      if_neg (by unfold ssub SZ BLOCKBITS BLOCKBYTES; omega)]
  rw [henc]
  dsimp only
  have hcore := manx1_core_xor w vd c0 (zeroed BLOCKBYTES (junkd 1)) (manx1_roundkeys kexpand k)
  dsimp only at hcore
  have hvt3 := bitAt_shift_block _ w 16 hcore
  unfold manx1_dec
  dsimp only
  rw [manx1_s_eq nlen hn, manx1_v2len_eq nlen hn, evd]
  dsimp only
  rw [if_neg (by simp), if_neg (by unfold MANX1_ALPHAMAX; omega)]
  have hleft : ∀ p, p < 64 →
      bitAt (offs (doubling (apply_cipher xor_cipher vd 0 vd 0 (manx1_roundkeys kexpand k)))
        BLOCKBYTES) p = pad10_bit a2 alen2 (128 + p - nlen) := by
    intro p hp
    rw [bitAt_offs]
    have e0 : bitAt (doubling (apply_cipher xor_cipher vd 0 vd 0 (manx1_roundkeys kexpand k)))
        (8 * BLOCKBYTES + p) = bitAt vd (128 + p) := by
      apply bitAt_congr_byte
      · rw [doubling_frame _ _ (by unfold BLOCKBYTES; omega)]
        unfold apply_cipher
        rw [wrBlock_other _ _ _ _ (by unfold BLOCKBYTES; omega)]
        have e1 : (8 * BLOCKBYTES + p) / 8 = (128 + p) / 8 := by unfold BLOCKBYTES; omega
        rw [e1]
      · unfold BLOCKBYTES
        omega
    rw [e0, hvd _ (by omega), if_neg (by omega)]
  have hright : ∀ x : Buf, (∀ p, p < 128 → bitAt x p = bitAt w (8 * 16 + p)) →
      ∀ p, p < 64 → bitAt x p = pad10_bit a alen (128 + p - nlen) := by
    intro x hx p hp
    rw [hx p (by omega), w1 _ (by omega), hv _ (by omega), if_neg (by omega)]
  have hcmp : ∀ x : Buf, (∀ p, p < 128 → bitAt x p = bitAt w (8 * 16 + p)) →
      sec_memcmp_bits
        (offs (doubling (apply_cipher xor_cipher vd 0 vd 0 (manx1_roundkeys kexpand k)))
          BLOCKBYTES) x 64 = 0 := by
    intro x hx
    rw [sec_memcmp_bits_eq_zero_iff]
    intro p hp
    rw [hleft p hp, hright x hx p hp]
    exact (hq _ (by omega) (by omega)).symm
  rw [if_neg (by rw [hcmp _ hvt3]; simp)]
  dsimp only
  have hl1 : ∀ x : Buf, (∀ p, p < 128 → bitAt x p = bitAt w (8 * 16 + p)) →
      bitAt x (64 + mlen) = true := by
    intro x hx
    rw [hx (64 + mlen) (by omega)]
    have e : 8 * 16 + (64 + mlen) = 192 + mlen := by omega
    rw [e]
    exact w3
  have hl2 : ∀ x : Buf, (∀ p, p < 128 → bitAt x p = bitAt w (8 * 16 + p)) →
      ∀ p, 64 + mlen < p → p < 128 → bitAt x p = false := by
    intro x hx p h1 h2
    rw [hx p h2]
    exact w4 _ (by omega) (by omega)
  rw [depad_10_len _ _ (64 + mlen) (by omega) (by omega) (hl1 _ hvt3) (hl2 _ hvt3)]
  have hs : ssub (64 + mlen) 64 = mlen := by
    unfold ssub SZ
    omega
  rw [hs]
  refine ⟨rfl, rfl, ?_⟩
  intro i hi
  rw [lshift_bits _ _ _ _ (by omega), if_pos hi, bitAt_offs,
    depad_10_inplace_bits _ (64 + mlen) (by omega) (by omega) (hl1 _ hvt3) (hl2 _ hvt3) _
      (by omega),
    hvt3 _ (by omega), w2 _ (by omega) (by omega)]
  exact congrArg (bitAt m) (by omega)

/-- Decrypting the one-block ciphertext of a block `t` gives the bits of `t`. -/
theorem manx2_s1_tiny (encrypt : enc_func) (decrypt : dec_func)
    (hinv : ∀ x rk, decrypt (encrypt x rk) rk = x) (d c0 t rk : Buf) (p : Nat) (hp : p < 128) :
    bitAt (apply_cipher decrypt d 0 (apply_cipher encrypt c0 0 t 0 rk) 0 rk) p = bitAt t p := by
  rw [bitAt_of_bytes _ t 0
    (fun j hj => decrypt_encrypt_block encrypt decrypt hinv _ _ _ 0 0 _ j hj) p hp]
  exact congrArg (bitAt t) (by omega)

/-- Decrypting the first block of the two-block ciphertext of `t` gives the bits of the
first block of `t`. -/
theorem manx2_s1_short (encrypt : enc_func) (decrypt : dec_func)
    (hinv : ∀ x rk, decrypt (encrypt x rk) rk = x) (d c0 t rk : Buf) (p : Nat) (hp : p < 128) :
    bitAt (apply_cipher decrypt d 0
      (apply_cipher encrypt (apply_cipher encrypt c0 0 t 0 rk) BLOCKBYTES t BLOCKBYTES rk) 0 rk) p
      = bitAt t p := by
  have hb : ∀ j, j < 16 →
      apply_cipher decrypt d 0
        (apply_cipher encrypt (apply_cipher encrypt c0 0 t 0 rk) BLOCKBYTES t BLOCKBYTES rk) 0 rk j
      = t (0 + j) := by
    intro j hj
    have hrd : rdBlock (apply_cipher encrypt (apply_cipher encrypt c0 0 t 0 rk) BLOCKBYTES t
          BLOCKBYTES rk) 0
        = encrypt (rdBlock t 0) rk := by
      rw [← rdBlock_wrBlock c0 0 (encrypt (rdBlock t 0) rk)]
      apply rdBlock_congr
      intro u hu
      unfold apply_cipher
      rw [wrBlock_other _ BLOCKBYTES _ _ (by unfold BLOCKBYTES; omega)]
    unfold apply_cipher at hrd ⊢
    rw [wrBlock_in _ _ _ _ (by omega), hrd, hinv]
    unfold rdBlock
    simp
  rw [bitAt_of_bytes _ _ 0 hb p hp]
  exact congrArg (bitAt t) (by omega)

/-- The value of `r` and of the admissibility bound of `manx2_enc` when the header fits
in the block. -/
theorem manx2_bounds (vadlen nlen : Nat) (hn2 : nlen + 18 + vadlen ≤ 128) :
    ssub BLOCKBITS (nlen + MANX2_ALPHASTAR vadlen + 2) = 128 - (nlen + 18 + vadlen) ∧
    sadd (ssub (ssub BLOCKBITS nlen) 2) (128 - (nlen + 18 + vadlen))
      = 126 - nlen + (128 - (nlen + 18 + vadlen)) := by
  constructor
  · unfold ssub SZ BLOCKBITS BLOCKBYTES MANX2_ALPHASTAR MANX2_ALPHAMAX
    omega
  · unfold sadd ssub SZ BLOCKBITS BLOCKBYTES
    omega

/-- The result of `manx2_enc` on the one-block path. -/
theorem manx2_enc_tiny_eq (vadlen : Nat) (junk : Nat → Buf) (c0 k n : Buf) (nlen : Nat)
    (m : Buf) (mlen : Nat) (a : Buf) (alen : Nat) (encrypt : enc_func) (kexpand : kexp_func)
    (hn1 : 64 ≤ nlen) (hn2 : nlen + 18 + vadlen ≤ 128) (ha : alen ≤ 16)
    (hm : mlen ≤ 128 - (nlen + 18 + vadlen)) :
    manx2_enc vadlen junk c0 k n nlen m mlen a alen encrypt kexpand
      = ⟨0, 128, apply_cipher encrypt c0 0 (init_tiny_msg vadlen (junk 0) n nlen a alen m mlen)
          0 (kexpand k)⟩ := by
  obtain ⟨hr, hadm⟩ := manx2_bounds vadlen nlen hn2
  unfold manx2_enc
  dsimp only
  rw [hr, hadm, if_neg (by unfold MANX_TAU BLOCKBITS BLOCKBYTES; omega), if_neg (by omega),
    if_neg (by unfold MANX2_ALPHAMAX; omega), if_pos hm]

/-- The result of `manx2_enc` on the two-block path. -/
theorem manx2_enc_short_eq (vadlen : Nat) (junk : Nat → Buf) (c0 k n : Buf) (nlen : Nat)
    (m : Buf) (mlen : Nat) (a : Buf) (alen : Nat) (encrypt : enc_func) (kexpand : kexp_func)
    (hn1 : 64 ≤ nlen) (hn2 : nlen + 18 + vadlen ≤ 128) (ha : alen ≤ 16)
    (hm1 : 128 - (nlen + 18 + vadlen) < mlen)
    (hm2 : mlen < 126 - nlen + (128 - (nlen + 18 + vadlen))) :
    manx2_enc vadlen junk c0 k n nlen m mlen a alen encrypt kexpand
      = ⟨0, 256, apply_cipher encrypt
          (apply_cipher encrypt c0 0
            (init_short_msg vadlen (junk 1) (junk 0) n nlen a alen m mlen) 0 (kexpand k))
          BLOCKBYTES (init_short_msg vadlen (junk 1) (junk 0) n nlen a alen m mlen) BLOCKBYTES
          (kexpand k)⟩ := by
  obtain ⟨hr, hadm⟩ := manx2_bounds vadlen nlen hn2
  unfold manx2_enc
  dsimp only
  rw [hr, hadm, if_neg (by unfold MANX_TAU BLOCKBITS BLOCKBYTES; omega), if_neg (by omega),
    if_neg (by unfold MANX2_ALPHAMAX; omega), if_neg (by omega)]

/-- An accepted input of `manx2_enc` has `alen ≤ 16`. -/
theorem manx2_enc_accepts_alen (vadlen : Nat) (junk : Nat → Buf) (c0 k n : Buf) (nlen : Nat)
    (m : Buf) (mlen : Nat) (a : Buf) (alen : Nat) (encrypt : enc_func) (kexpand : kexp_func)
    (h : (manx2_enc vadlen junk c0 k n nlen m mlen a alen encrypt kexpand).ret = 0) :
    alen ≤ 16 := by
  have e2 : MANX2_ALPHAMAX = 16 := rfl
  unfold manx2_enc at h
  dsimp only at h
  rw [e2] at h
  split_ifs at h <;> omega

/-- On a one-block ciphertext, a bit of the decrypted block that differs, within the
compared prefix and away from the second domain bit, from the block rebuilt by
`manx2_dec` makes `manx2_dec` return 2 with length 0 and `p` untouched. -/
theorem manx2_dec_tiny_mismatch (vadlen : Nat) (junkd : Nat → Buf) (p0 k n : Buf) (nlen : Nat)
    (c a : Buf) (alen : Nat) (decrypt : dec_func) (kexpand : kexp_func) (q : Nat)
    (hq : q < nlen + 18 + vadlen) (hq1 : q ≠ nlen + 1)
    (hne : bitAt (apply_cipher decrypt (junkd 1) 0 c 0 (kexpand k)) q
      ≠ bitAt (init_tiny_msg vadlen (junkd 0) n nlen a alen c 0) q) :
    (manx2_dec vadlen junkd p0 k n nlen c 128 a alen decrypt kexpand).ret = 2 ∧
    (manx2_dec vadlen junkd p0 k n nlen c 128 a alen decrypt kexpand).len = 0 ∧
    (manx2_dec vadlen junkd p0 k n nlen c 128 a alen decrypt kexpand).out = p0 := by
  unfold manx2_dec
  dsimp only
  rw [if_neg (by simp [BLOCKBITS, BLOCKBYTES]), if_pos (by simp [BLOCKBITS, BLOCKBYTES]),
    manx2_hl_eq, if_pos]
  · exact ⟨rfl, rfl, rfl⟩
  · intro h
    rw [sec_memcmp_bits_eq_zero_iff] at h
    have h1 := h q hq
    rw [bitAt_wr_CHGBIT _ _ _ _ (by rw [GETBIT_eq]; split <;> omega), if_neg hq1] at h1
    exact hne h1

/-- On a two-block ciphertext, a bit of the first decrypted block that differs, within
the compared prefix and away from the two domain bits, from the block rebuilt by
`manx2_dec` makes `manx2_dec` return 3 with length 0 and `p` untouched. -/
theorem manx2_dec_short_mismatch (vadlen : Nat) (junkd : Nat → Buf) (p0 k n : Buf) (nlen : Nat)
    (c a : Buf) (alen : Nat) (decrypt : dec_func) (kexpand : kexp_func) (q : Nat)
    (hq : q < nlen + 18 + vadlen) (hq0 : q ≠ nlen) (hq1 : q ≠ nlen + 1)
    (hne : bitAt (apply_cipher decrypt (junkd 1) 0 c 0 (kexpand k)) q
      ≠ bitAt (init_tiny_msg vadlen (junkd 0)
          (apply_cipher decrypt (junkd 2) 0 c BLOCKBYTES (kexpand k)) nlen a alen c 0) q) :
    (manx2_dec vadlen junkd p0 k n nlen c 256 a alen decrypt kexpand).ret = 3 ∧
    (manx2_dec vadlen junkd p0 k n nlen c 256 a alen decrypt kexpand).len = 0 ∧
    (manx2_dec vadlen junkd p0 k n nlen c 256 a alen decrypt kexpand).out = p0 := by
  unfold manx2_dec
  dsimp only
  rw [if_neg (by simp [BLOCKBITS, BLOCKBYTES]), if_neg (by simp [BLOCKBITS, BLOCKBYTES]),
    manx2_hl_eq, if_pos]
  · exact ⟨rfl, rfl, rfl⟩
  · intro h
    rw [sec_memcmp_bits_eq_zero_iff] at h
    have h1 := h q hq
    rw [bitAt_wr_CLRBIT, bitAt_wr_CLRBIT, if_neg hq0, if_neg hq1] at h1
    exact hne h1

/-- AD binding of Manx2 for two ADs of the same length: a ciphertext of `manx2_enc` made
with `(a, alen)` is rejected by `manx2_dec` under `(a2, alen)` when `a` and `a2` differ
at a bit below `alen`, with code 2 on the one-block path and 3 on the two-block path. -/
theorem manx2_ad_bit_rejected (vadlen : Nat) (junk junkd : Nat → Buf) (c0 p0 k n m a a2 : Buf)
    (nlen mlen alen : Nat) (encrypt : enc_func) (decrypt : dec_func) (kexpand : kexp_func)
    (hinv : ∀ x rk, decrypt (encrypt x rk) rk = x)
    (hv : vadlen ≤ 1) (hn1 : 64 ≤ nlen) (hn2 : nlen + 18 + vadlen ≤ 128) (ha : alen ≤ 16)
    (hm : mlen < 126 - nlen + (128 - (nlen + 18 + vadlen)))
    (i : Nat) (hi : i < alen) (hne : bitAt a i ≠ bitAt a2 i) :
    (manx2_enc vadlen junk c0 k n nlen m mlen a alen encrypt kexpand).len
      = (if mlen ≤ 128 - (nlen + 18 + vadlen) then 128 else 256) ∧
    (manx2_dec vadlen junkd p0 k n nlen
      (manx2_enc vadlen junk c0 k n nlen m mlen a alen encrypt kexpand).out
      (manx2_enc vadlen junk c0 k n nlen m mlen a alen encrypt kexpand).len
      a2 alen decrypt kexpand).ret = (if mlen ≤ 128 - (nlen + 18 + vadlen) then 2 else 3) ∧
    (manx2_dec vadlen junkd p0 k n nlen
      (manx2_enc vadlen junk c0 k n nlen m mlen a alen encrypt kexpand).out
      (manx2_enc vadlen junk c0 k n nlen m mlen a alen encrypt kexpand).len
      a2 alen decrypt kexpand).len = 0 ∧
    (manx2_dec vadlen junkd p0 k n nlen
      (manx2_enc vadlen junk c0 k n nlen m mlen a alen encrypt kexpand).out
      (manx2_enc vadlen junk c0 k n nlen m mlen a alen encrypt kexpand).len
      a2 alen decrypt kexpand).out = p0 := by
  obtain ⟨hh1, hh2⟩ := manx2_hdr_len_le vadlen nlen alen hv ha
  have hbit : ∀ (x : Buf) (d0 d1 : Bool) (y : Buf),
      manx2_hdr_bit vadlen x nlen d0 d1 y alen (nlen + 2 + i) = bitAt y i := by
    intro x d0 d1 y
    unfold manx2_hdr_bit
    rw [if_neg (by omega), if_neg (by omega), if_neg (by omega), if_pos (by omega)]
    exact congrArg (bitAt y) (by omega)
  have hT2 : ∀ (b x c : Buf),
      bitAt (init_tiny_msg vadlen b x nlen a2 alen c 0) (nlen + 2 + i) = bitAt a2 i := by
    intro b x c
    rw [init_tiny_msg_bits vadlen b x nlen a2 alen c 0 hv hn2 ha (by omega) _ (by omega),
      if_pos (by omega), hbit]
  by_cases ct : mlen ≤ 128 - (nlen + 18 + vadlen)
  · rw [manx2_enc_tiny_eq vadlen junk c0 k n nlen m mlen a alen encrypt kexpand hn1 hn2 ha ct,
      if_pos ct, if_pos ct]
    dsimp only
    refine ⟨rfl, ?_⟩
    apply manx2_dec_tiny_mismatch vadlen junkd p0 k n nlen _ a2 alen decrypt kexpand
      (nlen + 2 + i) (by omega) (by omega)
    rw [manx2_s1_tiny encrypt decrypt hinv _ _ _ _ _ (by omega),
      init_tiny_msg_bits vadlen _ n nlen a alen m mlen hv hn2 ha (by omega) _ (by omega),
      if_pos (by omega), hbit, hT2]
    exact hne
  · rw [manx2_enc_short_eq vadlen junk c0 k n nlen m mlen a alen encrypt kexpand hn1 hn2 ha
      (by omega) hm, if_neg ct, if_neg ct]
    dsimp only
    refine ⟨rfl, ?_⟩
    apply manx2_dec_short_mismatch vadlen junkd p0 k n nlen _ a2 alen decrypt kexpand
      (nlen + 2 + i) (by omega) (by omega) (by omega)
    rw [manx2_s1_short encrypt decrypt hinv _ _ _ _ _ (by omega),
      init_short_msg_block1 vadlen _ _ n nlen a alen m mlen hv hn2 ha _ (by omega),
      if_pos (by omega), hbit, hT2]
    exact hne

/-- Nonce binding of Manx2 on the one-block path: a ciphertext of `manx2_enc` made with
the nonce `n` is rejected with code 2 by `manx2_dec` under a nonce `n2` that differs from
`n` at a bit below `nlen`. -/
theorem manx2_nonce_bit_rejected (vadlen : Nat) (junk junkd : Nat → Buf)
    (c0 p0 k n n2 m a : Buf) (nlen mlen alen : Nat) (encrypt : enc_func) (decrypt : dec_func)
    (kexpand : kexp_func) (hinv : ∀ x rk, decrypt (encrypt x rk) rk = x)
    (hv : vadlen ≤ 1) (hn1 : 64 ≤ nlen) (hn2 : nlen + 18 + vadlen ≤ 128) (ha : alen ≤ 16)
    (hm : mlen ≤ 128 - (nlen + 18 + vadlen))
    (i : Nat) (hi : i < nlen) (hne : bitAt n i ≠ bitAt n2 i) :
    (manx2_enc vadlen junk c0 k n nlen m mlen a alen encrypt kexpand).len = 128 ∧
    (manx2_dec vadlen junkd p0 k n2 nlen
      (manx2_enc vadlen junk c0 k n nlen m mlen a alen encrypt kexpand).out
      (manx2_enc vadlen junk c0 k n nlen m mlen a alen encrypt kexpand).len
      a alen decrypt kexpand).ret = 2 ∧
    (manx2_dec vadlen junkd p0 k n2 nlen
      (manx2_enc vadlen junk c0 k n nlen m mlen a alen encrypt kexpand).out
      (manx2_enc vadlen junk c0 k n nlen m mlen a alen encrypt kexpand).len
      a alen decrypt kexpand).len = 0 ∧
    (manx2_dec vadlen junkd p0 k n2 nlen
      (manx2_enc vadlen junk c0 k n nlen m mlen a alen encrypt kexpand).out
      (manx2_enc vadlen junk c0 k n nlen m mlen a alen encrypt kexpand).len
      a alen decrypt kexpand).out = p0 := by
  obtain ⟨hh1, hh2⟩ := manx2_hdr_len_le vadlen nlen alen hv ha
  have hbit : ∀ (x : Buf) (d0 d1 : Bool),
      manx2_hdr_bit vadlen x nlen d0 d1 a alen i = bitAt x i := by
    intro x d0 d1
    unfold manx2_hdr_bit
    rw [if_pos hi]
  rw [manx2_enc_tiny_eq vadlen junk c0 k n nlen m mlen a alen encrypt kexpand hn1 hn2 ha hm]
  dsimp only
  refine ⟨rfl, ?_⟩
  apply manx2_dec_tiny_mismatch vadlen junkd p0 k n2 nlen _ a alen decrypt kexpand
    i (by omega) (by omega)
  rw [manx2_s1_tiny encrypt decrypt hinv _ _ _ _ _ (by omega),
    init_tiny_msg_bits vadlen _ n nlen a alen m mlen hv hn2 ha (by omega) _ (by omega),
    if_pos (by omega), hbit,
    init_tiny_msg_bits vadlen _ n2 nlen a alen _ 0 hv hn2 ha (by omega) _ (by omega),
    if_pos (by omega), hbit]
  exact hne

/-- On a one-block ciphertext whose decryption `S1` agrees with the block rebuilt by
`manx2_dec` on the compared prefix (the second domain bit apart), carries the second
domain bit of an `mlen`-bit message and, after the prefix, the padded message:
`manx2_dec` returns 0 and gives back the message. -/
theorem manx2_dec_tiny_gen (vadlen : Nat) (junkd : Nat → Buf) (p0 k n : Buf) (nlen : Nat)
    (c a : Buf) (alen : Nat) (decrypt : dec_func) (kexpand : kexp_func) (m : Buf) (mlen : Nat)
    (hn : nlen + 18 + vadlen ≤ 128) (hm : mlen ≤ 128 - (nlen + 18 + vadlen))
    (hcmp0 : ∀ p, p < nlen + 18 + vadlen → p ≠ nlen + 1 →
      bitAt (apply_cipher decrypt (junkd 1) 0 c 0 (kexpand k)) p
        = bitAt (init_tiny_msg vadlen (junkd 0) n nlen a alen c 0) p)
    (hs1d : bitAt (apply_cipher decrypt (junkd 1) 0 c 0 (kexpand k)) (nlen + 1)
      = decide (mlen = 128 - (nlen + 18 + vadlen)))
    (hs1t : ∀ p, nlen + 18 + vadlen ≤ p → p < 128 →
      bitAt (apply_cipher decrypt (junkd 1) 0 c 0 (kexpand k)) p
        = if p < nlen + 18 + vadlen + mlen then bitAt m (p - (nlen + 18 + vadlen))
          else decide (p = nlen + 18 + vadlen + mlen)) :
    (manx2_dec vadlen junkd p0 k n nlen c 128 a alen decrypt kexpand).ret = 0 ∧
    (manx2_dec vadlen junkd p0 k n nlen c 128 a alen decrypt kexpand).len = mlen ∧
    ∀ i, i < mlen →
      bitAt (manx2_dec vadlen junkd p0 k n nlen c 128 a alen decrypt kexpand).out i
        = bitAt m i := by
  have hds : GETBIT (apply_cipher decrypt (junkd 1) 0 c 0 (kexpand k) ((nlen + 1) / 8)).val
      (7 - (nlen + 1) % 8) = if mlen = 128 - (nlen + 18 + vadlen) then 1 else 0 := by
    rw [GETBIT_bitAt, hs1d]
    by_cases c : mlen = 128 - (nlen + 18 + vadlen) <;> simp [c]
  have hcmp : sec_memcmp_bits (apply_cipher decrypt (junkd 1) 0 c 0 (kexpand k))
      (wr (init_tiny_msg vadlen (junkd 0) n nlen a alen c 0) ((nlen + 1) / 8)
        (CHGBIT (init_tiny_msg vadlen (junkd 0) n nlen a alen c 0 ((nlen + 1) / 8)).val
          (7 - (nlen + 1) % 8) (if mlen = 128 - (nlen + 18 + vadlen) then 1 else 0)))
      (nlen + 18 + vadlen) = 0 := by
    rw [sec_memcmp_bits_eq_zero_iff]
    intro p hp
    rw [bitAt_wr_CHGBIT _ _ _ _ (by split <;> omega)]
    by_cases q : p = nlen + 1
    · rw [if_pos q, q, hs1d]
      by_cases c : mlen = 128 - (nlen + 18 + vadlen) <;> simp [c]
    · rw [if_neg q, hcmp0 p hp q]
  unfold manx2_dec
  dsimp only
  rw [if_neg (by simp [BLOCKBITS, BLOCKBYTES]), if_pos (by simp [BLOCKBITS, BLOCKBYTES]), hds,
    manx2_hl_eq, if_neg (by rw [hcmp]; simp)]
  by_cases cm : mlen = 128 - (nlen + 18 + vadlen)
  · rw [if_pos cm, if_pos (by omega)]
    dsimp only
    have hs : ssub 128 (nlen + 18 + vadlen) = mlen := by
      unfold ssub SZ
      omega
    rw [hs]
    refine ⟨rfl, rfl, ?_⟩
    intro i hi
    rw [lshift_bits _ _ _ _ (by omega), if_pos hi, bitAt_offs, hs1t _ (by omega) (by omega),
      if_pos (by omega)]
    exact congrArg (bitAt m) (by omega)
  · rw [if_neg cm, if_neg (by omega)]
    dsimp only
    have hl1 : bitAt (apply_cipher decrypt (junkd 1) 0 c 0 (kexpand k))
        (nlen + 18 + vadlen + mlen) = true := by
      rw [hs1t _ (by omega) (by omega), if_neg (by omega)]
      simp
    have hl2 : ∀ p, nlen + 18 + vadlen + mlen < p → p < 128 →
        bitAt (apply_cipher decrypt (junkd 1) 0 c 0 (kexpand k)) p = false := by
      intro p h1 h2
      rw [hs1t p (by omega) h2, if_neg (by omega)]
      have : ¬ p = nlen + 18 + vadlen + mlen := by omega
      simp [this]
    rw [depad_10_len _ _ (nlen + 18 + vadlen + mlen) (by omega) (by omega) hl1 hl2]
    have hs : ssub (nlen + 18 + vadlen + mlen) (nlen + 18 + vadlen) = mlen := by
      unfold ssub SZ
      omega
    rw [hs]
    refine ⟨rfl, rfl, ?_⟩
    intro i hi
    rw [lshift_bits _ _ _ _ (by omega), if_pos hi, bitAt_offs,
      depad_10_inplace_bits _ (nlen + 18 + vadlen + mlen) (by omega) (by omega) hl1 hl2 _
        (by omega),
      hs1t _ (by omega) (by omega), if_pos (by omega)]
    exact congrArg (bitAt m) (by omega)

/-- Under fixed-length AD (`MANX2_VARIABLE_ADLEN = 0`) the AD is not padded.  The 16-bit
AD `1000 0000 0000 0000` and the empty AD give the same compared prefix, because the
block rebuilt by `manx2_dec` for the empty AD carries the padding bit of its empty
message right after the domain bits: a one-block ciphertext made with the first is
accepted under the second. -/
theorem manx2_fixed_ad_collision (junk junkd : Nat → Buf) (c0 p0 k n m a a2 : Buf)
    (nlen mlen : Nat) (encrypt : enc_func) (decrypt : dec_func) (kexpand : kexp_func)
    (hinv : ∀ x rk, decrypt (encrypt x rk) rk = x)
    (hn1 : 64 ≤ nlen) (hn2 : nlen ≤ 110) (hm : mlen ≤ 110 - nlen)
    (ha16 : ∀ i, i < 16 → bitAt a i = decide (i = 0)) :
    (manx2_enc 0 junk c0 k n nlen m mlen a 16 encrypt kexpand).ret = 0 ∧
    (manx2_enc 0 junk c0 k n nlen m mlen a 16 encrypt kexpand).len = 128 ∧
    (manx2_dec 0 junkd p0 k n nlen
      (manx2_enc 0 junk c0 k n nlen m mlen a 16 encrypt kexpand).out
      (manx2_enc 0 junk c0 k n nlen m mlen a 16 encrypt kexpand).len
      a2 0 decrypt kexpand).ret = 0 ∧
    (manx2_dec 0 junkd p0 k n nlen
      (manx2_enc 0 junk c0 k n nlen m mlen a 16 encrypt kexpand).out
      (manx2_enc 0 junk c0 k n nlen m mlen a 16 encrypt kexpand).len
      a2 0 decrypt kexpand).len = mlen ∧
    ∀ i, i < mlen →
      bitAt (manx2_dec 0 junkd p0 k n nlen
        (manx2_enc 0 junk c0 k n nlen m mlen a 16 encrypt kexpand).out
        (manx2_enc 0 junk c0 k n nlen m mlen a 16 encrypt kexpand).len
        a2 0 decrypt kexpand).out i = bitAt m i := by
  obtain ⟨hr, _⟩ := manx2_bounds 0 nlen (by omega)
  have hl16 : manx2_hdr_len 0 nlen 16 = nlen + 18 := by
    unfold manx2_hdr_len
    simp
  have hl0 : manx2_hdr_len 0 nlen 0 = nlen + 2 := by
    unfold manx2_hdr_len
    simp
  have hT := init_tiny_msg_bits 0 (junk 0) n nlen a 16 m mlen (by omega) (by omega) (by omega)
    (by rw [hl16]; omega)
  rw [hl16, hr] at hT
  rw [manx2_enc_tiny_eq 0 junk c0 k n nlen m mlen a 16 encrypt kexpand hn1 (by omega) (by omega)
    (by omega)]
  dsimp only
  refine ⟨rfl, rfl, ?_⟩
  apply manx2_dec_tiny_gen 0 junkd p0 k n nlen _ a2 0 decrypt kexpand m mlen (by omega)
    (by omega)
  · intro p hp hp1
    rw [manx2_s1_tiny encrypt decrypt hinv _ _ _ _ _ (by omega), hT p (by omega),
      if_pos (by omega),
      init_tiny_msg_bits 0 _ n nlen a2 0 _ 0 (by omega) (by omega) (by omega)
        (by rw [hl0]; omega) p (by omega), hl0, hr]
    unfold manx2_hdr_bit
    by_cases c1 : p < nlen
    · rw [if_pos c1, if_pos (by omega), if_pos c1]
    · rw [if_neg c1]
      by_cases c2 : p = nlen
      · rw [if_pos c2, if_pos (by omega), if_neg c1, if_pos c2]
        have t1 : mlen ≤ 128 - (nlen + 18 + 0) := by omega
        have t2 : 0 ≤ 128 - (nlen + 18 + 0) := by omega
        simp only [t1, decide_True, Nat.zero_le]
      · rw [if_neg c2, if_neg hp1, if_pos (by omega), if_neg (by omega), if_neg (by omega),
          ha16 _ (by omega)]
        have e : (p - (nlen + 2) = 0) = (p = nlen + 2 + 0) := by
          apply propext
          constructor <;> intro h <;> omega
        simp only [e]
  · rw [manx2_s1_tiny encrypt decrypt hinv _ _ _ _ _ (by omega), hT _ (by omega),
      if_pos (by omega)]
    unfold manx2_hdr_bit
    rw [if_neg (by omega), if_neg (by omega), if_pos rfl]
  · intro p h1 h2
    rw [manx2_s1_tiny encrypt decrypt hinv _ _ _ _ _ h2, hT p h2, if_neg (by omega)]

/-! ## Lemmas: the blocks that the encryptions build -/

/-- The function `set_separation_domain` on any array: the cursor advances by two bits,
the first of the two bits is set when `mlen ≤ r`, the second when `mlen = r`, and no
other bit changes. -/
theorem set_separation_domain_gen (out : Buf) (oct bit mlen r : Nat) (hb : bit < 8) :
    (set_separation_domain out oct bit mlen r).2.2 < 8 ∧
    8 * (set_separation_domain out oct bit mlen r).2.1
      + (set_separation_domain out oct bit mlen r).2.2 = 8 * oct + bit + 2 ∧
    ∀ p, bitAt (set_separation_domain out oct bit mlen r).1 p
      = (bitAt out p || (decide (p = 8 * oct + bit) && decide (mlen ≤ r))
          || (decide (p = 8 * oct + bit + 1) && decide (mlen = r))) := by
  have h2 := inc_bitpos_two oct bit hb
  have h1 := inc_bitpos_one oct bit hb
  have h11 := inc_bitpos_one (inc_bitpos oct bit 1).1 (inc_bitpos oct bit 1).2 h1.2
  unfold set_separation_domain
  by_cases c1 : mlen < r
  · rw [if_pos c1]
    refine ⟨h2.2, h2.1, ?_⟩
    intro p
    dsimp only
    rw [bitAt_setbit_at _ _ _ _ hb]
    have t1 : mlen ≤ r := by omega
    have t2 : ¬ mlen = r := by omega
    simp only [t1, t2, decide_True, decide_False, Bool.and_true, Bool.and_false, Bool.or_false]
    exact Bool.or_comm _ _
  · rw [if_neg c1]
    by_cases c2 : mlen = r
    · rw [if_pos c2]
      refine ⟨h11.2, by have := h11.1; have := h1.1; dsimp only; omega, ?_⟩
      intro p
      dsimp only
      rw [bitAt_setbit_at _ _ _ _ h1.2, bitAt_setbit_at _ _ _ _ hb, h1.1]
      subst c2
      have t1 : decide (mlen ≤ mlen) = true := by simp
      have t2 : decide (mlen = mlen) = true := by simp
      rw [t1, t2]
      cases bitAt out p <;> cases decide (p = 8 * oct + bit) <;>
        cases decide (p = 8 * oct + bit + 1) <;> rfl
    · rw [if_neg c2]
      refine ⟨h2.2, h2.1, ?_⟩
      intro p
      dsimp only
      have t1 : ¬ mlen ≤ r := by omega
      simp only [t1, c2, decide_False, Bool.and_false, Bool.or_false]

/-- The octets that `apply_cipher` stores are those of the cipher output. -/
theorem apply_cipher_get (f : Block → Buf → Block) (dst : Buf) (o : Nat) (src : Buf) (i : Nat)
    (rk : Buf) (j : Nat) (hj : j < 16) :
    apply_cipher f dst o src i rk (o + j) = f (rdBlock src i) rk ⟨j, hj⟩ := by
  unfold apply_cipher
  rw [wrBlock_in _ _ _ _ (by omega)]
  congr 1
  apply Fin.ext
  show o + j - o = j
  omega

theorem apply_cipher_other (f : Block → Buf → Block) (dst : Buf) (o : Nat) (src : Buf) (i : Nat)
    (rk : Buf) (j : Nat) (hj : j < o ∨ o + 16 ≤ j) :
    apply_cipher f dst o src i rk j = dst j := by
  unfold apply_cipher
  rw [wrBlock_other _ _ _ _ hj]

/-! ## Lemmas: the decryptions in terms of their local arrays -/

/-- The function `manx1_dec` in terms of `manx1_dec_blocks`. -/
theorem manx1_dec_eq_blocks (vadlen : Nat) (junk : Nat → Buf) (p k n : Buf) (nlen : Nat)
    (c : Buf) (clen : Nat) (a : Buf) (alen : Nat) (enc : enc_func) (dec : dec_func)
    (kexpand : Option kexp_func) :
    manx1_dec vadlen junk p k n nlen c clen a alen enc dec kexpand
      = if clen ≠ BLOCKBITS then ⟨1, 0, p⟩
        else if alen > MANX1_ALPHAMAX then ⟨2, 0, p⟩
        else if sec_memcmp_bits
            (offs (manx1_dec_blocks vadlen junk k n nlen c a alen enc dec kexpand).1 BLOCKBYTES)
            (manx1_dec_blocks vadlen junk k n nlen c a alen enc dec kexpand).2
            (ssub (MAX (sadd (ssub BLOCKBITS nlen) MANX_TAU) MANX1_ALPHAMAX)
              (ssub BLOCKBITS nlen)) ≠ 0 then ⟨3, 0, p⟩
        else
          ⟨0,
            ssub (depad_10 (manx1_dec_blocks vadlen junk k n nlen c a alen enc dec kexpand).2
                (manx1_dec_blocks vadlen junk k n nlen c a alen enc dec kexpand).2).2
              (ssub (MAX (sadd (ssub BLOCKBITS nlen) MANX_TAU) MANX1_ALPHAMAX)
                (ssub BLOCKBITS nlen)),
            lshift p
              (offs (depad_10 (manx1_dec_blocks vadlen junk k n nlen c a alen enc dec kexpand).2
                  (manx1_dec_blocks vadlen junk k n nlen c a alen enc dec kexpand).2).1
                (ssub (MAX (sadd (ssub BLOCKBITS nlen) MANX_TAU) MANX1_ALPHAMAX)
                  (ssub BLOCKBITS nlen) / 8))
              (ssub (depad_10 (manx1_dec_blocks vadlen junk k n nlen c a alen enc dec kexpand).2
                  (manx1_dec_blocks vadlen junk k n nlen c a alen enc dec kexpand).2).2
                (ssub (MAX (sadd (ssub BLOCKBITS nlen) MANX_TAU) MANX1_ALPHAMAX)
                  (ssub BLOCKBITS nlen)))
              (ssub (MAX (sadd (ssub BLOCKBITS nlen) MANX_TAU) MANX1_ALPHAMAX)
                (ssub BLOCKBITS nlen) % 8)⟩ := rfl

/-- The function `manx2_dec` on a one-block ciphertext in terms of
`manx2_dec_tiny_blocks`. -/
theorem manx2_dec_eq_tiny_blocks (vadlen : Nat) (junk : Nat → Buf) (p k n : Buf) (nlen : Nat)
    (c : Buf) (a : Buf) (alen : Nat) (decrypt : dec_func) (kexpand : kexp_func) :
    manx2_dec vadlen junk p k n nlen c 128 a alen decrypt kexpand
      = if sec_memcmp_bits
            (manx2_dec_tiny_blocks vadlen junk k n nlen c a alen decrypt kexpand).1
            (manx2_dec_tiny_blocks vadlen junk k n nlen c a alen decrypt kexpand).2.1
            (nlen + 2 + MANX2_ALPHASTAR vadlen) ≠ 0 then ⟨2, 0, p⟩
        else
          ⟨0,
            ssub (if (manx2_dec_tiny_blocks vadlen junk k n nlen c a alen decrypt kexpand).2.2 ≠ 0
                then ((manx2_dec_tiny_blocks vadlen junk k n nlen c a alen decrypt kexpand).1, 128)
                else depad_10
                  (manx2_dec_tiny_blocks vadlen junk k n nlen c a alen decrypt kexpand).1
                  (manx2_dec_tiny_blocks vadlen junk k n nlen c a alen decrypt kexpand).1).2
              (nlen + 2 + MANX2_ALPHASTAR vadlen),
            lshift p
              (offs (if (manx2_dec_tiny_blocks vadlen junk k n nlen c a alen decrypt
                    kexpand).2.2 ≠ 0
                then ((manx2_dec_tiny_blocks vadlen junk k n nlen c a alen decrypt kexpand).1, 128)
                else depad_10
                  (manx2_dec_tiny_blocks vadlen junk k n nlen c a alen decrypt kexpand).1
                  (manx2_dec_tiny_blocks vadlen junk k n nlen c a alen decrypt kexpand).1).1
                ((nlen + 2 + MANX2_ALPHASTAR vadlen) / 8))
              (ssub (if (manx2_dec_tiny_blocks vadlen junk k n nlen c a alen decrypt
                    kexpand).2.2 ≠ 0
                then ((manx2_dec_tiny_blocks vadlen junk k n nlen c a alen decrypt kexpand).1, 128)
                else depad_10
                  (manx2_dec_tiny_blocks vadlen junk k n nlen c a alen decrypt kexpand).1
                  (manx2_dec_tiny_blocks vadlen junk k n nlen c a alen decrypt kexpand).1).2
                (nlen + 2 + MANX2_ALPHASTAR vadlen))
              ((nlen + 2 + MANX2_ALPHASTAR vadlen) % 8)⟩ := rfl

/-- The function `manx2_dec` on a two-block ciphertext in terms of
`manx2_dec_short_blocks`. -/
theorem manx2_dec_eq_short_blocks (vadlen : Nat) (junk : Nat → Buf) (p k n : Buf) (nlen : Nat)
    (c : Buf) (a : Buf) (alen : Nat) (decrypt : dec_func) (kexpand : kexp_func) :
    manx2_dec vadlen junk p k n nlen c 256 a alen decrypt kexpand
      = if sec_memcmp_bits
            (manx2_dec_short_blocks vadlen junk k nlen c a alen decrypt kexpand).1
            (manx2_dec_short_blocks vadlen junk k nlen c a alen decrypt kexpand).2.2
            (nlen + 2 + MANX2_ALPHASTAR vadlen) ≠ 0 then ⟨3, 0, p⟩
        else if GETBIT ((manx2_dec_short_blocks vadlen junk k nlen c a alen decrypt
              kexpand).2.1 (nlen / 8)).val (7 - nlen % 8) ≠ 0
            ∨ GETBIT ((manx2_dec_short_blocks vadlen junk k nlen c a alen decrypt
              kexpand).2.1 ((nlen + 1) / 8)).val (7 - (nlen + 1) % 8) ≠ 1 then ⟨4, 0, p⟩
        else
          ⟨0,
            sadd (ssub BLOCKBITS (nlen + MANX2_ALPHASTAR vadlen + 2))
              (ssub (depad_10
                  (manx2_dec_short_blocks vadlen junk k nlen c a alen decrypt kexpand).2.1
                  (manx2_dec_short_blocks vadlen junk k nlen c a alen decrypt kexpand).2.1).2
                (nlen + 2)),
            (manx2_dec vadlen junk p k n nlen c 256 a alen decrypt kexpand).out⟩ := by
  unfold manx2_dec manx2_dec_short_blocks
  dsimp only
  have e1 : ¬ ((256 : Nat) ≠ BLOCKBITS ∧ (256 : Nat) ≠ 2 * BLOCKBITS) := by
    simp [BLOCKBITS, BLOCKBYTES]
  have e2 : ¬ ((256 : Nat) = BLOCKBITS) := by simp [BLOCKBITS, BLOCKBYTES]
  rw [if_neg e1, if_neg e2]
  split_ifs <;> rfl

/-! ## Results on the lengths where every access stays inside the local arrays -/

/-- Round trip of Manx1 (`MANX1_VARIABLE_ADLEN = 1`, `MANX1_ALPHAMAX = 64`) for
`mlen ≤ 56`, where the padding marker of `V[2]` lies at bit `64 + mlen ≤ 120` and the
last store of `depad_10` stays inside `v2_tilde`: for every block cipher whose decryption
inverts its encryption under the same round keys, every key and key schedule (also a
missing one), every `nlen ≤ 128` and `alen ≤ 64`, `manx1_enc` returns 0 with
`clen = 128`, and `manx1_dec` on that ciphertext with the same key, nonce and AD returns
0 with `plen = mlen` and the first `mlen` bits of `p` equal to those of `m`. -/
theorem manx1_round_trip_in_bounds (junk : Buf) (junkd : Nat → Buf) (c0 p0 k n m a : Buf)
    (nlen mlen alen : Nat) (enc : enc_func) (dec : dec_func) (kexpand : Option kexp_func)
    (hinv : ∀ x rk, dec (enc x rk) rk = x)
    (hn : nlen ≤ 128) (ha : alen ≤ MANX1_ALPHAMAX) (hm : mlen ≤ 56) :
    (manx1_enc MANX1_VARIABLE_ADLEN junk c0 k n nlen m mlen a alen enc kexpand).ret = 0 ∧
    (manx1_enc MANX1_VARIABLE_ADLEN junk c0 k n nlen m mlen a alen enc kexpand).len = 128 ∧
    (manx1_dec MANX1_VARIABLE_ADLEN junkd p0 k n nlen
      (manx1_enc MANX1_VARIABLE_ADLEN junk c0 k n nlen m mlen a alen enc kexpand).out
      (manx1_enc MANX1_VARIABLE_ADLEN junk c0 k n nlen m mlen a alen enc kexpand).len
      a alen enc dec kexpand).ret = 0 ∧
    (manx1_dec MANX1_VARIABLE_ADLEN junkd p0 k n nlen
      (manx1_enc MANX1_VARIABLE_ADLEN junk c0 k n nlen m mlen a alen enc kexpand).out
      (manx1_enc MANX1_VARIABLE_ADLEN junk c0 k n nlen m mlen a alen enc kexpand).len
      a alen enc dec kexpand).len = mlen ∧
    ∀ i, i < mlen →
      bitAt (manx1_dec MANX1_VARIABLE_ADLEN junkd p0 k n nlen
        (manx1_enc MANX1_VARIABLE_ADLEN junk c0 k n nlen m mlen a alen enc kexpand).out
        (manx1_enc MANX1_VARIABLE_ADLEN junk c0 k n nlen m mlen a alen enc kexpand).len
        a alen enc dec kexpand).out i = bitAt m i :=
  manx1_roundtrip junk junkd c0 p0 k n m a nlen mlen alen enc dec kexpand hinv hn ha (by omega)

/-- Round trip of Manx2 with variable-length AD (`MANX2_VARIABLE_ADLEN = 1`,
`MANX2_ALPHASTAR = 17`) on the lengths for which every access to the local blocks stays
inside them: `64 ≤ nlen ≤ 108`, `alen ≤ 16` and, with `r = 109 - nlen`, either
`nlen + 19 + mlen ≤ 120` (one block) or `r < mlen`, `nlen + 2 + (mlen - r) ≤ 120` and
`nlen + 19` not a multiple of 8 (two blocks). -/
theorem manx2_round_trip_variable_ad_in_bounds (junk junkd : Nat → Buf)
    (c0 p0 k n m a : Buf) (nlen mlen alen : Nat) (encrypt : enc_func) (decrypt : dec_func)
    (kexpand : kexp_func) (hinv : ∀ x rk, decrypt (encrypt x rk) rk = x)
    (hn1 : 64 ≤ nlen) (hn2 : nlen ≤ 108) (ha : alen ≤ 16)
    (hm : nlen + 19 + mlen ≤ 120 ∨
      (109 - nlen < mlen ∧ nlen + 2 + (mlen - (109 - nlen)) ≤ 120 ∧ (nlen + 19) % 8 ≠ 0)) :
    (manx2_enc 1 junk c0 k n nlen m mlen a alen encrypt kexpand).ret = 0 ∧
    (manx2_enc 1 junk c0 k n nlen m mlen a alen encrypt kexpand).len
      = (if mlen ≤ 109 - nlen then 128 else 256) ∧
    (manx2_dec 1 junkd p0 k n nlen
      (manx2_enc 1 junk c0 k n nlen m mlen a alen encrypt kexpand).out
      (manx2_enc 1 junk c0 k n nlen m mlen a alen encrypt kexpand).len
      a alen decrypt kexpand).ret = 0 ∧
    (manx2_dec 1 junkd p0 k n nlen
      (manx2_enc 1 junk c0 k n nlen m mlen a alen encrypt kexpand).out
      (manx2_enc 1 junk c0 k n nlen m mlen a alen encrypt kexpand).len
      a alen decrypt kexpand).len = mlen ∧
    ∀ i, i < mlen →
      bitAt (manx2_dec 1 junkd p0 k n nlen
        (manx2_enc 1 junk c0 k n nlen m mlen a alen encrypt kexpand).out
        (manx2_enc 1 junk c0 k n nlen m mlen a alen encrypt kexpand).len
        a alen decrypt kexpand).out i = bitAt m i := by
  have h := manx2_roundtrip 1 junk junkd c0 p0 k n m a nlen mlen alen encrypt decrypt kexpand
    hinv (by omega) hn1 (by omega) ha (fun h => absurd h (by decide)) (by omega)
  have e : 128 - (nlen + 18 + 1) = 109 - nlen := by omega
  rw [e] at h
  exact h

/-- Nonce binding of Manx2 on the one-block path, for the shipped configuration and for
variable-length AD (`vadlen ≤ 1`), on the lengths for which every store stays inside the
local block: `64 ≤ nlen`, `nlen + MANX2_ALPHASTAR + 2 < 128`, `alen ≤ 16` and
`mlen < r`.  For every block cipher whose decryption inverts its encryption, every key
and every nonce `n2` that differs from `n` at some bit below `nlen`, `manx2_enc` returns
a one-block ciphertext and `manx2_dec` under `n2` (same `nlen`, same AD) returns 2 with
`plen = 0` on it, and leaves `p` as it was. -/
theorem manx2_nonce_binding_in_bounds (vadlen : Nat) (junk junkd : Nat → Buf)
    (c0 p0 k n n2 m a : Buf) (nlen mlen alen : Nat) (encrypt : enc_func) (decrypt : dec_func)
    (kexpand : kexp_func) (hinv : ∀ x rk, decrypt (encrypt x rk) rk = x)
    (hv : vadlen ≤ 1) (hn1 : 64 ≤ nlen) (hn2 : nlen + 18 + vadlen < 128) (ha : alen ≤ 16)
    (hm : mlen < 128 - (nlen + 18 + vadlen))
    (hdiff : ∃ i, i < nlen ∧ bitAt n i ≠ bitAt n2 i) :
    (manx2_enc vadlen junk c0 k n nlen m mlen a alen encrypt kexpand).ret = 0 ∧
    (manx2_enc vadlen junk c0 k n nlen m mlen a alen encrypt kexpand).len = 128 ∧
    (manx2_dec vadlen junkd p0 k n2 nlen
      (manx2_enc vadlen junk c0 k n nlen m mlen a alen encrypt kexpand).out
      (manx2_enc vadlen junk c0 k n nlen m mlen a alen encrypt kexpand).len
      a alen decrypt kexpand).ret = 2 ∧
    (manx2_dec vadlen junkd p0 k n2 nlen
      (manx2_enc vadlen junk c0 k n nlen m mlen a alen encrypt kexpand).out
      (manx2_enc vadlen junk c0 k n nlen m mlen a alen encrypt kexpand).len
      a alen decrypt kexpand).len = 0 ∧
    (manx2_dec vadlen junkd p0 k n2 nlen
      (manx2_enc vadlen junk c0 k n nlen m mlen a alen encrypt kexpand).out
      (manx2_enc vadlen junk c0 k n nlen m mlen a alen encrypt kexpand).len
      a alen decrypt kexpand).out = p0 := by
  obtain ⟨i, hi, hne⟩ := hdiff
  have hacc := (manx2_enc_accepts_iff vadlen junk c0 k n nlen m mlen a alen encrypt kexpand hn1
    (by omega) ha).2 (by omega)
  exact ⟨hacc, manx2_nonce_bit_rejected vadlen junk junkd c0 p0 k n n2 m a nlen mlen alen encrypt
    decrypt kexpand hinv hv hn1 (by omega) ha (by omega) i hi hne⟩

/-- Ciphertext shape of Manx2 with `r = 128 - (nlen + MANX2_ALPHASTAR + 2)` read as an
integer, for the nonce lengths on which `r` is not negative: on every such input on which
`manx2_enc` returns 0, the length stored is 128 when `mlen ≤ r` and 256 when
`mlen > r`. -/
theorem manx2_ciphertext_shape_int (vadlen : Nat) (junk : Nat → Buf) (c0 k n : Buf)
    (nlen : Nat) (m : Buf) (mlen : Nat) (a : Buf) (alen : Nat) (encrypt : enc_func)
    (kexpand : kexp_func) (hn : nlen + MANX2_ALPHASTAR vadlen + 2 ≤ 128)
    (h : (manx2_enc vadlen junk c0 k n nlen m mlen a alen encrypt kexpand).ret = 0) :
    (manx2_enc vadlen junk c0 k n nlen m mlen a alen encrypt kexpand).len
      = if (mlen : Int) ≤ 128 - ((nlen : Int) + (MANX2_ALPHASTAR vadlen : Int) + 2)
        then 128 else 256 := by
  have hr := manx2_r_eq vadlen nlen hn
  unfold manx2_enc at h ⊢
  dsimp only at h ⊢
  rw [hr] at h ⊢
  split_ifs at h ⊢ <;> first | rfl | omega

/-- Admissibility checks of `manx2_enc` with the bound `128 - nlen - 2 + r` and
`r = 128 - (nlen + MANX2_ALPHASTAR + 2)` read as integers, for the nonce lengths on which
`r` is not negative: the return code is 1 if `nlen < 64`; otherwise 2 if `mlen` reaches
the bound; otherwise 3 if `alen > 16`; otherwise 0.  In each rejection the length stored
is 0. -/
theorem manx2_enc_admissibility_int (vadlen : Nat) (junk : Nat → Buf) (c0 k n : Buf)
    (nlen : Nat) (m : Buf) (mlen : Nat) (a : Buf) (alen : Nat) (encrypt : enc_func)
    (kexpand : kexp_func) (hn : nlen + MANX2_ALPHASTAR vadlen + 2 ≤ 128) :
    (manx2_enc vadlen junk c0 k n nlen m mlen a alen encrypt kexpand).ret
      = (if nlen < 64 then 1
        else if (mlen : Int) ≥ 128 - (nlen : Int) - 2
            + (128 - ((nlen : Int) + (MANX2_ALPHASTAR vadlen : Int) + 2)) then 2
        else if alen > 16 then 3
        else 0) ∧
    ((manx2_enc vadlen junk c0 k n nlen m mlen a alen encrypt kexpand).ret = 0 ∨
      (manx2_enc vadlen junk c0 k n nlen m mlen a alen encrypt kexpand).len = 0) := by
  have e : MANX2_ALPHASTAR vadlen = 16 + vadlen := rfl
  rw [e] at hn
  obtain ⟨hr, hb⟩ := manx2_bounds vadlen nlen (by omega)
  have e2 : MANX2_ALPHAMAX = 16 := rfl
  have e4 : MANX_TAU = 64 := rfl
  unfold manx2_enc
  dsimp only
  rw [hr, hb, e, e2, e4]
  push_cast
  split_ifs <;> first | rfl | omega | simp

/-- Admissibility checks of `manx1_enc` with `s = max(128 - nlen + 64, 64)`,
`v2len = s - (128 - nlen)` and the bound `128 - v2len` read as integers, for
`nlen ≤ 128`: the return code is 1 if `mlen ≥ 64`; otherwise 2 if `alen > 64`; otherwise
3 if `mlen ≥ 128 - v2len`; otherwise 0.  The length stored is 0 in each rejection and
128 on success. -/
theorem manx1_enc_admissibility_int (vadlen : Nat) (junk c0 k n : Buf) (nlen : Nat) (m : Buf)
    (mlen : Nat) (a : Buf) (alen : Nat) (enc : enc_func) (kexpand : Option kexp_func)
    (hn : nlen ≤ 128) :
    (manx1_enc vadlen junk c0 k n nlen m mlen a alen enc kexpand).ret
      = (if mlen ≥ 64 then 1
        else if alen > 64 then 2
        else if (mlen : Int) ≥ 128 - (max (128 - (nlen : Int) + 64) 64 - (128 - (nlen : Int)))
          then 3
        else 0) ∧
    (manx1_enc vadlen junk c0 k n nlen m mlen a alen enc kexpand).len
      = (if (manx1_enc vadlen junk c0 k n nlen m mlen a alen enc kexpand).ret = 0 then 128
        else 0) := by
  have hs := manx1_s_eq nlen hn
  have hv := manx1_v2len_eq nlen hn
  have e1 : BLOCKBITS - MANX_TAU = 64 := rfl
  have e2 : MANX1_ALPHAMAX = 64 := rfl
  have e3 : BLOCKBITS = 128 := rfl
  have e4 : ssub 128 64 = 64 := by decide
  have hmax : max (128 - (nlen : Int) + 64) 64 = 192 - (nlen : Int) := by
    rw [max_eq_left (by omega)]
    omega
  constructor
  · unfold manx1_enc
    dsimp only
    rw [hs, hv, e1, e2, e3, e4, hmax]
    split_ifs <;> first | rfl | omega
  · unfold manx1_enc
    dsimp only
    rw [hs, hv, e1, e2, e3, e4]
    split_ifs <;> first | rfl | (exfalso; simp at *)

/-- The one-block path of `manx2_enc` under the shipped configuration
(`MANX2_VARIABLE_ADLEN = 0`, `alen = 16`) when the terminal padding bit lies inside the
block: for every cipher `E`, key, `nlen` with `64 ≤ nlen ≤ 110` and `mlen < r = 110 - nlen`,
there is a block `T` whose 128 bits are the first 128 bits of `N || 10 || A || M || 1 || 0*`
such that `manx2_enc` returns 0 with `clen = 128` and `C = E(T)`; the octets of `c` from
16 on are as they were.  And `set_separation_domain`, on every array and cursor with
`bit < 8`, advances the cursor by exactly two bits, sets the first of the two bits when
`mlen ≤ r` and the second when `mlen = r`, and changes no other bit: on bits that are
clear, as in the block just zeroed, it leaves `10`, `11` or `00`. -/
theorem manx2_tiny_block_in_bounds (junk : Nat → Buf) (c0 k n m a : Buf) (nlen mlen : Nat)
    (encrypt : enc_func) (kexpand : kexp_func)
    (hn1 : 64 ≤ nlen) (hn2 : nlen ≤ 110) (hm : mlen < 110 - nlen) :
    (∃ T : Buf,
      (∀ p, p < 128 → bitAt T p
        = if p < nlen then bitAt n p
          else if p = nlen then true
          else if p = nlen + 1 then decide (mlen = 110 - nlen)
          else if p < nlen + 18 then bitAt a (p - (nlen + 2))
          else if p < nlen + 18 + mlen then bitAt m (p - (nlen + 18))
          else decide (p = nlen + 18 + mlen)) ∧
      (manx2_enc MANX2_VARIABLE_ADLEN junk c0 k n nlen m mlen a 16 encrypt kexpand).ret = 0 ∧
      (manx2_enc MANX2_VARIABLE_ADLEN junk c0 k n nlen m mlen a 16 encrypt kexpand).len = 128 ∧
      (∀ j (hj : j < 16),
        (manx2_enc MANX2_VARIABLE_ADLEN junk c0 k n nlen m mlen a 16 encrypt kexpand).out j
          = encrypt (rdBlock T 0) (kexpand k) ⟨j, hj⟩) ∧
      (∀ j, 16 ≤ j →
        (manx2_enc MANX2_VARIABLE_ADLEN junk c0 k n nlen m mlen a 16 encrypt kexpand).out j
          = c0 j)) ∧
    (∀ (out : Buf) (oct bit ml r : Nat), bit < 8 →
      (set_separation_domain out oct bit ml r).2.2 < 8 ∧
      8 * (set_separation_domain out oct bit ml r).2.1
        + (set_separation_domain out oct bit ml r).2.2 = 8 * oct + bit + 2 ∧
      ∀ p, bitAt (set_separation_domain out oct bit ml r).1 p
        = (bitAt out p || (decide (p = 8 * oct + bit) && decide (ml ≤ r))
            || (decide (p = 8 * oct + bit + 1) && decide (ml = r)))) := by
  refine ⟨?_, fun out oct bit ml r hb => set_separation_domain_gen out oct bit ml r hb⟩
  have hl16 : manx2_hdr_len 0 nlen 16 = nlen + 18 := by
    unfold manx2_hdr_len
    simp
  obtain ⟨hr, _⟩ := manx2_bounds 0 nlen (by omega)
  have hT := init_tiny_msg_bits 0 (junk 0) n nlen a 16 m mlen (by omega) (by omega) (by omega)
    (by rw [hl16]; omega)
  rw [hl16, hr] at hT
  have henc := manx2_enc_tiny_eq 0 junk c0 k n nlen m mlen a 16 encrypt kexpand hn1 (by omega)
    (by omega) (by omega)
  show ∃ T : Buf, _ ∧ (manx2_enc 0 junk c0 k n nlen m mlen a 16 encrypt kexpand).ret = 0 ∧
    (manx2_enc 0 junk c0 k n nlen m mlen a 16 encrypt kexpand).len = 128 ∧
    (∀ j (hj : j < 16), (manx2_enc 0 junk c0 k n nlen m mlen a 16 encrypt kexpand).out j
      = encrypt (rdBlock T 0) (kexpand k) ⟨j, hj⟩) ∧
    (∀ j, 16 ≤ j → (manx2_enc 0 junk c0 k n nlen m mlen a 16 encrypt kexpand).out j = c0 j)
  rw [henc]
  dsimp only
  refine ⟨init_tiny_msg 0 (junk 0) n nlen a 16 m mlen, ?_, rfl, rfl, ?_, ?_⟩
  · intro p hp
    rw [hT p hp]
    have e : 128 - (nlen + 18 + 0) = 110 - nlen := by omega
    rw [e]
    unfold manx2_hdr_bit
    by_cases c1 : p < nlen
    · rw [if_pos (by omega), if_pos c1, if_pos c1]
    · rw [if_neg c1]
      by_cases c2 : p = nlen
      · rw [if_pos (by omega), if_neg c1, if_pos c2, if_pos c2]
        simp [Nat.le_of_lt hm]
      · rw [if_neg c2]
        by_cases c3 : p = nlen + 1
        · rw [if_pos (by omega), if_neg c1, if_neg c2, if_pos c3, if_pos c3]
        · rw [if_neg c3]
          by_cases c4 : p < nlen + 18
          · rw [if_pos c4, if_neg c1, if_neg c2, if_neg c3, if_pos (by omega), if_pos c4]
          · rw [if_neg c4, if_neg c4, if_neg c1, if_neg c2, if_neg c3]
  · intro j hj
    have h := apply_cipher_get encrypt c0 0 (init_tiny_msg 0 (junk 0) n nlen a 16 m mlen) 0
      (kexpand k) j hj
    rw [Nat.zero_add] at h
    exact h
  · intro j hj
    exact apply_cipher_other _ _ _ _ _ _ _ (Or.inr (by omega))

/-- Codes 3 and 4 of `manx2_dec` on a two-block ciphertext (`clen = 256`), for the
shipped configuration and for variable-length AD, every `nlen` with
`nlen + MANX2_ALPHASTAR + 2 < 128`, so that the block `t` is rebuilt without a store past
its end, and `alen ≤ 16`.  With `S1 = D(C[1])`, `S2 = D(C[2])` and the expected prefix
`N' || 00 || A || 1 || 0*`, `N'` being the first `nlen` bits of `S2`: `manx2_dec` returns
3 with `plen = 0` exactly when the first `nlen + 2 + MANX2_ALPHASTAR` bits of `S1` differ
from the expected prefix, and 4 with `plen = 0` exactly when they agree and the bits
`nlen`, `nlen + 1` of `S2` are not `0, 1`. -/
theorem manx2_dec_codes_3_and_4_in_bounds (vadlen : Nat) (junk : Nat → Buf) (p0 k n c a : Buf)
    (nlen alen : Nat) (decrypt : dec_func) (kexpand : kexp_func)
    (hv : vadlen ≤ 1) (hn : nlen + MANX2_ALPHASTAR vadlen + 2 < 128)
    (ha : alen ≤ MANX2_ALPHAMAX) :
    (((manx2_dec vadlen junk p0 k n nlen c 256 a alen decrypt kexpand).ret = 3 ∧
      (manx2_dec vadlen junk p0 k n nlen c 256 a alen decrypt kexpand).len = 0)
      ↔ ¬ ∀ p, p < nlen + 2 + MANX2_ALPHASTAR vadlen →
          bitAt (apply_cipher decrypt (junk 1) 0 c 0 (kexpand k)) p
            = if p < nlen then bitAt (apply_cipher decrypt (junk 2) 0 c BLOCKBYTES (kexpand k)) p
              else if p < nlen + 2 then false
              else pad10_bit a alen (p - (nlen + 2))) ∧
    (((manx2_dec vadlen junk p0 k n nlen c 256 a alen decrypt kexpand).ret = 4 ∧
      (manx2_dec vadlen junk p0 k n nlen c 256 a alen decrypt kexpand).len = 0)
      ↔ (∀ p, p < nlen + 2 + MANX2_ALPHASTAR vadlen →
          bitAt (apply_cipher decrypt (junk 1) 0 c 0 (kexpand k)) p
            = if p < nlen then bitAt (apply_cipher decrypt (junk 2) 0 c BLOCKBYTES (kexpand k)) p
              else if p < nlen + 2 then false
              else pad10_bit a alen (p - (nlen + 2))) ∧
        ¬ (bitAt (apply_cipher decrypt (junk 2) 0 c BLOCKBYTES (kexpand k)) nlen = false ∧
          bitAt (apply_cipher decrypt (junk 2) 0 c BLOCKBYTES (kexpand k)) (nlen + 1) = true)) := by
  have hn' : nlen + 18 + vadlen ≤ 128 := by
    unfold MANX2_ALPHASTAR MANX2_ALPHAMAX at hn
    omega
  have ha' : alen ≤ 16 := ha
  obtain ⟨hh1, hh2⟩ := manx2_hdr_len_le vadlen nlen alen hv ha'
  -- the block rebuilt by `manx2_dec`, bit by bit
  have hT : ∀ (s2 : Buf) (p : Nat), p < nlen + 18 + vadlen →
      bitAt (wr (wr (init_tiny_msg vadlen (junk 0) s2 nlen a alen c 0) ((nlen + 1) / 8)
          (CLRBIT (init_tiny_msg vadlen (junk 0) s2 nlen a alen c 0 ((nlen + 1) / 8)).val
            (7 - (nlen + 1) % 8))) (nlen / 8)
        (CLRBIT (wr (init_tiny_msg vadlen (junk 0) s2 nlen a alen c 0) ((nlen + 1) / 8)
          (CLRBIT (init_tiny_msg vadlen (junk 0) s2 nlen a alen c 0 ((nlen + 1) / 8)).val
            (7 - (nlen + 1) % 8)) (nlen / 8)).val (7 - nlen % 8))) p
        = if p < nlen then bitAt s2 p
          else if p < nlen + 2 then false
          else pad10_bit a alen (p - (nlen + 2)) := by
    intro s2 p hp
    rw [bitAt_wr_CLRBIT, bitAt_wr_CLRBIT]
    by_cases c0 : p = nlen
    · have d1 : ¬ p < nlen := by omega
      have d2 : p < nlen + 2 := by omega
      rw [if_pos c0, if_neg d1, if_pos d2]
    · rw [if_neg c0]
      by_cases c1 : p = nlen + 1
      · have d1 : ¬ p < nlen := by omega
        have d2 : p < nlen + 2 := by omega
        rw [if_pos c1, if_neg d1, if_pos d2]
      · rw [if_neg c1,
          init_tiny_msg_bits vadlen _ s2 nlen a alen c 0 hv hn' ha' (by omega) p (by omega)]
        have hl : (vadlen = 0 ∧ manx2_hdr_len vadlen nlen alen = nlen + 2 + alen)
            ∨ (vadlen = 1 ∧ manx2_hdr_len vadlen nlen alen = nlen + 19) := by
          unfold manx2_hdr_len MANX2_ALPHASTAR MANX2_ALPHAMAX
          split <;> omega
        unfold manx2_hdr_bit pad10_bit
        rcases hl with ⟨hv0, hl⟩ | ⟨hv1, hl⟩
        · rw [hl]
          subst hv0
          split_ifs <;> first
            | rfl
            | omega
            | (simp only [decide_eq_decide, decide_eq_false_iff_not, Bool.false_eq,
                Bool.decide_eq_false, decide_eq_true_eq, ne_eq, not_true_eq_false, false_and,
                decide_False]
               omega)
        · rw [hl]
          subst hv1
          split_ifs <;> first
            | rfl
            | omega
            | (simp only [decide_eq_decide, decide_eq_false_iff_not, Bool.false_eq,
                Bool.decide_eq_false, decide_eq_true_eq, ne_eq, not_true_eq_false, false_and,
                decide_False]
               omega)
  have hcmp : ∀ s1 s2 : Buf,
      sec_memcmp_bits s1
        (wr (wr (init_tiny_msg vadlen (junk 0) s2 nlen a alen c 0) ((nlen + 1) / 8)
          (CLRBIT (init_tiny_msg vadlen (junk 0) s2 nlen a alen c 0 ((nlen + 1) / 8)).val
            (7 - (nlen + 1) % 8))) (nlen / 8)
        (CLRBIT (wr (init_tiny_msg vadlen (junk 0) s2 nlen a alen c 0) ((nlen + 1) / 8)
          (CLRBIT (init_tiny_msg vadlen (junk 0) s2 nlen a alen c 0 ((nlen + 1) / 8)).val
            (7 - (nlen + 1) % 8)) (nlen / 8)).val (7 - nlen % 8)))
        (nlen + 18 + vadlen) = 0
      ↔ ∀ p, p < nlen + 18 + vadlen →
          bitAt s1 p = if p < nlen then bitAt s2 p
            else if p < nlen + 2 then false
            else pad10_bit a alen (p - (nlen + 2)) := by
    intro s1 s2
    rw [sec_memcmp_bits_eq_zero_iff]
    constructor
    · intro h p hp
      rw [h p hp, hT s2 p hp]
    · intro h p hp
      rw [h p hp, hT s2 p hp]
  have hsep : ∀ s2 : Buf,
      (GETBIT (s2 (nlen / 8)).val (7 - nlen % 8) ≠ 0
        ∨ GETBIT (s2 ((nlen + 1) / 8)).val (7 - (nlen + 1) % 8) ≠ 1)
      ↔ ¬ (bitAt s2 nlen = false ∧ bitAt s2 (nlen + 1) = true) := by
    intro s2
    rw [GETBIT_bitAt, GETBIT_bitAt]
    cases bitAt s2 nlen <;> cases bitAt s2 (nlen + 1) <;> simp
  have e1 : ¬ ((256 : Nat) ≠ BLOCKBITS ∧ (256 : Nat) ≠ 2 * BLOCKBITS) := by
    simp [BLOCKBITS, BLOCKBYTES]
  have e2 : ¬ ((256 : Nat) = BLOCKBITS) := by simp [BLOCKBITS, BLOCKBYTES]
  rw [manx2_hl_eq, ← hcmp, ← hsep]
  unfold manx2_dec
  dsimp only
  rw [if_neg e1, if_neg e2, manx2_hl_eq]
  split_ifs with h3 h4
  · simp [h3]
  · have h3' := not_not.mp h3
    simp [h3', h4]
  · have h3' := not_not.mp h3
    simp [h3', h4]

/-! ## Claims -/

/-- C1 (code differs). At the second test of `test/main.c`, `(nlen, mlen, alen) =
(128, 63, 0)`, with the XOR cipher and no key schedule: `manx1_enc` returns 0; in
`manx1_dec` on its ciphertext the 64-bit comparison passes, the block `v2_tilde` handed to
`depad_10` has its padding marker at bit 127, `depad_10` returns 127 and stores at index
`(127 + 7) / 8 = 16`: the octet that follows the 16 octets of `v2_tilde`, `ff` before the
call, is `00` after it. -/
theorem C1_manx1_dec_stores_past_v2_tilde :
    (manx1_enc MANX1_VARIABLE_ADLEN zero_buf zero_buf test_key test_nonce 128 test_ptext 63
      zero_buf 0 xor_cipher none).ret = 0 ∧
    sec_memcmp_bits
      (offs (manx1_dec_blocks MANX1_VARIABLE_ADLEN (fun _ _ => 0xff) test_key test_nonce 128
        (manx1_enc MANX1_VARIABLE_ADLEN zero_buf zero_buf test_key test_nonce 128 test_ptext 63
          zero_buf 0 xor_cipher none).out zero_buf 0 xor_cipher xor_cipher none).1 BLOCKBYTES)
      (manx1_dec_blocks MANX1_VARIABLE_ADLEN (fun _ _ => 0xff) test_key test_nonce 128
        (manx1_enc MANX1_VARIABLE_ADLEN zero_buf zero_buf test_key test_nonce 128 test_ptext 63
          zero_buf 0 xor_cipher none).out zero_buf 0 xor_cipher xor_cipher none).2 64 = 0 ∧
    (depad_10
      (manx1_dec_blocks MANX1_VARIABLE_ADLEN (fun _ _ => 0xff) test_key test_nonce 128
        (manx1_enc MANX1_VARIABLE_ADLEN zero_buf zero_buf test_key test_nonce 128 test_ptext 63
          zero_buf 0 xor_cipher none).out zero_buf 0 xor_cipher xor_cipher none).2
      (manx1_dec_blocks MANX1_VARIABLE_ADLEN (fun _ _ => 0xff) test_key test_nonce 128
        (manx1_enc MANX1_VARIABLE_ADLEN zero_buf zero_buf test_key test_nonce 128 test_ptext 63
          zero_buf 0 xor_cipher none).out zero_buf 0 xor_cipher xor_cipher none).2).2 = 127 ∧
    (127 + 7) / 8 = BLOCKBYTES ∧
    (manx1_dec_blocks MANX1_VARIABLE_ADLEN (fun _ _ => 0xff) test_key test_nonce 128
      (manx1_enc MANX1_VARIABLE_ADLEN zero_buf zero_buf test_key test_nonce 128 test_ptext 63
        zero_buf 0 xor_cipher none).out zero_buf 0 xor_cipher xor_cipher none).2 16 = 0xff ∧
    (depad_10
      (manx1_dec_blocks MANX1_VARIABLE_ADLEN (fun _ _ => 0xff) test_key test_nonce 128
        (manx1_enc MANX1_VARIABLE_ADLEN zero_buf zero_buf test_key test_nonce 128 test_ptext 63
          zero_buf 0 xor_cipher none).out zero_buf 0 xor_cipher xor_cipher none).2
      (manx1_dec_blocks MANX1_VARIABLE_ADLEN (fun _ _ => 0xff) test_key test_nonce 128
        (manx1_enc MANX1_VARIABLE_ADLEN zero_buf zero_buf test_key test_nonce 128 test_ptext 63
          zero_buf 0 xor_cipher none).out zero_buf 0 xor_cipher xor_cipher none).2).1 16
      = 0x00 := by
  decide

/-- C2 (as stated, fails). Under the shipped configuration (`MANX2_VARIABLE_ADLEN = 0`), at
the Manx2 test of `test/main.c`, `(nlen, mlen, alen) = (64, 96, 0)`, with the XOR cipher
(which is its own inverse) and the identity key schedule: `manx2_enc` accepts the input
and returns a two-block ciphertext, and `manx2_dec` on that ciphertext with the same key,
nonce and AD returns 3 with `plen = 0`. -/
theorem C2_round_trip_fails_for_short_ad :
    (manx2_enc MANX2_VARIABLE_ADLEN (fun _ => zero_buf) zero_buf test_key test_nonce 64
      test_ptext 96 test_nonce 0 xor_cipher id).ret = 0 ∧
    (manx2_enc MANX2_VARIABLE_ADLEN (fun _ => zero_buf) zero_buf test_key test_nonce 64
      test_ptext 96 test_nonce 0 xor_cipher id).len = 256 ∧
    (manx2_dec MANX2_VARIABLE_ADLEN (fun _ => zero_buf) zero_buf test_key test_nonce 64
      (manx2_enc MANX2_VARIABLE_ADLEN (fun _ => zero_buf) zero_buf test_key test_nonce 64
        test_ptext 96 test_nonce 0 xor_cipher id).out
      (manx2_enc MANX2_VARIABLE_ADLEN (fun _ => zero_buf) zero_buf test_key test_nonce 64
        test_ptext 96 test_nonce 0 xor_cipher id).len
      test_nonce 0 xor_cipher id).ret = 3 ∧
    (manx2_dec MANX2_VARIABLE_ADLEN (fun _ => zero_buf) zero_buf test_key test_nonce 64
      (manx2_enc MANX2_VARIABLE_ADLEN (fun _ => zero_buf) zero_buf test_key test_nonce 64
        test_ptext 96 test_nonce 0 xor_cipher id).out
      (manx2_enc MANX2_VARIABLE_ADLEN (fun _ => zero_buf) zero_buf test_key test_nonce 64
        test_ptext 96 test_nonce 0 xor_cipher id).len
      test_nonce 0 xor_cipher id).len = 0 :=
  manx2_short_ad_rejected (fun _ => zero_buf) (fun _ => zero_buf) zero_buf zero_buf test_key
    test_nonce test_nonce test_ptext test_nonce 64 96 0 xor_cipher xor_cipher id xor_cipher_inv
    (by decide) (by decide) (by decide) (by decide) (by decide) (by decide)

/-- C2 (amended). Round trip of Manx2 under the shipped configuration
(`MANX2_VARIABLE_ADLEN = 0`, `MANX2_ALPHASTAR = 16`) for the AD length of that
configuration, `alen = 16`, on the lengths for which every access of `manx2_enc` and
`manx2_dec` to their local blocks stays inside them: `64 ≤ nlen ≤ 109` and, with
`r = 110 - nlen`, either `nlen + 18 + mlen ≤ 120` (one block, the padding marker at bit
120 at most) or `r < mlen`, `nlen + 2 + (mlen - r) ≤ 120` and `nlen + 18` not a multiple
of 8 (two blocks).  For every block cipher whose decryption inverts its encryption and
every key, `manx2_enc` returns 0 with one or two blocks, and `manx2_dec` on that
ciphertext with the same key, nonce, `nlen` and AD returns 0 with `plen = mlen` and the
first `mlen` bits of `p` equal to those of `m`. -/
theorem C2_manx2_round_trip_shipped (junk junkd : Nat → Buf) (c0 p0 k n m a : Buf)
    (nlen mlen : Nat) (encrypt : enc_func) (decrypt : dec_func) (kexpand : kexp_func)
    (hinv : ∀ x rk, decrypt (encrypt x rk) rk = x)
    (hn1 : 64 ≤ nlen) (hn2 : nlen ≤ 109)
    (hm : nlen + 18 + mlen ≤ 120 ∨
      (110 - nlen < mlen ∧ nlen + 2 + (mlen - (110 - nlen)) ≤ 120 ∧ (nlen + 18) % 8 ≠ 0)) :
    (manx2_enc MANX2_VARIABLE_ADLEN junk c0 k n nlen m mlen a 16 encrypt kexpand).ret = 0 ∧
    (manx2_enc MANX2_VARIABLE_ADLEN junk c0 k n nlen m mlen a 16 encrypt kexpand).len
      = (if mlen ≤ 110 - nlen then 128 else 256) ∧
    (manx2_dec MANX2_VARIABLE_ADLEN junkd p0 k n nlen
      (manx2_enc MANX2_VARIABLE_ADLEN junk c0 k n nlen m mlen a 16 encrypt kexpand).out
      (manx2_enc MANX2_VARIABLE_ADLEN junk c0 k n nlen m mlen a 16 encrypt kexpand).len
      a 16 decrypt kexpand).ret = 0 ∧
    (manx2_dec MANX2_VARIABLE_ADLEN junkd p0 k n nlen
      (manx2_enc MANX2_VARIABLE_ADLEN junk c0 k n nlen m mlen a 16 encrypt kexpand).out
      (manx2_enc MANX2_VARIABLE_ADLEN junk c0 k n nlen m mlen a 16 encrypt kexpand).len
      a 16 decrypt kexpand).len = mlen ∧
    ∀ i, i < mlen →
      bitAt (manx2_dec MANX2_VARIABLE_ADLEN junkd p0 k n nlen
        (manx2_enc MANX2_VARIABLE_ADLEN junk c0 k n nlen m mlen a 16 encrypt kexpand).out
        (manx2_enc MANX2_VARIABLE_ADLEN junk c0 k n nlen m mlen a 16 encrypt kexpand).len
        a 16 decrypt kexpand).out i = bitAt m i := by
  have h := manx2_roundtrip 0 junk junkd c0 p0 k n m a nlen mlen 16 encrypt decrypt kexpand hinv
    (by omega) hn1 (by omega) (by omega) (fun _ => rfl) (by omega)
  have e : 128 - (nlen + 18 + 0) = 110 - nlen := by omega
  rw [e] at h
  exact h

/-- Witness of C2 (amended) at `(nlen, mlen, alen) = (64, 96, 16)` with the data of
`test/main.c` and the XOR cipher: two blocks, the marker of the second at bit 116. -/
theorem C2_manx2_round_trip_shipped_witness :
    (∀ x rk, xor_cipher (xor_cipher x rk) rk = x) ∧ 64 ≤ 64 ∧ 64 ≤ 109 ∧
    (64 + 18 + 96 ≤ 120 ∨
      (110 - 64 < 96 ∧ 64 + 2 + (96 - (110 - 64)) ≤ 120 ∧ (64 + 18) % 8 ≠ 0)) ∧
    (manx2_dec MANX2_VARIABLE_ADLEN (fun _ => zero_buf) zero_buf test_key test_nonce 64
      (manx2_enc MANX2_VARIABLE_ADLEN (fun _ => zero_buf) zero_buf test_key test_nonce 64
        test_ptext 96 test_nonce 16 xor_cipher id).out
      (manx2_enc MANX2_VARIABLE_ADLEN (fun _ => zero_buf) zero_buf test_key test_nonce 64
        test_ptext 96 test_nonce 16 xor_cipher id).len
      test_nonce 16 xor_cipher id).len = 96 :=
  ⟨xor_cipher_inv, by decide, by decide, by decide,
    (C2_manx2_round_trip_shipped (fun _ => zero_buf) (fun _ => zero_buf) zero_buf zero_buf
      test_key test_nonce test_ptext test_nonce 64 96 xor_cipher xor_cipher id xor_cipher_inv
      (by decide) (by decide) (by decide)).2.2.2.1⟩

/-- C3 (code differs). With variable-length AD (`MANX2_VARIABLE_ADLEN = 1`), the data of
`test/main.c` and a block `t` followed in memory by a zero octet.  At `nlen = 64`,
`alen = 0`, `mlen = r = 45`, an input that `manx2_enc` accepts, `init_tiny_msg` leaves `80`
at index 16 of `t`: the terminal padding bit is set one octet past the block.  At
`nlen = 109`, where `nlen + MANX2_ALPHASTAR + 2 = 128`, the call of `manx2_dec`
(`mlen = 0`) does the same. -/
theorem C3_variable_ad_stores_past_t :
    ssub BLOCKBITS (64 + MANX2_ALPHASTAR 1 + 2) = 45 ∧
    (manx2_enc 1 (fun _ => zero_buf) zero_buf test_key test_nonce 64 test_ptext 45 test_nonce 0
      xor_cipher id).ret = 0 ∧
    zero_buf 16 = 0x00 ∧
    init_tiny_msg 1 zero_buf test_nonce 64 test_nonce 0 test_ptext 45 16 = 0x80 ∧
    109 + MANX2_ALPHASTAR 1 + 2 = 128 ∧
    init_tiny_msg 1 zero_buf test_key 109 test_nonce 3 zero_buf 0 16 = 0x80 := by
  decide

/-- C4 (code differs). Under the shipped configuration with `alen = 16`, the data of
`test/main.c` and the XOR cipher.  At `nlen = 96`, `mlen = r = 14` (exact fill), an input
that `manx2_enc` accepts, `init_tiny_msg` leaves `80` at index 16 of a block `t` followed
in memory by a zero octet.  At `nlen = 64`, `mlen = 40`, `manx2_enc` returns 0 and, in
`manx2_dec` on its ciphertext, the block `s1` handed to `depad_10` has its padding marker
at bit `64 + 18 + 40 = 122`: `depad_10` returns 122 and stores at index
`(122 + 7) / 8 = 16`, and the octet that follows the 16 octets of `s1`, `ff` before the
call, is not `ff` after it. -/
theorem C4_fixed_ad_stores_past_t_and_s1 :
    ssub BLOCKBITS (96 + MANX2_ALPHASTAR MANX2_VARIABLE_ADLEN + 2) = 14 ∧
    (manx2_enc MANX2_VARIABLE_ADLEN (fun _ => zero_buf) zero_buf test_key test_nonce 96
      test_ptext 14 test_nonce 16 xor_cipher id).ret = 0 ∧
    zero_buf 16 = 0x00 ∧
    init_tiny_msg MANX2_VARIABLE_ADLEN zero_buf test_nonce 96 test_nonce 16 test_ptext 14 16
      = 0x80 ∧
    (manx2_enc MANX2_VARIABLE_ADLEN (fun _ => zero_buf) zero_buf test_key test_nonce 64
      test_ptext 40 test_nonce 16 xor_cipher id).ret = 0 ∧
    (depad_10
      (manx2_dec_tiny_blocks MANX2_VARIABLE_ADLEN (fun _ _ => 0xff) test_key test_nonce 64
        (manx2_enc MANX2_VARIABLE_ADLEN (fun _ => zero_buf) zero_buf test_key test_nonce 64
          test_ptext 40 test_nonce 16 xor_cipher id).out test_nonce 16 xor_cipher id).1
      (manx2_dec_tiny_blocks MANX2_VARIABLE_ADLEN (fun _ _ => 0xff) test_key test_nonce 64
        (manx2_enc MANX2_VARIABLE_ADLEN (fun _ => zero_buf) zero_buf test_key test_nonce 64
          test_ptext 40 test_nonce 16 xor_cipher id).out test_nonce 16 xor_cipher id).1).2
      = 122 ∧
    (122 + 7) / 8 = BLOCKBYTES ∧
    (manx2_dec_tiny_blocks MANX2_VARIABLE_ADLEN (fun _ _ => 0xff) test_key test_nonce 64
      (manx2_enc MANX2_VARIABLE_ADLEN (fun _ => zero_buf) zero_buf test_key test_nonce 64
        test_ptext 40 test_nonce 16 xor_cipher id).out test_nonce 16 xor_cipher id).1 16
      = 0xff ∧
    (depad_10
      (manx2_dec_tiny_blocks MANX2_VARIABLE_ADLEN (fun _ _ => 0xff) test_key test_nonce 64
        (manx2_enc MANX2_VARIABLE_ADLEN (fun _ => zero_buf) zero_buf test_key test_nonce 64
          test_ptext 40 test_nonce 16 xor_cipher id).out test_nonce 16 xor_cipher id).1
      (manx2_dec_tiny_blocks MANX2_VARIABLE_ADLEN (fun _ _ => 0xff) test_key test_nonce 64
        (manx2_enc MANX2_VARIABLE_ADLEN (fun _ => zero_buf) zero_buf test_key test_nonce 64
          test_ptext 40 test_nonce 16 xor_cipher id).out test_nonce 16 xor_cipher id).1).1 16
      ≠ 0xff := by
  decide

/-- C5 (code differs). Under the shipped configuration at `nlen = 112`, `mlen = 3`,
`alen = 4`, where `r = 128 - (nlen + MANX2_ALPHASTAR + 2) = -2` is below `mlen`:
`manx2_enc` returns 0 with the length 128, not 256, because the `size_t` value of `r` is
`2 ^ 64 - 2`.  The block built has `112 + 2 + 4 + 3 = 121` bits before its padding bit:
the octet after it, `ff` before, is `ff` after `init_tiny_msg`. -/
theorem C5_shape_with_wrapped_r :
    (manx2_enc MANX2_VARIABLE_ADLEN (fun _ => zero_buf) zero_buf test_key test_nonce 112
      test_ptext 3 test_nonce 4 xor_cipher id).ret = 0 ∧
    (manx2_enc MANX2_VARIABLE_ADLEN (fun _ => zero_buf) zero_buf test_key test_nonce 112
      test_ptext 3 test_nonce 4 xor_cipher id).len = 128 ∧
    (128 : Int) - (112 + MANX2_ALPHASTAR MANX2_VARIABLE_ADLEN + 2) = -2 ∧
    ssub BLOCKBITS (112 + MANX2_ALPHASTAR MANX2_VARIABLE_ADLEN + 2) = 2 ^ 64 - 2 ∧
    init_tiny_msg MANX2_VARIABLE_ADLEN (fun _ => 0xff) test_nonce 112 test_nonce 4 test_ptext 3
      16 = 0xff := by
  decide

/-- C6 (code differs). At `nlen = 200`, `mlen = 10`, `alen = 0`: the sum
`128 - nlen + 64` wraps around, so `manx1_enc` computes `s = 2 ^ 64 - 8` and the bound
`128 - v2len = 64` of its third check, where the integers give `s = 64` and the bound
`-8`, which `mlen` reaches: `manx1_enc` does not return 3.  It goes on to pad the AD with
`inc_bitpos(&oct, &bit, s - alen)`, whose `int` argument is `-8`, and the cursor at which
the message is then stored is octet `2 ^ 61 + 24` of the 32-octet array `v`. -/
theorem C6_wrapped_s_passes_third_check :
    MAX (sadd (ssub BLOCKBITS 200) MANX_TAU) MANX1_ALPHAMAX = 2 ^ 64 - 8 ∧
    ssub BLOCKBITS (ssub (MAX (sadd (ssub BLOCKBITS 200) MANX_TAU) MANX1_ALPHAMAX)
      (ssub BLOCKBITS 200)) = 64 ∧
    (128 : Int) - (max (128 - 200 + 64) 64 - (128 - 200)) = -8 ∧
    (manx1_enc MANX1_VARIABLE_ADLEN zero_buf zero_buf test_key test_nonce 200 test_ptext 10
      zero_buf 0 xor_cipher none).ret ≠ 3 ∧
    to_int (ssub (2 ^ 64 - 8) 0) = -8 ∧
    (manx1_vencode MANX1_VARIABLE_ADLEN zero_buf (2 ^ 64 - 8) test_nonce 200 zero_buf 0).2
      = (2 ^ 61 + 24, 0) := by
  refine ⟨by decide, by decide, by decide, by decide, by decide, ?_⟩
  have e1 : (concat_bits (zeroed (2 * BLOCKBYTES) zero_buf) 0 0 test_nonce 200).2 = (25, 0) := by
    rw [concat_bits_cursor]
  have e2 : (concat_bits (concat_bits (zeroed (2 * BLOCKBYTES) zero_buf) 0 0 test_nonce 200).1
      25 0 zero_buf 0).2 = (25, 0) := by
    rw [concat_bits_cursor]
  have e3 : to_int (ssub (2 ^ 64 - 8) 0) = -8 := by decide
  have e4 : inc_bitpos 25 0 (-8) = (2 ^ 61 + 24, 0) := by
    unfold inc_bitpos
    have : ((((0 : Nat) : Int) + (-8)) % (SZ : Int)).toNat = 2 ^ 64 - 8 := by decide
    rw [this, inc_bitpos_loop_eq _ _ _ (Nat.div_le_self _ _)]
    decide
  have h1 : (concat_bits (zeroed (2 * BLOCKBYTES) zero_buf) 0 0 test_nonce 200).2.1 = 25 := by
    rw [e1]
  have h2 : (concat_bits (zeroed (2 * BLOCKBYTES) zero_buf) 0 0 test_nonce 200).2.2 = 0 := by
    rw [e1]
  unfold manx1_vencode
  dsimp only
  rw [if_pos (by decide), h1, h2]
  have h3 : (concat_bits (concat_bits (zeroed (2 * BLOCKBYTES) zero_buf) 0 0 test_nonce 200).1
      25 0 zero_buf 0).2.1 = 25 := by rw [e2]
  have h4 : (concat_bits (concat_bits (zeroed (2 * BLOCKBYTES) zero_buf) 0 0 test_nonce 200).1
      25 0 zero_buf 0).2.2 = 0 := by rw [e2]
  rw [h3, h4, e3, e4]

/-- C7 (code differs). Under the shipped configuration at `nlen = 119`, `mlen = 0`,
`alen = 0`, where the bound `128 - nlen - 2 + r` with `r = 128 - (nlen + MANX2_ALPHASTAR
+ 2)` is `-2` and `mlen` reaches it: `manx2_enc` returns 0, not 2, because the `size_t`
value of the bound is `2 ^ 64 - 2`.  The block built has `119 + 2 = 121` bits before its
padding bit: the octet after it, `ff` before, is `ff` after `init_tiny_msg`. -/
theorem C7_code_2_not_returned :
    (manx2_enc MANX2_VARIABLE_ADLEN (fun _ => zero_buf) zero_buf test_key test_nonce 119
      test_ptext 0 test_nonce 0 xor_cipher id).ret = 0 ∧
    (128 : Int) - 119 - 2 + (128 - (119 + MANX2_ALPHASTAR MANX2_VARIABLE_ADLEN + 2)) = -2 ∧
    sadd (ssub (ssub BLOCKBITS 119) 2)
      (ssub BLOCKBITS (119 + MANX2_ALPHASTAR MANX2_VARIABLE_ADLEN + 2)) = 2 ^ 64 - 2 ∧
    init_tiny_msg MANX2_VARIABLE_ADLEN (fun _ => 0xff) test_nonce 119 test_nonce 0 test_ptext 0
      16 = 0xff := by
  decide

/-- C8. Shape checks of `manx1_dec`, for every input: it returns 1 with `plen = 0` when
`clen ≠ 128`; it returns 2 with `plen = 0` when `clen = 128` and `alen > 64`; and it
returns neither 1 nor 2 when `clen = 128` and `alen ≤ 64`. -/
theorem C8_manx1_dec_shape_checks (vadlen : Nat) (junk : Nat → Buf) (p0 k n : Buf) (nlen : Nat)
    (c : Buf) (clen : Nat) (a : Buf) (alen : Nat) (enc : enc_func) (dec : dec_func)
    (kexpand : Option kexp_func) :
    if clen ≠ 128 then
      (manx1_dec vadlen junk p0 k n nlen c clen a alen enc dec kexpand).ret = 1 ∧
      (manx1_dec vadlen junk p0 k n nlen c clen a alen enc dec kexpand).len = 0
    else if alen > 64 then
      (manx1_dec vadlen junk p0 k n nlen c clen a alen enc dec kexpand).ret = 2 ∧
      (manx1_dec vadlen junk p0 k n nlen c clen a alen enc dec kexpand).len = 0
    else
      (manx1_dec vadlen junk p0 k n nlen c clen a alen enc dec kexpand).ret ≠ 1 ∧
      (manx1_dec vadlen junk p0 k n nlen c clen a alen enc dec kexpand).ret ≠ 2 := by
  have e2 : MANX1_ALPHAMAX = 64 := rfl
  have e3 : BLOCKBITS = 128 := rfl
  unfold manx1_dec
  dsimp only
  rw [e2, e3]
  split_ifs <;> simp

/-- C9. Shape check of `manx2_dec`, for every input: it returns 1 with `plen = 0` if and
only if `clen` is neither 128 nor 256. -/
theorem C9_manx2_dec_shape_check (vadlen : Nat) (junk : Nat → Buf) (p0 k n : Buf) (nlen : Nat)
    (c : Buf) (clen : Nat) (a : Buf) (alen : Nat) (decrypt : dec_func) (kexpand : kexp_func) :
    ((manx2_dec vadlen junk p0 k n nlen c clen a alen decrypt kexpand).ret = 1 ∧
      (manx2_dec vadlen junk p0 k n nlen c clen a alen decrypt kexpand).len = 0)
      ↔ (clen ≠ 128 ∧ clen ≠ 256) := by
  have e3 : BLOCKBITS = 128 := rfl
  unfold manx2_dec
  dsimp only
  rw [e3]
  split_ifs <;> simp_all

/-- C10 (code differs). On the block whose only set bit is the coefficient of `α^31`, the
function `doubling` returns `α^32 + 1`, while the product by `α` is `α^32`: the lowest
word takes the top bit of octet 3 as carry-in. -/
theorem C10_doubling_bit31 :
    le128 doubling_bug_input = 2 ^ 31 ∧
    le128 (doubling doubling_bug_input) = 2 ^ 32 + 1 ∧
    doubling_spec (le128 doubling_bug_input) = 2 ^ 32 := by
  decide

/-- C11 (as stated, fails). Two accepted forgeries of the AD under Manx1, with the data
of `test/main.c`, the XOR cipher (which is its own inverse) and no key schedule.
First, `nlen = 96`, `mlen = 30`: the 8-bit ADs `00` and `2b` differ at bit 2, the
difference lies in the first block, and `manx1_dec` under `2b` returns 0 with
`plen = 30` on the ciphertext made under `00`.  Second, `nlen = 128`: the 64-bit AD
`00 01 02 03 04 05 06 07` and its first 63 bits differ in length, the last bit of the
first is 1 and sits where the padding bit of the second goes, and `manx1_dec` under the
63-bit AD returns 0 with `plen = 30` on the ciphertext made under the 64-bit AD. -/
theorem C11_ad_binding_fails :
    (∀ x rk, xor_cipher (xor_cipher x rk) rk = x) ∧
    bitAt test_nonce 2 ≠ bitAt test_key 2 ∧
    (manx1_enc MANX1_VARIABLE_ADLEN zero_buf zero_buf test_key test_nonce 96 test_ptext 30
      test_nonce 8 xor_cipher none).ret = 0 ∧
    (manx1_dec MANX1_VARIABLE_ADLEN (fun _ => zero_buf) zero_buf test_key test_nonce 96
      (manx1_enc MANX1_VARIABLE_ADLEN zero_buf zero_buf test_key test_nonce 96 test_ptext 30
        test_nonce 8 xor_cipher none).out
      (manx1_enc MANX1_VARIABLE_ADLEN zero_buf zero_buf test_key test_nonce 96 test_ptext 30
        test_nonce 8 xor_cipher none).len
      test_key 8 xor_cipher xor_cipher none).ret = 0 ∧
    (manx1_dec MANX1_VARIABLE_ADLEN (fun _ => zero_buf) zero_buf test_key test_nonce 96
      (manx1_enc MANX1_VARIABLE_ADLEN zero_buf zero_buf test_key test_nonce 96 test_ptext 30
        test_nonce 8 xor_cipher none).out
      (manx1_enc MANX1_VARIABLE_ADLEN zero_buf zero_buf test_key test_nonce 96 test_ptext 30
        test_nonce 8 xor_cipher none).len
      test_key 8 xor_cipher xor_cipher none).len = 30 ∧
    (manx1_enc MANX1_VARIABLE_ADLEN zero_buf zero_buf test_key test_nonce 128 test_ptext 30
      test_nonce 64 xor_cipher none).ret = 0 ∧
    (manx1_dec MANX1_VARIABLE_ADLEN (fun _ => zero_buf) zero_buf test_key test_nonce 128
      (manx1_enc MANX1_VARIABLE_ADLEN zero_buf zero_buf test_key test_nonce 128 test_ptext 30
        test_nonce 64 xor_cipher none).out
      (manx1_enc MANX1_VARIABLE_ADLEN zero_buf zero_buf test_key test_nonce 128 test_ptext 30
        test_nonce 64 xor_cipher none).len
      test_nonce 63 xor_cipher xor_cipher none).ret = 0 ∧
    (manx1_dec MANX1_VARIABLE_ADLEN (fun _ => zero_buf) zero_buf test_key test_nonce 128
      (manx1_enc MANX1_VARIABLE_ADLEN zero_buf zero_buf test_key test_nonce 128 test_ptext 30
        test_nonce 64 xor_cipher none).out
      (manx1_enc MANX1_VARIABLE_ADLEN zero_buf zero_buf test_key test_nonce 128 test_ptext 30
        test_nonce 64 xor_cipher none).len
      test_nonce 63 xor_cipher xor_cipher none).len = 30 := by
  have hA := manx1_xor_cipher_accepts zero_buf (fun _ => zero_buf) zero_buf zero_buf test_key
    test_nonce test_ptext test_nonce test_key 96 30 8 8 none (by decide) (by decide) (by decide)
    (by decide) (fun q h1 h2 => by
      unfold pad10_bit
      rw [if_neg (by omega), if_neg (by omega)])
  have hB := (manx1_dec_other_ad zero_buf (fun _ => zero_buf) zero_buf zero_buf test_key
    test_nonce test_ptext test_nonce test_nonce 128 30 64 63 xor_cipher xor_cipher none
    xor_cipher_inv (by decide) (by decide) (by decide) (by decide)
    (fun q hq => absurd hq (by omega))).2 (fun q _ h2 => by
      unfold pad10_bit
      by_cases c : q < 63
      · rw [if_pos (by omega), if_pos c]
      · have e : q = 63 := by omega
        subst e
        decide)
  exact ⟨xor_cipher_inv, by decide,
    (manx1_roundtrip zero_buf (fun _ => zero_buf) zero_buf zero_buf test_key test_nonce
      test_ptext test_nonce 96 30 8 xor_cipher xor_cipher none xor_cipher_inv (by decide)
      (by decide) (by decide)).1,
    hA.1, hA.2.1,
    (manx1_roundtrip zero_buf (fun _ => zero_buf) zero_buf zero_buf test_key test_nonce
      test_ptext test_nonce 128 30 64 xor_cipher xor_cipher none xor_cipher_inv (by decide)
      (by decide) (by decide)).1,
    hB.1, hB.2.1⟩

/-- C11 (amended). AD binding of Manx1 (`MANX1_VARIABLE_ADLEN = 1`): for every block
cipher whose decryption inverts its encryption, every key and key schedule, every nonce
with `nlen ≤ 128`, every message with `mlen < 64` and every two ADs `(a, alen)`,
`(a2, alen2)` with `alen, alen2 ≤ 64` whose padded forms `A || 1 || 0*` agree on their
first `128 - nlen` bits (the part that `V[1]` carries after the nonce) and differ
somewhere in the next 64 bits (the part of `V[2]` that `manx1_dec` compares),
`manx1_dec` under `(a2, alen2)` on the ciphertext that `manx1_enc` made under `(a, alen)`
returns 3 with `plen = 0`, and leaves `p` as it was. -/
theorem C11_manx1_ad_binding (junk : Buf) (junkd : Nat → Buf) (c0 p0 k n m a a2 : Buf)
    (nlen mlen alen alen2 : Nat) (enc : enc_func) (dec : dec_func) (kexpand : Option kexp_func)
    (hinv : ∀ x rk, dec (enc x rk) rk = x)
    (hn : nlen ≤ 128) (ha : alen ≤ MANX1_ALPHAMAX) (ha2 : alen2 ≤ MANX1_ALPHAMAX)
    (hm : mlen < 64)
    (h1 : ∀ q, q < 128 - nlen → pad10_bit a alen q = pad10_bit a2 alen2 q)
    (h2 : ∃ q, 128 - nlen ≤ q ∧ q < 192 - nlen ∧ pad10_bit a alen q ≠ pad10_bit a2 alen2 q) :
    (manx1_dec MANX1_VARIABLE_ADLEN junkd p0 k n nlen
      (manx1_enc MANX1_VARIABLE_ADLEN junk c0 k n nlen m mlen a alen enc kexpand).out
      (manx1_enc MANX1_VARIABLE_ADLEN junk c0 k n nlen m mlen a alen enc kexpand).len
      a2 alen2 enc dec kexpand).ret = 3 ∧
    (manx1_dec MANX1_VARIABLE_ADLEN junkd p0 k n nlen
      (manx1_enc MANX1_VARIABLE_ADLEN junk c0 k n nlen m mlen a alen enc kexpand).out
      (manx1_enc MANX1_VARIABLE_ADLEN junk c0 k n nlen m mlen a alen enc kexpand).len
      a2 alen2 enc dec kexpand).len = 0 ∧
    (manx1_dec MANX1_VARIABLE_ADLEN junkd p0 k n nlen
      (manx1_enc MANX1_VARIABLE_ADLEN junk c0 k n nlen m mlen a alen enc kexpand).out
      (manx1_enc MANX1_VARIABLE_ADLEN junk c0 k n nlen m mlen a alen enc kexpand).len
      a2 alen2 enc dec kexpand).out = p0 :=
  (manx1_dec_other_ad junk junkd c0 p0 k n m a a2 nlen mlen alen alen2 enc dec kexpand hinv hn
    ha ha2 hm h1).1 h2

/-- Witness of C11 (amended) at the first test of `test/main.c`,
`(nlen, mlen, alen) = (96, 30, 64)`, with the XOR cipher: decryption under the first 40
bits of the AD, which agree with the 64-bit AD on the 32 bits of the first block and
differ from it at bit 40 (a bit of the AD against the padding bit), returns 3. -/
theorem C11_manx1_ad_binding_witness :
    (∀ x rk, xor_cipher (xor_cipher x rk) rk = x) ∧ 96 ≤ 128 ∧ 64 ≤ MANX1_ALPHAMAX ∧
    40 ≤ MANX1_ALPHAMAX ∧ 30 < 64 ∧
    (∀ q, q < 128 - 96 → pad10_bit test_nonce 64 q = pad10_bit test_nonce 40 q) ∧
    (∃ q, 128 - 96 ≤ q ∧ q < 192 - 96 ∧ pad10_bit test_nonce 64 q ≠ pad10_bit test_nonce 40 q) ∧
    (manx1_dec MANX1_VARIABLE_ADLEN (fun _ => zero_buf) zero_buf test_key test_nonce 96
      (manx1_enc MANX1_VARIABLE_ADLEN zero_buf zero_buf test_key test_nonce 96 test_ptext 30
        test_nonce 64 xor_cipher none).out
      (manx1_enc MANX1_VARIABLE_ADLEN zero_buf zero_buf test_key test_nonce 96 test_ptext 30
        test_nonce 64 xor_cipher none).len
      test_nonce 40 xor_cipher xor_cipher none).ret = 3 :=
  ⟨xor_cipher_inv, by decide, by decide, by decide, by decide,
    fun q hq => by unfold pad10_bit; rw [if_pos (by omega), if_pos (by omega)],
    ⟨40, by decide, by decide, by decide⟩,
    (C11_manx1_ad_binding zero_buf (fun _ => zero_buf) zero_buf zero_buf test_key test_nonce
      test_ptext test_nonce test_nonce 96 30 64 40 xor_cipher xor_cipher none xor_cipher_inv
      (by decide) (by decide) (by decide) (by decide)
      (fun q hq => by unfold pad10_bit; rw [if_pos (by omega), if_pos (by omega)])
      ⟨40, by decide, by decide, by decide⟩).1⟩

/-- C12 (as stated, fails). Under the shipped configuration (`MANX2_VARIABLE_ADLEN = 0`),
with the data of `test/main.c`, `nlen = 64`, `mlen = 30`, the XOR cipher (which is its own
inverse) and the identity key schedule: the 16-bit AD `80 00` and the empty AD differ in
length, `manx2_enc` under the first returns a one-block ciphertext, and `manx2_dec` under
the empty AD returns 0 with `plen = 30` on it. -/
theorem C12_ad_binding_fails_for_unequal_lengths :
    (∀ x rk, xor_cipher (xor_cipher x rk) rk = x) ∧
    (manx2_enc MANX2_VARIABLE_ADLEN (fun _ => zero_buf) zero_buf test_key test_nonce 64
      test_ptext 30 ad_marker16 16 xor_cipher id).ret = 0 ∧
    (manx2_enc MANX2_VARIABLE_ADLEN (fun _ => zero_buf) zero_buf test_key test_nonce 64
      test_ptext 30 ad_marker16 16 xor_cipher id).len = 128 ∧
    (manx2_dec MANX2_VARIABLE_ADLEN (fun _ => zero_buf) zero_buf test_key test_nonce 64
      (manx2_enc MANX2_VARIABLE_ADLEN (fun _ => zero_buf) zero_buf test_key test_nonce 64
        test_ptext 30 ad_marker16 16 xor_cipher id).out
      (manx2_enc MANX2_VARIABLE_ADLEN (fun _ => zero_buf) zero_buf test_key test_nonce 64
        test_ptext 30 ad_marker16 16 xor_cipher id).len
      zero_buf 0 xor_cipher id).ret = 0 ∧
    (manx2_dec MANX2_VARIABLE_ADLEN (fun _ => zero_buf) zero_buf test_key test_nonce 64
      (manx2_enc MANX2_VARIABLE_ADLEN (fun _ => zero_buf) zero_buf test_key test_nonce 64
        test_ptext 30 ad_marker16 16 xor_cipher id).out
      (manx2_enc MANX2_VARIABLE_ADLEN (fun _ => zero_buf) zero_buf test_key test_nonce 64
        test_ptext 30 ad_marker16 16 xor_cipher id).len
      zero_buf 0 xor_cipher id).len = 30 := by
  have h := manx2_fixed_ad_collision (fun _ => zero_buf) (fun _ => zero_buf) zero_buf zero_buf
    test_key test_nonce test_ptext ad_marker16 zero_buf 64 30 xor_cipher xor_cipher id
    xor_cipher_inv (by decide) (by decide) (by decide) (by decide)
  exact ⟨xor_cipher_inv, h.1, h.2.1, h.2.2.1, h.2.2.2.1⟩

/-- C12 (amended). AD binding of Manx2 under the shipped configuration
(`MANX2_VARIABLE_ADLEN = 0`) for two ADs of the same length `alen ≤ 16`, on lengths for
which every store of `manx2_enc` and `manx2_dec` stays inside the local block:
`64 ≤ nlen ≤ 109` and, with `r = 110 - nlen`, `mlen < r` (one block) or
`r < mlen < 126 - nlen + r` (two blocks).  For every block cipher whose decryption
inverts its encryption, every key and every AD `a2` that differs from `a` at some bit
below `alen`, `manx2_dec` under `(a2, alen)` on the ciphertext that `manx2_enc` made
under `(a, alen)` returns 2 when the ciphertext has one block and 3 when it has two, with
`plen = 0`, and leaves `p` as it was. -/
theorem C12_manx2_ad_binding_equal_lengths (junk junkd : Nat → Buf) (c0 p0 k n m a a2 : Buf)
    (nlen mlen alen : Nat) (encrypt : enc_func) (decrypt : dec_func) (kexpand : kexp_func)
    (hinv : ∀ x rk, decrypt (encrypt x rk) rk = x)
    (hn1 : 64 ≤ nlen) (hn2 : nlen ≤ 109) (ha : alen ≤ 16)
    (hm : mlen < 110 - nlen ∨ (110 - nlen < mlen ∧ mlen < 126 - nlen + (110 - nlen)))
    (hdiff : ∃ i, i < alen ∧ bitAt a i ≠ bitAt a2 i) :
    (manx2_enc MANX2_VARIABLE_ADLEN junk c0 k n nlen m mlen a alen encrypt kexpand).ret = 0 ∧
    (manx2_enc MANX2_VARIABLE_ADLEN junk c0 k n nlen m mlen a alen encrypt kexpand).len
      = (if mlen ≤ 110 - nlen then 128 else 256) ∧
    (manx2_dec MANX2_VARIABLE_ADLEN junkd p0 k n nlen
      (manx2_enc MANX2_VARIABLE_ADLEN junk c0 k n nlen m mlen a alen encrypt kexpand).out
      (manx2_enc MANX2_VARIABLE_ADLEN junk c0 k n nlen m mlen a alen encrypt kexpand).len
      a2 alen decrypt kexpand).ret = (if mlen ≤ 110 - nlen then 2 else 3) ∧
    (manx2_dec MANX2_VARIABLE_ADLEN junkd p0 k n nlen
      (manx2_enc MANX2_VARIABLE_ADLEN junk c0 k n nlen m mlen a alen encrypt kexpand).out
      (manx2_enc MANX2_VARIABLE_ADLEN junk c0 k n nlen m mlen a alen encrypt kexpand).len
      a2 alen decrypt kexpand).len = 0 ∧
    (manx2_dec MANX2_VARIABLE_ADLEN junkd p0 k n nlen
      (manx2_enc MANX2_VARIABLE_ADLEN junk c0 k n nlen m mlen a alen encrypt kexpand).out
      (manx2_enc MANX2_VARIABLE_ADLEN junk c0 k n nlen m mlen a alen encrypt kexpand).len
      a2 alen decrypt kexpand).out = p0 := by
  obtain ⟨i, hi, hne⟩ := hdiff
  have hacc := (manx2_enc_accepts_iff 0 junk c0 k n nlen m mlen a alen encrypt kexpand hn1
    (by omega) ha).2 (by omega)
  have h := manx2_ad_bit_rejected 0 junk junkd c0 p0 k n m a a2 nlen mlen alen encrypt decrypt
    kexpand hinv (by omega) hn1 (by omega) ha (by omega) i hi hne
  have e : 128 - (nlen + 18 + 0) = 110 - nlen := by omega
  rw [e] at h
  exact ⟨hacc, h⟩

/-- Witness of C12 (amended) at the Manx2 test of `test/main.c` with a 16-bit AD,
`(nlen, mlen, alen) = (64, 96, 16)`, and the XOR cipher: the ADs `00 01` and `2b 7e`
differ at bit 2, the ciphertext has two blocks and decryption under `2b 7e` returns 3. -/
theorem C12_manx2_ad_binding_equal_lengths_witness :
    (∀ x rk, xor_cipher (xor_cipher x rk) rk = x) ∧ 64 ≤ 64 ∧ 64 ≤ 109 ∧ 16 ≤ 16 ∧
    (96 < 110 - 64 ∨ (110 - 64 < 96 ∧ 96 < 126 - 64 + (110 - 64))) ∧
    (∃ i, i < 16 ∧ bitAt test_nonce i ≠ bitAt test_key i) ∧
    (manx2_dec MANX2_VARIABLE_ADLEN (fun _ => zero_buf) zero_buf test_key test_nonce 64
      (manx2_enc MANX2_VARIABLE_ADLEN (fun _ => zero_buf) zero_buf test_key test_nonce 64
        test_ptext 96 test_nonce 16 xor_cipher id).out
      (manx2_enc MANX2_VARIABLE_ADLEN (fun _ => zero_buf) zero_buf test_key test_nonce 64
        test_ptext 96 test_nonce 16 xor_cipher id).len
      test_key 16 xor_cipher id).ret = (if 96 ≤ 110 - 64 then 2 else 3) :=
  ⟨xor_cipher_inv, by decide, by decide, by decide, by decide, ⟨2, by decide, by decide⟩,
    (C12_manx2_ad_binding_equal_lengths (fun _ => zero_buf) (fun _ => zero_buf) zero_buf
      zero_buf test_key test_nonce test_ptext test_nonce test_key 64 96 16 xor_cipher xor_cipher
      id xor_cipher_inv (by decide) (by decide) (by decide) (by decide)
      ⟨2, by decide, by decide⟩).2.2.1⟩

/-- C13 (code differs). Under the shipped configuration at `nlen = 80`, `alen = 16`,
`mlen = r = 30`, with the data of `test/main.c`: `manx2_enc` accepts the input and returns
one block, and the block `t` it builds with `init_tiny_msg`, followed in memory by a zero
octet, has `80` at index 16 afterwards: the terminal padding bit is set one octet past the
block. -/
theorem C13_exact_fill_stores_past_t :
    ssub BLOCKBITS (80 + MANX2_ALPHASTAR MANX2_VARIABLE_ADLEN + 2) = 30 ∧
    (manx2_enc MANX2_VARIABLE_ADLEN (fun _ => zero_buf) zero_buf test_key test_nonce 80
      test_ptext 30 test_nonce 16 xor_cipher id).ret = 0 ∧
    (manx2_enc MANX2_VARIABLE_ADLEN (fun _ => zero_buf) zero_buf test_key test_nonce 80
      test_ptext 30 test_nonce 16 xor_cipher id).len = 128 ∧
    zero_buf 16 = 0x00 ∧
    init_tiny_msg MANX2_VARIABLE_ADLEN zero_buf test_nonce 80 test_nonce 16 test_ptext 30 16
      = 0x80 := by
  decide

/-- C14 (as stated, fails). Under the shipped configuration (`MANX2_VARIABLE_ADLEN = 0`), at
the Manx2 test of `test/main.c`, `(nlen, mlen, alen) = (64, 96, 0)`, with the XOR cipher
(which is its own inverse) and the identity key schedule: `manx2_enc` returns a two-block
ciphertext (`mlen > r = 46`), and `manx2_dec` on it, called with the key bytes as nonce
array, returns 3 with `plen = 0` instead of the message. -/
theorem C14_nonce_omission_fails_for_short_ad :
    (∀ x rk, xor_cipher (xor_cipher x rk) rk = x) ∧
    ssub BLOCKBITS (64 + MANX2_ALPHASTAR MANX2_VARIABLE_ADLEN + 2) = 46 ∧
    (manx2_enc MANX2_VARIABLE_ADLEN (fun _ => zero_buf) zero_buf test_key test_nonce 64
      test_ptext 96 test_nonce 0 xor_cipher id).ret = 0 ∧
    (manx2_enc MANX2_VARIABLE_ADLEN (fun _ => zero_buf) zero_buf test_key test_nonce 64
      test_ptext 96 test_nonce 0 xor_cipher id).len = 256 ∧
    (manx2_dec MANX2_VARIABLE_ADLEN (fun _ => zero_buf) zero_buf test_key test_key 64
      (manx2_enc MANX2_VARIABLE_ADLEN (fun _ => zero_buf) zero_buf test_key test_nonce 64
        test_ptext 96 test_nonce 0 xor_cipher id).out
      (manx2_enc MANX2_VARIABLE_ADLEN (fun _ => zero_buf) zero_buf test_key test_nonce 64
        test_ptext 96 test_nonce 0 xor_cipher id).len
      test_nonce 0 xor_cipher id).ret = 3 ∧
    (manx2_dec MANX2_VARIABLE_ADLEN (fun _ => zero_buf) zero_buf test_key test_key 64
      (manx2_enc MANX2_VARIABLE_ADLEN (fun _ => zero_buf) zero_buf test_key test_nonce 64
        test_ptext 96 test_nonce 0 xor_cipher id).out
      (manx2_enc MANX2_VARIABLE_ADLEN (fun _ => zero_buf) zero_buf test_key test_nonce 64
        test_ptext 96 test_nonce 0 xor_cipher id).len
      test_nonce 0 xor_cipher id).len = 0 := by
  have h := manx2_short_ad_rejected (fun _ => zero_buf) (fun _ => zero_buf) zero_buf zero_buf
    test_key test_nonce test_key test_ptext test_nonce 64 96 0 xor_cipher xor_cipher id
    xor_cipher_inv (by decide) (by decide) (by decide) (by decide) (by decide) (by decide)
  exact ⟨xor_cipher_inv, by decide, h.1, h.2.1, h.2.2.1, h.2.2.2⟩

/-- C14 (amended). Nonce omission of Manx2.  First, for every configuration, key, block
cipher, `nlen`, AD and two-block ciphertext (`clen = 256`), `manx2_dec` gives the same
return code, `plen` and array `p` for any two nonce arrays.  Second, where the two-block
round trip holds and every access to the local blocks stays inside them, that result is
the original message: with variable-length AD and `alen ≤ 16`, or fixed-length AD and
`alen = 16`, for every block cipher whose decryption inverts its encryption, `64 ≤ nlen`,
`nlen + MANX2_ALPHASTAR + 2 < 128` not a multiple of 8, and
`r = 128 - (nlen + MANX2_ALPHASTAR + 2) < mlen` with `nlen + 2 + (mlen - r) ≤ 120`,
`manx2_enc` returns 0 with two blocks and `manx2_dec` under any nonce array `n2` returns
0 with `plen = mlen` and the first `mlen` bits of `p` equal to those of `m`. -/
theorem C14_manx2_nonce_omission :
    (∀ (vadlen : Nat) (junkd : Nat → Buf) (p0 k n n2 : Buf) (nlen : Nat) (c a : Buf)
      (alen : Nat) (decrypt : dec_func) (kexpand : kexp_func),
      manx2_dec vadlen junkd p0 k n nlen c 256 a alen decrypt kexpand
        = manx2_dec vadlen junkd p0 k n2 nlen c 256 a alen decrypt kexpand) ∧
    (∀ (vadlen : Nat) (junk junkd : Nat → Buf) (c0 p0 k n n2 m a : Buf) (nlen mlen alen : Nat)
      (encrypt : enc_func) (decrypt : dec_func) (kexpand : kexp_func),
      (∀ x rk, decrypt (encrypt x rk) rk = x) →
      vadlen ≤ 1 → alen ≤ 16 → (vadlen = 0 → alen = 16) → 64 ≤ nlen →
      nlen + MANX2_ALPHASTAR vadlen + 2 < 128 →
      (nlen + MANX2_ALPHASTAR vadlen + 2) % 8 ≠ 0 →
      128 - (nlen + MANX2_ALPHASTAR vadlen + 2) < mlen →
      nlen + 2 + (mlen - (128 - (nlen + MANX2_ALPHASTAR vadlen + 2))) ≤ 120 →
      (manx2_enc vadlen junk c0 k n nlen m mlen a alen encrypt kexpand).ret = 0 ∧
      (manx2_enc vadlen junk c0 k n nlen m mlen a alen encrypt kexpand).len = 256 ∧
      (manx2_dec vadlen junkd p0 k n2 nlen
        (manx2_enc vadlen junk c0 k n nlen m mlen a alen encrypt kexpand).out
        (manx2_enc vadlen junk c0 k n nlen m mlen a alen encrypt kexpand).len
        a alen decrypt kexpand).ret = 0 ∧
      (manx2_dec vadlen junkd p0 k n2 nlen
        (manx2_enc vadlen junk c0 k n nlen m mlen a alen encrypt kexpand).out
        (manx2_enc vadlen junk c0 k n nlen m mlen a alen encrypt kexpand).len
        a alen decrypt kexpand).len = mlen ∧
      ∀ i, i < mlen →
        bitAt (manx2_dec vadlen junkd p0 k n2 nlen
          (manx2_enc vadlen junk c0 k n nlen m mlen a alen encrypt kexpand).out
          (manx2_enc vadlen junk c0 k n nlen m mlen a alen encrypt kexpand).len
          a alen decrypt kexpand).out i = bitAt m i) := by
  have hind : ∀ (vadlen : Nat) (junkd : Nat → Buf) (p0 k n n2 : Buf) (nlen : Nat) (c a : Buf)
      (alen : Nat) (decrypt : dec_func) (kexpand : kexp_func),
      manx2_dec vadlen junkd p0 k n nlen c 256 a alen decrypt kexpand
        = manx2_dec vadlen junkd p0 k n2 nlen c 256 a alen decrypt kexpand := by
    intro vadlen junkd p0 k n n2 nlen c a alen decrypt kexpand
    unfold manx2_dec
    dsimp only
    have e1 : ¬ ((256 : Nat) ≠ BLOCKBITS ∧ (256 : Nat) ≠ 2 * BLOCKBITS) := by
      simp [BLOCKBITS, BLOCKBYTES]
    have e2 : ¬ ((256 : Nat) = BLOCKBITS) := by simp [BLOCKBITS, BLOCKBYTES]
    rw [if_neg e1, if_neg e2, if_neg e1, if_neg e2]
  refine ⟨hind, ?_⟩
  intro vadlen junk junkd c0 p0 k n n2 m a nlen mlen alen encrypt decrypt kexpand hinv hv ha
    hfix hn1 hn2 hal hshort hm
  have e : MANX2_ALPHASTAR vadlen = 16 + vadlen := rfl
  rw [e] at hn2 hal hshort hm
  have h := manx2_roundtrip vadlen junk junkd c0 p0 k n m a nlen mlen alen encrypt decrypt
    kexpand hinv hv hn1 (by omega) ha hfix (by omega)
  have hl : (manx2_enc vadlen junk c0 k n nlen m mlen a alen encrypt kexpand).len = 256 := by
    rw [h.2.1, if_neg (by omega)]
  rw [hl] at h ⊢
  rw [hind vadlen junkd p0 k n2 n nlen _ a alen decrypt kexpand]
  exact ⟨h.1, rfl, h.2.2.1, h.2.2.2.1, h.2.2.2.2⟩

/-- Witness of C14 (amended) at the Manx2 test of `test/main.c` with a 16-bit AD,
`(nlen, mlen, alen) = (64, 96, 16)`, under the shipped configuration and with the XOR
cipher: decryption under the key bytes as nonce array gives back 96 bits. -/
theorem C14_manx2_nonce_omission_witness :
    (∀ x rk, xor_cipher (xor_cipher x rk) rk = x) ∧ MANX2_VARIABLE_ADLEN ≤ 1 ∧
    64 + MANX2_ALPHASTAR MANX2_VARIABLE_ADLEN + 2 < 128 ∧
    (64 + MANX2_ALPHASTAR MANX2_VARIABLE_ADLEN + 2) % 8 ≠ 0 ∧
    128 - (64 + MANX2_ALPHASTAR MANX2_VARIABLE_ADLEN + 2) < 96 ∧
    64 + 2 + (96 - (128 - (64 + MANX2_ALPHASTAR MANX2_VARIABLE_ADLEN + 2))) ≤ 120 ∧
    (manx2_dec MANX2_VARIABLE_ADLEN (fun _ => zero_buf) zero_buf test_key test_key 64
      (manx2_enc MANX2_VARIABLE_ADLEN (fun _ => zero_buf) zero_buf test_key test_nonce 64
        test_ptext 96 test_nonce 16 xor_cipher id).out
      (manx2_enc MANX2_VARIABLE_ADLEN (fun _ => zero_buf) zero_buf test_key test_nonce 64
        test_ptext 96 test_nonce 16 xor_cipher id).len
      test_nonce 16 xor_cipher id).len = 96 :=
  ⟨xor_cipher_inv, by decide, by decide, by decide, by decide, by decide,
    (C14_manx2_nonce_omission.2 MANX2_VARIABLE_ADLEN (fun _ => zero_buf) (fun _ => zero_buf)
      zero_buf zero_buf test_key test_nonce test_key test_ptext test_nonce 64 96 16 xor_cipher
      xor_cipher id xor_cipher_inv (by decide) (by decide) (fun _ => rfl) (by decide)
      (by decide) (by decide) (by decide) (by decide)).2.2.2.1⟩

/-- C15. No partial output on failure, for every input and every configuration: when
`manx1_enc` or `manx2_enc` returns a non-zero code, the length stored is 0 and the array
`c` is as it was; when `manx1_dec` or `manx2_dec` returns a non-zero code, the length
stored is 0 and the array `p` is as it was. -/
theorem C15_no_partial_output_on_failure (vadlen1 vadlen2 : Nat) (junk1 : Buf)
    (junk : Nat → Buf) (c0 p0 k n m c a : Buf) (nlen mlen clen alen : Nat) (enc : enc_func)
    (dec : dec_func) (kexpand1 : Option kexp_func) (kexpand : kexp_func) :
    ((manx1_enc vadlen1 junk1 c0 k n nlen m mlen a alen enc kexpand1).ret ≠ 0 →
      (manx1_enc vadlen1 junk1 c0 k n nlen m mlen a alen enc kexpand1).len = 0 ∧
      (manx1_enc vadlen1 junk1 c0 k n nlen m mlen a alen enc kexpand1).out = c0) ∧
    ((manx2_enc vadlen2 junk c0 k n nlen m mlen a alen enc kexpand).ret ≠ 0 →
      (manx2_enc vadlen2 junk c0 k n nlen m mlen a alen enc kexpand).len = 0 ∧
      (manx2_enc vadlen2 junk c0 k n nlen m mlen a alen enc kexpand).out = c0) ∧
    ((manx1_dec vadlen1 junk p0 k n nlen c clen a alen enc dec kexpand1).ret ≠ 0 →
      (manx1_dec vadlen1 junk p0 k n nlen c clen a alen enc dec kexpand1).len = 0 ∧
      (manx1_dec vadlen1 junk p0 k n nlen c clen a alen enc dec kexpand1).out = p0) ∧
    ((manx2_dec vadlen2 junk p0 k n nlen c clen a alen dec kexpand).ret ≠ 0 →
      (manx2_dec vadlen2 junk p0 k n nlen c clen a alen dec kexpand).len = 0 ∧
      (manx2_dec vadlen2 junk p0 k n nlen c clen a alen dec kexpand).out = p0) := by
  refine ⟨?_, ?_, ?_, ?_⟩
  · unfold manx1_enc
    dsimp only
    split_ifs <;> simp
  · unfold manx2_enc
    dsimp only
    split_ifs <;> simp
  · unfold manx1_dec
    dsimp only
    split_ifs <;> simp
  · unfold manx2_dec
    dsimp only
    split_ifs <;> simp

/-- Witness of C15 under the shipped configuration with the data of `test/main.c`:
`nlen = 0`, `mlen = 64`, `clen = 0` make each of the four functions return 1; the output
array, `ptext` for the encryptions and `key` for the decryptions, is as it was. -/
theorem C15_no_partial_output_on_failure_witness :
    (manx1_enc MANX1_VARIABLE_ADLEN zero_buf test_ptext test_key test_nonce 0 test_ptext 64
      test_nonce 0 xor_cipher none).ret ≠ 0 ∧
    ((manx1_enc MANX1_VARIABLE_ADLEN zero_buf test_ptext test_key test_nonce 0 test_ptext 64
      test_nonce 0 xor_cipher none).len = 0 ∧
    (manx1_enc MANX1_VARIABLE_ADLEN zero_buf test_ptext test_key test_nonce 0 test_ptext 64
      test_nonce 0 xor_cipher none).out = test_ptext) ∧
    (manx2_enc MANX2_VARIABLE_ADLEN (fun _ => zero_buf) test_ptext test_key test_nonce 0
      test_ptext 64 test_nonce 0 xor_cipher id).ret ≠ 0 ∧
    ((manx2_enc MANX2_VARIABLE_ADLEN (fun _ => zero_buf) test_ptext test_key test_nonce 0
      test_ptext 64 test_nonce 0 xor_cipher id).len = 0 ∧
    (manx2_enc MANX2_VARIABLE_ADLEN (fun _ => zero_buf) test_ptext test_key test_nonce 0
      test_ptext 64 test_nonce 0 xor_cipher id).out = test_ptext) ∧
    (manx1_dec MANX1_VARIABLE_ADLEN (fun _ => zero_buf) test_key test_key test_nonce 0
      zero_buf 0 test_nonce 0 xor_cipher xor_cipher none).ret ≠ 0 ∧
    ((manx1_dec MANX1_VARIABLE_ADLEN (fun _ => zero_buf) test_key test_key test_nonce 0
      zero_buf 0 test_nonce 0 xor_cipher xor_cipher none).len = 0 ∧
    (manx1_dec MANX1_VARIABLE_ADLEN (fun _ => zero_buf) test_key test_key test_nonce 0
      zero_buf 0 test_nonce 0 xor_cipher xor_cipher none).out = test_key) ∧
    (manx2_dec MANX2_VARIABLE_ADLEN (fun _ => zero_buf) test_key test_key test_nonce 0
      zero_buf 0 test_nonce 0 xor_cipher id).ret ≠ 0 ∧
    ((manx2_dec MANX2_VARIABLE_ADLEN (fun _ => zero_buf) test_key test_key test_nonce 0
      zero_buf 0 test_nonce 0 xor_cipher id).len = 0 ∧
    (manx2_dec MANX2_VARIABLE_ADLEN (fun _ => zero_buf) test_key test_key test_nonce 0
      zero_buf 0 test_nonce 0 xor_cipher id).out = test_key) :=
  ⟨by decide,
    (C15_no_partial_output_on_failure MANX1_VARIABLE_ADLEN MANX2_VARIABLE_ADLEN zero_buf
      (fun _ => zero_buf) test_ptext test_key test_key test_nonce test_ptext zero_buf test_nonce
      0 64 0 0 xor_cipher xor_cipher none id).1 (by decide),
    by decide,
    (C15_no_partial_output_on_failure MANX1_VARIABLE_ADLEN MANX2_VARIABLE_ADLEN zero_buf
      (fun _ => zero_buf) test_ptext test_key test_key test_nonce test_ptext zero_buf test_nonce
      0 64 0 0 xor_cipher xor_cipher none id).2.1 (by decide),
    by decide,
    (C15_no_partial_output_on_failure MANX1_VARIABLE_ADLEN MANX2_VARIABLE_ADLEN zero_buf
      (fun _ => zero_buf) test_ptext test_key test_key test_nonce test_ptext zero_buf test_nonce
      0 64 0 0 xor_cipher xor_cipher none id).2.2.1 (by decide),
    by decide,
    (C15_no_partial_output_on_failure MANX1_VARIABLE_ADLEN MANX2_VARIABLE_ADLEN zero_buf
      (fun _ => zero_buf) test_ptext test_key test_key test_nonce test_ptext zero_buf test_nonce
      0 64 0 0 xor_cipher xor_cipher none id).2.2.2 (by decide)⟩

/-- C16 (code differs). On the all-zero block `depad_10` returns 7, for every output
array: the scan reads the octets 15 down to 1 and never octet 0, so the length ends at
`127 - 15 * 8`. -/
theorem C16_depad_10_zero_block (out : Buf) : (depad_10 out zero_buf).2 = 7 := by
  rfl

/-- C17 (code differs). On the block `80 00 ... 00`, the empty string followed by the
padding marker (bit 0 is the only set bit of the 128), `depad_10` returns 7 and not 0:
the scan never reads octet 0. -/
theorem C17_depad_10_marker_in_first_octet :
    bitAt depad_marker_first 0 = true ∧
    (∀ p, p < 128 → 0 < p → bitAt depad_marker_first p = false) ∧
    (depad_10 zero_buf depad_marker_first).2 = 7 := by
  decide

/-- C18 (code differs). On the block `ff c0 00 ... 00` (`l = 9`: nine set bits, then the
marker) with an all-zero output array, `depad_10` returns 9, copies octet 0 only, leaves
octet 1 of the output as it was and stores the unmasked octet `c0` at index 2: bit 8 of
the output is 0 while bit 8 of the input is 1. -/
theorem C18_depad_10_partial_octet_not_copied :
    (depad_10 zero_buf depad_nine_bits).2 = 9 ∧
    (depad_10 zero_buf depad_nine_bits).1 0 = 0xff ∧
    (depad_10 zero_buf depad_nine_bits).1 1 = 0x00 ∧
    (depad_10 zero_buf depad_nine_bits).1 2 = 0xc0 ∧
    bitAt depad_nine_bits 8 = true ∧
    bitAt (depad_10 zero_buf depad_nine_bits).1 8 = false := by
  decide

/-- C19. The function `sec_memcmp_bits` returns 0 if and only if the first `bitlen` bits
(MSB-first) of the two arrays are equal, for every `bitlen`, whatever the bits past
`bitlen` in the last octet are and wherever a mismatch sits. -/
theorem C19_sec_memcmp_bits_zero_iff (arr1 arr2 : Buf) (bitlen : Nat) :
    sec_memcmp_bits arr1 arr2 bitlen = 0 ↔ ∀ p, p < bitlen → bitAt arr1 p = bitAt arr2 p :=
  sec_memcmp_bits_eq_zero_iff arr1 arr2 bitlen

/-- C20. Content of `concat_bits`: for every cursor `(oct, bit)` with `bit < 8`, every
`inlen` and every array `out` whose bits at and after the cursor position
`P = 8 * oct + bit` are zero, after `concat_bits(out, &oct, &bit, in, inlen)` the bits
of `out` before `P` are unchanged and the bits `P .. P + inlen - 1` are the first `inlen`
bits of `in`, for an aligned cursor (`bit = 0`) as for an unaligned one. -/
theorem C20_concat_bits_content (out : Buf) (oct bit : Nat) (inp : Buf) (inlen : Nat)
    (hb : bit < 8) (hz : ∀ p, 8 * oct + bit ≤ p → bitAt out p = false) :
    (∀ p, p < 8 * oct + bit → bitAt (concat_bits out oct bit inp inlen).1 p = bitAt out p) ∧
    (∀ p, 8 * oct + bit ≤ p → p < 8 * oct + bit + inlen →
      bitAt (concat_bits out oct bit inp inlen).1 p = bitAt inp (p - (8 * oct + bit))) := by
  have hbits := concat_bits_bits out oct bit inp inlen hb (fun p h1 _ => hz p h1)
  constructor
  · intro p hp
    rw [hbits p, if_pos hp]
  · intro p hp1 hp2
    rw [hbits p, if_neg (by omega), if_pos hp2]

/-- Witness of C20 at an unaligned cursor: 13 bits of the test nonce appended at octet 1,
bit 3 of an all-zero array. -/
theorem C20_concat_bits_content_witness :
    3 < 8 ∧ (∀ p, 8 * 1 + 3 ≤ p → bitAt zero_buf p = false) ∧
    (∀ p, 8 * 1 + 3 ≤ p → p < 8 * 1 + 3 + 13 →
      bitAt (concat_bits zero_buf 1 3 test_nonce 13).1 p = bitAt test_nonce (p - (8 * 1 + 3))) :=
  ⟨by decide, fun p _ => bitAt_zero_buf p,
    (C20_concat_bits_content zero_buf 1 3 test_nonce 13 (by decide)
      (fun p _ => bitAt_zero_buf p)).2⟩

/-- C21. Bit-cursor invariant: for every cursor `(oct, bit)` with `bit < 8`,
`inc_bitpos(&oct, &bit, n)` for every `n` that a non-negative `int` can hold and
`concat_bits` for every `inlen = n` return a cursor `(oct1, bit1)` with `bit1 < 8` and
`8 * oct1 + bit1 = 8 * oct + bit + n`. -/
theorem C21_bit_cursor_invariant (out inp : Buf) (oct bit n : Nat) (hb : bit < 8) :
    (n < 2 ^ 31 →
      (inc_bitpos oct bit (n : Int)).2 < 8 ∧
      8 * (inc_bitpos oct bit (n : Int)).1 + (inc_bitpos oct bit (n : Int)).2
        = 8 * oct + bit + n) ∧
    ((concat_bits out oct bit inp n).2.2 < 8 ∧
      8 * (concat_bits out oct bit inp n).2.1 + (concat_bits out oct bit inp n).2.2
        = 8 * oct + bit + n) := by
  constructor
  · intro hn
    rw [inc_bitpos_nat oct bit n (by unfold SZ; omega)]
    dsimp only
    omega
  · rw [concat_bits_cursor]
    dsimp only
    omega

/-- Witness of C21: the cursor at octet 13, bit 2 advanced by 83 bits, as `inc_bitpos`
and `concat_bits` do, ends at octet 23, bit 5. -/
theorem C21_bit_cursor_invariant_witness :
    2 < 8 ∧ 83 < 2 ^ 31 ∧
    inc_bitpos 13 2 ((83 : Nat) : Int) = (23, 5) ∧
    (concat_bits zero_buf 13 2 test_ptext 83).2 = (23, 5) :=
  ⟨by decide, by decide,
    Prod.ext
      (by have h := ((C21_bit_cursor_invariant zero_buf test_ptext 13 2 83 (by decide)).1
            (by decide)); omega)
      (by have h := ((C21_bit_cursor_invariant zero_buf test_ptext 13 2 83 (by decide)).1
            (by decide)); omega),
    Prod.ext
      (by have h := (C21_bit_cursor_invariant zero_buf test_ptext 13 2 83 (by decide)).2;
          omega)
      (by have h := (C21_bit_cursor_invariant zero_buf test_ptext 13 2 83 (by decide)).2;
          omega)⟩

/-- C22. The function `lshift`: for every `b < 8`, every `inlen` and every input, after
`lshift(out, in, inlen, b)` the first `inlen` bits of `out` are the bits
`b .. b + inlen - 1` of `in`, and the bits of `out` from `inlen` to the end of the last
octet written are zero; for `b = 0` the first `inlen` bits of `out` are those of `in`. -/
theorem C22_lshift_bits (out inp : Buf) (inlen b : Nat) (hb : b < 8) :
    (∀ p, p < inlen → bitAt (lshift out inp inlen b) p = bitAt inp (p + b)) ∧
    (∀ p, inlen ≤ p → p < 8 * ((inlen + 7) / 8) → bitAt (lshift out inp inlen b) p = false) ∧
    (∀ p, p < inlen → bitAt (lshift out inp inlen 0) p = bitAt inp p) ∧
    (∀ p, inlen ≤ p → p < 8 * ((inlen + 7) / 8) → bitAt (lshift out inp inlen 0) p = false) := by
  refine ⟨?_, ?_, ?_, ?_⟩
  · intro p hp
    rw [lshift_bits out inp inlen b hb p, if_pos hp]
  · intro p h1 h2
    rw [lshift_bits out inp inlen b hb p, if_neg (by omega), if_pos h2]
  · intro p hp
    rw [lshift_bits out inp inlen 0 (by omega) p, if_pos hp]
    rfl
  · intro p h1 h2
    rw [lshift_bits out inp inlen 0 (by omega) p, if_neg (by omega), if_pos h2]

/-- Witness of C22: 30 bits of the test plaintext shifted left by 2 into an all-zero
array. -/
theorem C22_lshift_bits_witness :
    2 < 8 ∧
    (∀ p, p < 30 → bitAt (lshift zero_buf test_ptext 30 2) p = bitAt test_ptext (p + 2)) ∧
    (∀ p, 30 ≤ p → p < 8 * ((30 + 7) / 8) → bitAt (lshift zero_buf test_ptext 30 2) p = false) :=
  ⟨by decide, (C22_lshift_bits zero_buf test_ptext 30 2 (by decide)).1,
    (C22_lshift_bits zero_buf test_ptext 30 2 (by decide)).2.1⟩

/-- C24 (code differs). Under the shipped configuration at `nlen = 72`, `alen = 16`,
`mlen = r = 38`, the case of the separator `11`, with the data of `test/main.c`: the block
`T` built by `init_tiny_msg` has the bits `1, 1` at positions 72 and 73, and the octet
that follows its 16 octets, zero before, is `80` afterwards: the terminal padding bit is
set one octet past the block. -/
theorem C24_separator_11_stores_past_t :
    ssub BLOCKBITS (72 + MANX2_ALPHASTAR MANX2_VARIABLE_ADLEN + 2) = 38 ∧
    bitAt (init_tiny_msg MANX2_VARIABLE_ADLEN zero_buf test_nonce 72 test_nonce 16 test_ptext 38)
      72 = true ∧
    bitAt (init_tiny_msg MANX2_VARIABLE_ADLEN zero_buf test_nonce 72 test_nonce 16 test_ptext 38)
      73 = true ∧
    zero_buf 16 = 0x00 ∧
    init_tiny_msg MANX2_VARIABLE_ADLEN zero_buf test_nonce 72 test_nonce 16 test_ptext 38 16
      = 0x80 := by
  decide

/-- C25. The two-block path of `manx2_enc` under the shipped configuration
(`MANX2_VARIABLE_ADLEN = 0`, `alen = 16`): for every cipher `E`, key, `nlen` with
`64 ≤ nlen ≤ 110` and `r < mlen < 126 - nlen + r`, `r = 110 - nlen`, there is a 32-octet
array `T1 || T2` with `T1 = N || 00 || A || M[0..r)`, exactly 128 bits, and
`T2 = N || 01 || M[r..mlen) || 1 || 0*`, such that `manx2_enc` returns 0 with
`clen = 256` and `C = E(T1) || E(T2)`; the octets of `c` from 32 on are as they were. -/
theorem C25_manx2_short_blocks (junk : Nat → Buf) (c0 k n m a : Buf) (nlen mlen : Nat)
    (encrypt : enc_func) (kexpand : kexp_func)
    (hn1 : 64 ≤ nlen) (hn2 : nlen ≤ 110) (hm1 : 110 - nlen < mlen)
    (hm2 : mlen < 126 - nlen + (110 - nlen)) :
    ∃ T : Buf,
      (∀ p, p < 128 → bitAt T p
        = if p < nlen then bitAt n p
          else if p < nlen + 2 then false
          else if p < nlen + 18 then bitAt a (p - (nlen + 2))
          else bitAt m (p - (nlen + 18))) ∧
      (∀ p, p < 128 → bitAt T (128 + p)
        = if p < nlen then bitAt n p
          else if p = nlen then false
          else if p = nlen + 1 then true
          else if p < nlen + 2 + (mlen - (110 - nlen)) then
            bitAt m (110 - nlen + (p - (nlen + 2)))
          else decide (p = nlen + 2 + (mlen - (110 - nlen)))) ∧
      (manx2_enc MANX2_VARIABLE_ADLEN junk c0 k n nlen m mlen a 16 encrypt kexpand).ret = 0 ∧
      (manx2_enc MANX2_VARIABLE_ADLEN junk c0 k n nlen m mlen a 16 encrypt kexpand).len = 256 ∧
      (∀ j (hj : j < 16),
        (manx2_enc MANX2_VARIABLE_ADLEN junk c0 k n nlen m mlen a 16 encrypt kexpand).out j
          = encrypt (rdBlock T 0) (kexpand k) ⟨j, hj⟩ ∧
        (manx2_enc MANX2_VARIABLE_ADLEN junk c0 k n nlen m mlen a 16 encrypt kexpand).out
          (16 + j) = encrypt (rdBlock T 16) (kexpand k) ⟨j, hj⟩) ∧
      (∀ j, 32 ≤ j →
        (manx2_enc MANX2_VARIABLE_ADLEN junk c0 k n nlen m mlen a 16 encrypt kexpand).out j
          = c0 j) := by
  have hl16 : manx2_hdr_len 0 nlen 16 = nlen + 18 := by
    unfold manx2_hdr_len
    simp
  have e : 128 - (nlen + 18 + 0) = 110 - nlen := by omega
  have hB1 := init_short_msg_block1 0 (junk 1) (junk 0) n nlen a 16 m mlen (by omega) (by omega)
    (by omega)
  have hB2 := init_short_msg_block2 0 (junk 1) (junk 0) n nlen a 16 m mlen (by omega) (by omega)
    (by omega) hl16 (by omega) (by omega)
  rw [hl16] at hB1
  rw [e] at hB2
  have henc := manx2_enc_short_eq 0 junk c0 k n nlen m mlen a 16 encrypt kexpand hn1 (by omega)
    (by omega) (by omega) (by omega)
  show ∃ T : Buf, _ ∧ _ ∧ (manx2_enc 0 junk c0 k n nlen m mlen a 16 encrypt kexpand).ret = 0 ∧
    (manx2_enc 0 junk c0 k n nlen m mlen a 16 encrypt kexpand).len = 256 ∧
    (∀ j (hj : j < 16), (manx2_enc 0 junk c0 k n nlen m mlen a 16 encrypt kexpand).out j
      = encrypt (rdBlock T 0) (kexpand k) ⟨j, hj⟩ ∧
      (manx2_enc 0 junk c0 k n nlen m mlen a 16 encrypt kexpand).out (16 + j)
        = encrypt (rdBlock T 16) (kexpand k) ⟨j, hj⟩) ∧
    (∀ j, 32 ≤ j → (manx2_enc 0 junk c0 k n nlen m mlen a 16 encrypt kexpand).out j = c0 j)
  rw [henc]
  dsimp only
  refine ⟨init_short_msg 0 (junk 1) (junk 0) n nlen a 16 m mlen, ?_, hB2, rfl, rfl, ?_, ?_⟩
  · intro p hp
    rw [hB1 p hp]
    unfold manx2_hdr_bit
    by_cases c1 : p < nlen
    · rw [if_pos (by omega), if_pos c1, if_pos c1]
    · rw [if_neg c1]
      by_cases c2 : p < nlen + 2
      · rw [if_pos (by omega), if_neg c1, if_pos c2]
        by_cases c3 : p = nlen
        · rw [if_pos c3]
        · rw [if_neg c3, if_pos (by omega)]
      · rw [if_neg c2]
        by_cases c4 : p < nlen + 18
        · rw [if_pos c4, if_neg c1, if_neg (by omega), if_neg (by omega), if_pos (by omega),
            if_pos c4]
        · rw [if_neg c4, if_neg c4, if_pos (by omega), if_neg c1]
  · intro j hj
    constructor
    · rw [apply_cipher_other _ _ _ _ _ _ _ (Or.inl (by unfold BLOCKBYTES; omega))]
      have h := apply_cipher_get encrypt c0 0
        (init_short_msg 0 (junk 1) (junk 0) n nlen a 16 m mlen) 0 (kexpand k) j hj
      rw [Nat.zero_add] at h
      exact h
    · exact apply_cipher_get encrypt _ BLOCKBYTES
        (init_short_msg 0 (junk 1) (junk 0) n nlen a 16 m mlen) BLOCKBYTES (kexpand k) j hj
  · intro j hj
    rw [apply_cipher_other _ _ _ _ _ _ _ (Or.inr (by unfold BLOCKBYTES; omega)),
      apply_cipher_other _ _ _ _ _ _ _ (Or.inr (by omega))]

/-- Witness of C25 at the Manx2 test of `test/main.c` with a 16-bit AD,
`(nlen, mlen, alen) = (64, 96, 16)`, and the XOR cipher. -/
theorem C25_manx2_short_blocks_witness :
    64 ≤ 64 ∧ 64 ≤ 110 ∧ 110 - 64 < 96 ∧ 96 < 126 - 64 + (110 - 64) ∧
    (manx2_enc MANX2_VARIABLE_ADLEN (fun _ => zero_buf) zero_buf test_key test_nonce 64
      test_ptext 96 test_nonce 16 xor_cipher id).len = 256 :=
  ⟨by decide, by decide, by decide, by decide,
    (C25_manx2_short_blocks (fun _ => zero_buf) zero_buf test_key test_nonce test_ptext
      test_nonce 64 96 xor_cipher id (by decide) (by decide) (by decide) (by decide)).elim
      (fun _ h => h.2.2.2.1)⟩

/-- C26 (code differs). Under the shipped configuration at `nlen = 110`, `alen = 16`,
where `nlen + 2 + MANX2_ALPHASTAR = 128`, with the XOR cipher, the key of `test/main.c`,
the AD `4f 3c` and the two-block ciphertext `00 .. 00 03 00 00 || 00 .. 00`: the 128 bits
of `S1` agree with the block `t` rebuilt from `S2` and the AD, and `t`, followed in memory
by a zero octet, has `80` at index 16: `init_tiny_msg` has set the terminal padding bit
one octet past the block. -/
theorem C26_header_fills_block_stores_past_t :
    110 + 2 + MANX2_ALPHASTAR MANX2_VARIABLE_ADLEN = 128 ∧
    sec_memcmp_bits
      (manx2_dec_short_blocks MANX2_VARIABLE_ADLEN (fun _ => zero_buf) test_key 110
      (wr zero_buf 13 0x03) (ofList [0x4f, 0x3c]) 16 xor_cipher id).1
      (manx2_dec_short_blocks MANX2_VARIABLE_ADLEN (fun _ => zero_buf) test_key 110
      (wr zero_buf 13 0x03) (ofList [0x4f, 0x3c]) 16 xor_cipher id).2.2 128 = 0 ∧
    zero_buf 16 = 0x00 ∧
    (manx2_dec_short_blocks MANX2_VARIABLE_ADLEN (fun _ => zero_buf) test_key 110
      (wr zero_buf 13 0x03) (ofList [0x4f, 0x3c]) 16 xor_cipher id).2.2 16 = 0x80 := by
  decide

/-- C27. For every `nlen ≤ 128` the value `v2len = s - (128 - nlen)` with
`s = max(128 - nlen + 64, 64)`, computed in `size_t` as the source does, is 64.  Hence
the third admissibility check of `manx1_enc` (`mlen ≥ 128 - v2len`) holds exactly when
the first (`mlen ≥ 128 - 64`) does, `manx1_enc` never returns 3, and `manx1_dec` returns 3
exactly when, after the two shape checks, the first 64 bits of `V[2]` and of the
recomputed block differ. -/
theorem C27_manx1_v2len_is_64 (vadlen : Nat) (junk1 : Buf) (junk : Nat → Buf)
    (c0 p0 k n m c a : Buf) (nlen mlen clen alen : Nat) (enc : enc_func) (dec : dec_func)
    (kexpand : Option kexp_func) (hn : nlen ≤ 128) :
    ssub (MAX (sadd (ssub BLOCKBITS nlen) MANX_TAU) MANX1_ALPHAMAX) (ssub BLOCKBITS nlen) = 64 ∧
    (mlen ≥ ssub BLOCKBITS
        (ssub (MAX (sadd (ssub BLOCKBITS nlen) MANX_TAU) MANX1_ALPHAMAX) (ssub BLOCKBITS nlen))
      ↔ mlen ≥ BLOCKBITS - MANX_TAU) ∧
    (manx1_enc vadlen junk1 c0 k n nlen m mlen a alen enc kexpand).ret ≠ 3 ∧
    (let rk := manx1_roundkeys kexpand k
     let v := (manx1_vencode vadlen (junk 0)
       (MAX (sadd (ssub BLOCKBITS nlen) MANX_TAU) MANX1_ALPHAMAX) n nlen a alen).1
     let s := doubling (apply_cipher enc v 0 v 0 rk)
     let x0 := xor_block (zeroed BLOCKBYTES (junk 1)) 0 s c
     let x1 := apply_cipher dec x0 0 x0 0 rk
     let x2 := xor_block x1 0 x1 s
     ((manx1_dec vadlen junk p0 k n nlen c clen a alen enc dec kexpand).ret = 3
      ↔ clen = 128 ∧ alen ≤ 64 ∧ ∃ p, p < 64 ∧ bitAt s (128 + p) ≠ bitAt x2 p)) := by
  have hs := manx1_s_eq nlen hn
  have hv := manx1_v2len_eq nlen hn
  have e1 : BLOCKBITS - MANX_TAU = 64 := rfl
  have e2 : MANX1_ALPHAMAX = 64 := rfl
  have e3 : BLOCKBITS = 128 := rfl
  have e4 : ssub 128 64 = 64 := by decide
  refine ⟨?_, ?_, ?_, ?_⟩
  · rw [hs, hv]
  · rw [hs, hv, e1, e3, e4]
  · unfold manx1_enc
    dsimp only
    rw [hs, hv, e1, e2, e3, e4]
    split_ifs <;> first | omega | simp
  · have hcmp : ∀ s x2 : Buf, (∃ p, p < 64 ∧ bitAt s (128 + p) ≠ bitAt x2 p)
        ↔ sec_memcmp_bits (offs s BLOCKBYTES) x2 64 ≠ 0 := by
      intro s x2
      rw [Ne, sec_memcmp_bits_eq_zero_iff]
      constructor
      · rintro ⟨p, hp, hne⟩ h
        apply hne
        have := h p hp
        rw [bitAt_offs] at this
        exact this
      · intro h
        by_contra hc
        apply h
        intro p hp
        by_contra hne
        apply hc
        refine ⟨p, hp, ?_⟩
        rw [bitAt_offs] at hne
        exact hne
    have hv' : ssub (MAX (sadd (ssub BLOCKBITS nlen) MANX_TAU) MANX1_ALPHAMAX)
        (ssub BLOCKBITS nlen) = 64 := by rw [hs, hv]
    dsimp only
    rw [hcmp]
    unfold manx1_dec
    dsimp only
    rw [hv', e2, e3]
    split_ifs with h1 h2 h3
    · simp
      intro h
      exact absurd h h1
    · simp
      intro _ h
      omega
    · simp only [true_iff]
      exact ⟨by omega, by omega, h3⟩
    · simp
      intro _ _
      exact not_not.mp h3

/-- Witness of C27 at the first test of `test/main.c`, `(nlen, mlen, alen) = (96, 30, 64)`,
with the XOR cipher: `v2len` is 64 and `manx1_enc` does not return 3. -/
theorem C27_manx1_v2len_is_64_witness :
    96 ≤ 128 ∧
    ssub (MAX (sadd (ssub BLOCKBITS 96) MANX_TAU) MANX1_ALPHAMAX) (ssub BLOCKBITS 96) = 64 ∧
    (manx1_enc MANX1_VARIABLE_ADLEN zero_buf zero_buf test_key test_nonce 96 test_ptext 30
      test_nonce 64 xor_cipher none).ret ≠ 3 :=
  ⟨by decide,
    (C27_manx1_v2len_is_64 MANX1_VARIABLE_ADLEN zero_buf (fun _ => zero_buf) zero_buf zero_buf
      test_key test_nonce test_ptext zero_buf test_nonce 96 30 128 64 xor_cipher xor_cipher
      none (by decide)).1,
    (C27_manx1_v2len_is_64 MANX1_VARIABLE_ADLEN zero_buf (fun _ => zero_buf) zero_buf zero_buf
      test_key test_nonce test_ptext zero_buf test_nonce 96 30 128 64 xor_cipher xor_cipher
      none (by decide)).2.2.1⟩

/-- C28 (code differs). On the block `00 ... 00 01`, whose padding marker is the last bit
of the block (a 127-bit payload), the in-place call of `depad_10` returns 127 and stores
`0x00` at index `(127 + 7) / 8 = 16`: the octet `ff` that follows the 16-octet block is
overwritten. -/
theorem C28_depad_10_writes_index_16 :
    (depad_10 depad_full_block depad_full_block).2 = 127 ∧
    depad_full_block 16 = 0xff ∧
    (depad_10 depad_full_block depad_full_block).1 16 = 0x00 := by
  decide

/-- C29 (code differs). Under the shipped configuration, with a block followed in memory
by a zero octet: at `nlen = 64`, `alen = 16`, `mlen = r = 46` (the message fills the block
exactly, data of `test/main.c`), and at `nlen = 110`, `alen = 16`, `mlen = 0` (the call of
`manx2_dec`, the header fills the block), the octet at index 16 is `80` after
`init_tiny_msg`: the terminal padding bit has been set at octet 16, bit 0. -/
theorem C29_init_tiny_msg_writes_index_16 :
    ssub BLOCKBITS (64 + MANX2_ALPHASTAR MANX2_VARIABLE_ADLEN + 2) = 46 ∧
    zero_buf 16 = 0x00 ∧
    init_tiny_msg MANX2_VARIABLE_ADLEN zero_buf test_nonce 64 test_nonce 16 test_ptext 46 16
      = 0x80 ∧
    110 + MANX2_ALPHASTAR MANX2_VARIABLE_ADLEN + 2 = 128 ∧
    init_tiny_msg MANX2_VARIABLE_ADLEN zero_buf test_nonce 110 test_nonce 16 zero_buf 0 16
      = 0x80 := by
  decide

/-- C30 (code differs). Under the shipped configuration `manx2_enc` returns 0 with
`clen = 128` at `nlen = 111`, `mlen = 0`, `alen = 0`, although
`nlen + MANX2_ALPHASTAR + 2 = 129` exceeds 128: `r` wraps around to `2 ^ 64 - 1` and the
bound of the second check to 14. -/
theorem C30_manx2_enc_accepts_wrapped_r :
    (manx2_enc MANX2_VARIABLE_ADLEN (fun _ => zero_buf) zero_buf test_key test_nonce 111
      test_ptext 0 test_nonce 0 xor_cipher id).ret = 0 ∧
    (manx2_enc MANX2_VARIABLE_ADLEN (fun _ => zero_buf) zero_buf test_key test_nonce 111
      test_ptext 0 test_nonce 0 xor_cipher id).len = 128 ∧
    ¬ (111 + MANX2_ALPHASTAR MANX2_VARIABLE_ADLEN + 2 ≤ 128) ∧
    ssub BLOCKBITS (111 + MANX2_ALPHASTAR MANX2_VARIABLE_ADLEN + 2) = 2 ^ 64 - 1 ∧
    sadd (ssub (ssub BLOCKBITS 111) 2)
      (ssub BLOCKBITS (111 + MANX2_ALPHASTAR MANX2_VARIABLE_ADLEN + 2)) = 14 := by
  decide

/-- C31 (code differs). With the XOR cipher and the key of `test/main.c`, on blocks that
carry no padding marker after the compared prefix.  In `manx1_dec` at `nlen = 64`,
`alen = 0` on the ciphertext equal to the key: the 64-bit comparison passes, `depad_10`
returns 7 on the all-zero `v2_tilde`, the length `7 - 64` wraps to `2 ^ 64 - 57`, and
`lshift` called with it on an array `p` of octets `ff` clears bit 128 of `p`.  In
`manx2_dec` under the shipped configuration at `nlen = 64`, `alen = 16` with the AD
`00 00` on the one-block ciphertext decrypting to `N || 10 || 0*`: the 82-bit comparison
passes, `ds = 0`, `depad_10` returns 64, the length `64 - 82` wraps to `2 ^ 64 - 18`, and
`lshift` called with it clears bit 128 of `p`. -/
theorem C31_plen_wraps_without_marker :
    sec_memcmp_bits
      (offs (manx1_dec_blocks MANX1_VARIABLE_ADLEN (fun _ => zero_buf) test_key test_nonce 64 test_key
        zero_buf 0 xor_cipher xor_cipher none).1 BLOCKBYTES)
      (manx1_dec_blocks MANX1_VARIABLE_ADLEN (fun _ => zero_buf) test_key test_nonce 64 test_key
        zero_buf 0 xor_cipher xor_cipher none).2 64 = 0 ∧
    (depad_10 (manx1_dec_blocks MANX1_VARIABLE_ADLEN (fun _ => zero_buf) test_key test_nonce 64 test_key
        zero_buf 0 xor_cipher xor_cipher none).2
      (manx1_dec_blocks MANX1_VARIABLE_ADLEN (fun _ => zero_buf) test_key test_nonce 64 test_key
        zero_buf 0 xor_cipher xor_cipher none).2).2 = 7 ∧
    ssub (depad_10 (manx1_dec_blocks MANX1_VARIABLE_ADLEN (fun _ => zero_buf) test_key test_nonce 64 test_key
        zero_buf 0 xor_cipher xor_cipher none).2
      (manx1_dec_blocks MANX1_VARIABLE_ADLEN (fun _ => zero_buf) test_key test_nonce 64 test_key
        zero_buf 0 xor_cipher xor_cipher none).2).2 64 = 2 ^ 64 - 57 ∧
    bitAt (lshift (fun _ => 0xff)
      (offs (depad_10 (manx1_dec_blocks MANX1_VARIABLE_ADLEN (fun _ => zero_buf) test_key test_nonce 64 test_key
        zero_buf 0 xor_cipher xor_cipher none).2
        (manx1_dec_blocks MANX1_VARIABLE_ADLEN (fun _ => zero_buf) test_key test_nonce 64 test_key
        zero_buf 0 xor_cipher xor_cipher none).2).1 (64 / 8))
      (2 ^ 64 - 57) (64 % 8)) 128 = false ∧
    sec_memcmp_bits (manx2_dec_tiny_blocks MANX2_VARIABLE_ADLEN (fun _ => zero_buf) test_key test_nonce 64
        forged_tiny_block zero_buf 16 xor_cipher id).1
      (manx2_dec_tiny_blocks MANX2_VARIABLE_ADLEN (fun _ => zero_buf) test_key test_nonce 64
        forged_tiny_block zero_buf 16 xor_cipher id).2.1 (64 + 2 + MANX2_ALPHASTAR MANX2_VARIABLE_ADLEN) = 0 ∧
    (manx2_dec_tiny_blocks MANX2_VARIABLE_ADLEN (fun _ => zero_buf) test_key test_nonce 64
        forged_tiny_block zero_buf 16 xor_cipher id).2.2 = 0 ∧
    (depad_10 (manx2_dec_tiny_blocks MANX2_VARIABLE_ADLEN (fun _ => zero_buf) test_key test_nonce 64
        forged_tiny_block zero_buf 16 xor_cipher id).1
      (manx2_dec_tiny_blocks MANX2_VARIABLE_ADLEN (fun _ => zero_buf) test_key test_nonce 64
        forged_tiny_block zero_buf 16 xor_cipher id).1).2 = 64 ∧
    ssub (depad_10 (manx2_dec_tiny_blocks MANX2_VARIABLE_ADLEN (fun _ => zero_buf) test_key test_nonce 64
        forged_tiny_block zero_buf 16 xor_cipher id).1
      (manx2_dec_tiny_blocks MANX2_VARIABLE_ADLEN (fun _ => zero_buf) test_key test_nonce 64
        forged_tiny_block zero_buf 16 xor_cipher id).1).2 (64 + 2 + MANX2_ALPHASTAR MANX2_VARIABLE_ADLEN) = 2 ^ 64 - 18 ∧
    bitAt (lshift (fun _ => 0xff)
      (offs (depad_10 (manx2_dec_tiny_blocks MANX2_VARIABLE_ADLEN (fun _ => zero_buf) test_key test_nonce 64
        forged_tiny_block zero_buf 16 xor_cipher id).1
        (manx2_dec_tiny_blocks MANX2_VARIABLE_ADLEN (fun _ => zero_buf) test_key test_nonce 64
        forged_tiny_block zero_buf 16 xor_cipher id).1).1 ((64 + 2 + MANX2_ALPHASTAR MANX2_VARIABLE_ADLEN) / 8))
      (2 ^ 64 - 18) ((64 + 2 + MANX2_ALPHASTAR MANX2_VARIABLE_ADLEN) % 8)) 128 = false := by
  refine ⟨by decide, by decide, by decide, ?_, by decide, by decide, by decide, by decide, ?_⟩
  · rw [lshift_bits _ _ _ _ (by decide) 128, if_pos (by decide)]
    decide
  · rw [lshift_bits _ _ _ _ (by decide) 128, if_pos (by decide)]
    decide

end Manx
